import Mathlib

/-!
# Jacobi and Gauss-Seidel iteration on a tridiagonal system (`src/main.cpp`)

A shallow embedding of `main.cpp`.  The scalar type `i_type` (`double` in the
program) is an ordered field `α` with exact arithmetic, the dimension macro `N`
is the parameter `n` (the program fixes it to `N = 20`), and the `for` /
`while` loops of the source are folds and structural recursions that follow the
source statement by statement.  What the program takes from Eigen and `math.h`
and does not define itself is taken by its mathematical meaning: `inverse()` is
the matrix inverse and `eigenvalues()` is a parameter.  `norm()` is the square
root of the sum of squares, with the square root a parameter, where that sum is
in the range of `double`; above the range it is `+inf` and below it `0`, and
the quotient and the comparison that `CMethod::solve` makes with it are those
of IEEE arithmetic on such values (`FloatVal`).

The file has the definitions first: the program, the concrete inputs of the
runs that are evaluated, and what the convergence results for `gamma ≥ 2` are
stated and computed with.  The theorems follow: the loops of the builders, the
loop of `CMethod::solve`, the splittings, the concrete runs, the tridiagonal
system with its spectral and residual bounds, and last the claims.
-/

namespace MpiCpp

/-- `#define N 20`. -/
abbrev N : Nat := 20

/-- `typedef Matrix<i_type, N, N> mat_n`, with the scalar type and the
dimension as parameters. -/
abbrev mat_n (α : Type) (n : Nat) := Matrix (Fin n) (Fin n) α

/-- `typedef Matrix<i_type, N, 1> vec_n`. -/
abbrev vec_n (α : Type) (n : Nat) := Fin n → α

section Builders

variable {α : Type} {n : Nat}

/-- `mat()`: the zero matrix. -/
def mat [Zero α] : mat_n α n := fun _ _ => 0

/-- `vec()`: the zero vector. -/
def vec [Zero α] : vec_n α n := fun _ => 0

/-- The assignment `matrix(y, x) = value` of Eigen, on `int` indices. -/
def setCoeff (matrix : mat_n α n) (y x : Nat) (value : α) : mat_n α n :=
  fun i j => if i.val = y ∧ j.val = x then value else matrix i j

/-- The assignment `vector(x) = value` of Eigen, on an `int` index. -/
def setEntry (vector : vec_n α n) (x : Nat) (value : α) : vec_n α n :=
  fun i => if i.val = x then value else vector i

/-- The loop `for (int x = lo; x < hi; x += 1) body`, threading the state the
body updates. -/
def forLoop {σ : Type} (lo hi : Nat) (body : Nat → σ → σ) (s : σ) : σ :=
  (List.range' lo (hi - lo)).foldl (fun s x => body x s) s

/-- `keepDiagonal`: two nested loops over `y` and `x` that write `0` at
`(y, x)` whenever `x != y`. -/
def keepDiagonal [Zero α] (matrix : mat_n α n) : mat_n α n :=
  forLoop 0 n (fun y matrix =>
    forLoop 0 n (fun x matrix =>
      if x ≠ y then setCoeff matrix y x 0 else matrix) matrix) matrix

/-- `keepUpper`: for every row `y`, the loop `for (x = 0; x <= y; x += 1)`
writes `0` at `(y, x)`. -/
def keepUpper [Zero α] (matrix : mat_n α n) : mat_n α n :=
  forLoop 0 n (fun y matrix =>
    forLoop 0 (y + 1) (fun x matrix => setCoeff matrix y x 0) matrix) matrix

/-- `keepLower`: for every row `y`, the loop `for (x = y; x < N; x += 1)`
writes `0` at `(y, x)`. -/
def keepLower [Zero α] (matrix : mat_n α n) : mat_n α n :=
  forLoop 0 n (fun y matrix =>
    forLoop y n (fun x matrix => setCoeff matrix y x 0) matrix) matrix

/-- `fillDiagonal`: the loop writes `value` at `(x, x)` for every `x`. -/
def fillDiagonal (matrix : mat_n α n) (value : α) : mat_n α n :=
  forLoop 0 n (fun x matrix => setCoeff matrix x x value) matrix

/-- `fillDiagonalSiblings`: two nested loops that write `value` at `(y, x)`
whenever `abs(y - x) == 1`, the difference taken on `int`. -/
def fillDiagonalSiblings (matrix : mat_n α n) (value : α) : mat_n α n :=
  forLoop 0 n (fun y matrix =>
    forLoop 0 n (fun x matrix =>
      if ((y : Int) - (x : Int)).natAbs = 1 then setCoeff matrix y x value
      else matrix) matrix) matrix

/-- `fillPyramid`: the loop writes `value - 1` at the first and at the last
index and `value - 2` at every other index. -/
def fillPyramid [One α] [OfNat α 2] [Sub α] (vector : vec_n α n) (value : α) :
    vec_n α n :=
  forLoop 0 n (fun x vector =>
    if x = 0 ∨ x + 1 = n then setEntry vector x (value - 1)
    else setEntry vector x (value - 2)) vector

end Builders

section Solver

variable {α : Type} [LinearOrderedField α] {n : Nat}

/-- What a `double` or `long double` variable of `CMethod::solve` can hold: a
number, `+inf`, `-inf` or NaN. -/
inductive FloatVal (α : Type) where
  | fin (x : α)
  | posInf
  | negInf
  | nan

instance : Coe α (FloatVal α) := ⟨FloatVal.fin⟩

/-- The quotient of IEEE arithmetic: a number divided by zero is NaN (`0/0`)
or an infinity, a number divided by an infinity is `0`, an infinity divided by
an infinity is NaN.  The zero divisors of the program are norms, so `+0`. -/
def FloatVal.div : FloatVal α → FloatVal α → FloatVal α
  | FloatVal.fin a, FloatVal.fin b =>
    if b = 0 then
      if a = 0 then FloatVal.nan else if 0 < a then FloatVal.posInf else FloatVal.negInf
    else FloatVal.fin (a / b)
  | FloatVal.fin _, FloatVal.posInf => FloatVal.fin 0
  | FloatVal.fin _, FloatVal.negInf => FloatVal.fin 0
  | FloatVal.posInf, FloatVal.fin b => if 0 ≤ b then FloatVal.posInf else FloatVal.negInf
  | FloatVal.negInf, FloatVal.fin b => if 0 ≤ b then FloatVal.negInf else FloatVal.posInf
  | _, _ => FloatVal.nan

instance : Div (FloatVal α) := ⟨FloatVal.div⟩

/-- The comparison `<` of IEEE arithmetic: false as soon as one side is NaN. -/
def FloatVal.blt : FloatVal α → FloatVal α → Bool
  | FloatVal.fin a, FloatVal.fin b => decide (a < b)
  | FloatVal.fin _, FloatVal.posInf => true
  | FloatVal.negInf, FloatVal.fin _ => true
  | FloatVal.negInf, FloatVal.posInf => true
  | _, _ => false

instance : LT (FloatVal α) := ⟨fun x y => FloatVal.blt x y = true⟩

instance (x y : FloatVal α) : Decidable (x < y) :=
  inferInstanceAs (Decidable (FloatVal.blt x y = true))

/-- From `2^1024` on a sum of squares is above the range of `double`. -/
def dblOverflow : α :=
  2 ^ 1024

/-- Up to `2^-1075`, half the smallest positive `double`, a sum of squares
rounds to `0`. -/
def dblUnderflow : α :=
  (2 ^ 1075)⁻¹

/-- The Euclidean norm, the square root of the sum of the squared entries. -/
def euclidNorm (sqrt : α → α) (v : vec_n α n) : α :=
  sqrt (∑ i, v i * v i)

/-- Eigen's `norm()`, the square root of `squaredNorm()` in `double`: the
Euclidean norm where the sum of the squared entries is in the range of
`double`, `+inf` where the sum overflows and `sqrt(0)` where it underflows
(rounding apart).  The square root itself is the one of `math.h`, a parameter
here. -/
def norm (sqrt : α → α) (v : vec_n α n) : FloatVal α :=
  let squaredNorm := ∑ i, v i * v i
  if dblOverflow ≤ squaredNorm then FloatVal.posInf
  else if squaredNorm ≤ dblUnderflow then FloatVal.fin (sqrt 0)
  else FloatVal.fin (sqrt squaredNorm)

/-- Eigen's `inverse()`, by its meaning on an invertible matrix: the adjugate
divided by the determinant. -/
def inverse (M : mat_n α n) : mat_n α n :=
  (Matrix.det M)⁻¹ • Matrix.adjugate M

/-- The loop of `converges` over the entries of `eigenvals`, with its early
`return false`. -/
def convergesLoop {κ : Type} (abs : κ → α) (eigenvals : Fin n → κ) :
    List (Fin n) → Bool
  | [] => true
  | x :: rest =>
    if abs (eigenvals x) ≥ 1 then false else convergesLoop abs eigenvals rest

/-- `converges`: asks Eigen for the `N` eigenvalues of `matrix` (values of a
complex type `κ`, with `abs` the modulus of `std::abs`) and returns `false` at
the first one whose modulus is `>= 1`, `true` when there is none. -/
def converges {κ : Type} (eigenvalues : mat_n α n → Fin n → κ) (abs : κ → α)
    (matrix : mat_n α n) : Bool :=
  let eigenvals := eigenvalues matrix
  convergesLoop abs eigenvals (List.finRange n)

/-- The abstract class `CMethod`: the public fields `K` and `eps` and the two
pure virtual members `name` and `_init`.  `K` is an `int` in the source; a
negative `K` would make `while (k)` count down into signed overflow, so the cap
is a natural number here. -/
structure CMethod (α : Type) (n : Nat) where
  K : Nat
  eps : α
  name : String
  _init : mat_n α n → vec_n α n → mat_n α n × vec_n α n × Bool

/-- What a call of `CMethod::solve` leaves behind: the returned
`pair<vec_n, int>`, the source line of the `return` statement that produced it
(66, 80 or 88), the lines written to `cout`, and two ghost counters, the
number of executions of line 75 (`rk_norm = (A*x - b).norm()`) and of
line 83 (`x = P*x + R`). -/
structure Run (α : Type) (n : Nat) where
  ret : vec_n α n × Int
  line : Nat
  out : List String
  residuals : Nat
  updates : Nat

/-- The loop `while (k) { ... }` of `CMethod::solve`, by recursion on `k`:
at `k = 0` the loop is left and `(x, -(K - k))` is returned; otherwise the
residual is computed and either `(x, K - k)` is returned or `x` is updated
and `k` decremented.  `res` and `upd` are the ghost counters.  The quotient
`rk_norm / b_norm` and the test `curr_eps < eps` are those of `FloatVal`: with
`b_norm` zero or infinite the quotient is NaN, an infinity or `0`. -/
def solveLoop (sqrt : α → α) (A : mat_n α n) (b : vec_n α n) (P : mat_n α n)
    (R : vec_n α n) (K : Nat) (eps : α) (b_norm : FloatVal α) :
    Nat → vec_n α n → Nat → Nat → Run α n
  | 0, x, res, upd => ⟨(x, -((K : Int) - ((0 : Nat) : Int))), 88, [], res, upd⟩
  | k + 1, x, res, upd =>
    let rk_norm := norm sqrt (A.mulVec x - b)
    let curr_eps := rk_norm / b_norm
    if curr_eps < eps then
      ⟨(x, (K : Int) - ((k + 1 : Nat) : Int)), 80, [], res + 1, upd⟩
    else
      solveLoop sqrt A b P R K eps b_norm k (P.mulVec x + R) (res + 1) (upd + 1)

/-- `CMethod::solve`. -/
def CMethod.solve (sqrt : α → α) (m : CMethod α n) (A : mat_n α n)
    (b : vec_n α n) : Run α n :=
  let b_norm := norm sqrt b
  let x : vec_n α n := vec
  let PR := m._init A b
  let P := PR.1
  let R := PR.2.1
  let convergence := PR.2.2
  if !convergence then
    ⟨(x, 0), 66, ["Diverges"], 0, 0⟩
  else
    let k := m.K
    solveLoop sqrt A b P R m.K m.eps b_norm k x 0 0

/-- `CJacobiMethod::_init` (`Q = D`). -/
def CJacobiMethod._init {κ : Type} (eigenvalues : mat_n α n → Fin n → κ)
    (abs : κ → α) (A : mat_n α n) (b : vec_n α n) :
    mat_n α n × vec_n α n × Bool :=
  let D := keepDiagonal A
  let Dinv := inverse D
  let mini := D - A
  let W := (1 : mat_n α n) - Dinv * A
  (Dinv * mini, Dinv.mulVec b, converges eigenvalues abs W)

/-- The class `CJacobiMethod`, with the default `K = 1200` and `eps = 1e-6`
of `CMethod`. -/
def CJacobiMethod {κ : Type} (eigenvalues : mat_n α n → Fin n → κ)
    (abs : κ → α) : CMethod α n :=
  ⟨1200, 1e-6, "Jacobi", CJacobiMethod._init eigenvalues abs⟩

/-- `CGSMethod::_init` (`Q = L + D`). -/
def CGSMethod._init {κ : Type} (eigenvalues : mat_n α n → Fin n → κ)
    (abs : κ → α) (A : mat_n α n) (b : vec_n α n) :
    mat_n α n × vec_n α n × Bool :=
  let L := keepLower A
  let D := keepDiagonal A
  let U := keepUpper A
  let DL := inverse (D + L)
  let W := (1 : mat_n α n) - DL * A
  (DL * (-U), DL.mulVec b, converges eigenvalues abs W)

/-- The class `CGSMethod`, with the default `K = 1200` and `eps = 1e-6` of
`CMethod`. -/
def CGSMethod {κ : Type} (eigenvalues : mat_n α n → Fin n → κ)
    (abs : κ → α) : CMethod α n :=
  ⟨1200, 1e-6, "GS", CGSMethod._init eigenvalues abs⟩

/-- The matrix `A` that `CSolver::solve` builds from `gamma` (lines 225-227). -/
def CSolver.A (gamma : α) : mat_n α n :=
  let A : mat_n α n := mat
  let A := fillDiagonal A gamma
  let A := fillDiagonalSiblings A (-1)
  A

/-- The vector `b` that `CSolver::solve` builds from `gamma` (lines 229-230). -/
def CSolver.b (gamma : α) : vec_n α n :=
  let b : vec_n α n := vec
  let b := fillPyramid b gamma
  b

/-- `CSolver::solve`: builds `A` and `b` from `gamma` and runs the method on
them.  The report it prints from the result is console formatting and is left
out. -/
def CSolver.solve (sqrt : α → α) (gamma : α) (method : CMethod α n) : Run α n :=
  method.solve sqrt (CSolver.A gamma) (CSolver.b gamma)

/-- The iterates of the claims: `x_0 = 0` and `x_{i+1} = P * x_i + R`. -/
def iterate (P : mat_n α n) (R : vec_n α n) : Nat → vec_n α n
  | 0 => vec
  | i + 1 => P.mulVec (iterate P R i) + R

/-- The invertible matrices of the claims: those whose determinant is not
zero. -/
def isInvertible (Q : mat_n α n) : Prop :=
  Q.det ≠ 0

/-- The relative residual as the program computes it for `x` (lines 75-76):
the quotient of `(A*x - b).norm()` and `b.norm()`. -/
def relres (sqrt : α → α) (A : mat_n α n) (b x : vec_n α n) : FloatVal α :=
  norm sqrt (A.mulVec x - b) / norm sqrt b

/-- The relative residual in the Euclidean norm: `||A*x - b|| / ||b||`. -/
def euclidRelres (sqrt : α → α) (A : mat_n α n) (b x : vec_n α n) : α :=
  euclidNorm sqrt (A.mulVec x - b) / euclidNorm sqrt b

end Solver

/-! ## Concrete inputs

The runs below are made on real numbers with the real square root, at the
program's dimension `N`. -/

section Concrete

variable {α : Type} [LinearOrderedField α] {n : Nat}

/-- The eigenvalues of a triangular matrix are real and are its diagonal
entries.  This stands for `eigenvalues()` in the concrete runs, in each of
which the matrix `W` handed to `converges` is triangular; the modulus of
`std::abs` is then the absolute value. -/
def triangularEigenvalues (M : mat_n α n) : Fin n → α :=
  fun x => M x x

/-- The vector with `1` at index `k` and `0` elsewhere. -/
def unitVec (k : Nat) : vec_n α n :=
  fun i => if i.val = k then 1 else 0

/-- The identity matrix with one more entry, `10` at `(0, 1)`. -/
def shearMatrix : mat_n α n :=
  fun i j => if i = j then 1 else if i.val = 0 ∧ j.val = 1 then 10 else 0

/-- The identity matrix with two more entries, `2` at `(0, 1)` and at
`(1, 0)`. -/
def coupledMatrix : mat_n α n :=
  fun i j =>
    if i = j then 1
    else if (i.val = 0 ∧ j.val = 1) ∨ (i.val = 1 ∧ j.val = 0) then 2 else 0

/-- A `CJacobiMethod` object, the eigenvalues being those of a triangular
matrix. -/
def jacobiTri : CMethod α n :=
  CJacobiMethod triangularEigenvalues (fun z : α => |z|)

/-- A `CGSMethod` object, the eigenvalues being those of a triangular
matrix. -/
def gsTri : CMethod α n :=
  CGSMethod triangularEigenvalues (fun z : α => |z|)

/-- A `CJacobiMethod` object whose public field `K` has been set to `1`. -/
def jacobiOneRound : CMethod α n :=
  { (jacobiTri : CMethod α n) with K := 1 }

end Concrete

/-! ## Convergence for `gamma ≥ 2`: the definitions

The eigenvalues of a real matrix, the tridiagonal structure of the built
system, and two computations on lists of natural numbers that bound the
iterates of the two methods. -/

section Analysis

/-- A complex number `μ` is an eigenvalue of the real matrix `M` when
`M * v = μ * v` for some nonzero complex vector `v`. -/
def isEigenvalue {n : Nat} (M : mat_n ℝ n) (μ : ℂ) : Prop :=
  ∃ v : Fin n → ℂ, v ≠ 0 ∧ (M.map Complex.ofReal).mulVec v = μ • v

/-- The all-ones vector. -/
def ones {α : Type} [One α] {n : Nat} : vec_n α n :=
  fun _ => 1

/-- The matrix with `1` on both diagonals next to the main one and `0`
elsewhere. -/
def pathMatrix {α : Type} [Zero α] [One α] {n : Nat} : mat_n α n :=
  fun i j => if i = j then 0 else if |(i.val : Int) - (j.val : Int)| = 1 then 1 else 0

/-- One product with the path matrix on a list of numbers: entry `i` becomes
the sum of its two neighbours, `p` being the entry before the list. -/
def pathAux : Nat → List Nat → List Nat
  | _, [] => []
  | p, x :: rest => (p + rest.headD 0) :: pathAux x rest

/-- One product with the path matrix on a list of numbers. -/
def pathStep (l : List Nat) : List Nat :=
  pathAux 0 l

/-- A test that looks at every entry of the list.  Its value is not used; it
makes an evaluator compute the entries before going on. -/
def forced (l : List Nat) : Bool :=
  l.all (fun x => Nat.beq x x)

/-- The list after `k` products with the path matrix. -/
def pathRun : Nat → List Nat → List Nat
  | 0, l => l
  | k + 1, l =>
    if forced (pathStep l) then pathRun k (pathStep l) else pathRun k (pathStep l)

/-- A list of numbers as a vector. -/
def toVec {α : Type} [NatCast α] {n : Nat} (l : List Nat) : vec_n α n :=
  fun i => ((l.getD i.val 0 : Nat) : α)

/-- The sum of `f 0, ..., f 19`. -/
def sumOver (f : Nat → Int) : Int :=
  ((List.range 20).map f).sum

/-- The entries of `T^1000 * 1`, with `T` the path matrix of dimension 20. -/
def jacU : List Nat :=
  pathRun 1000 (List.replicate 20 1)

/-- The sum of the squares of the entries of `2 * u - T * u`, for `u = jacU`. -/
def jacW0 : Int :=
  sumOver (fun i =>
    (2 * (jacU.getD i 0 : Int) - ((pathStep jacU).getD i 0 : Int)) ^ 2)

/-- The inner product of `2 * u - T * u` and `u`, for `u = jacU`. -/
def jacW1 : Int :=
  sumOver (fun i =>
    (2 * (jacU.getD i 0 : Int) - ((pathStep jacU).getD i 0 : Int)) * (jacU.getD i 0 : Int))

/-- The sum of the squares of the entries of `jacU`. -/
def jacW2 : Int :=
  sumOver (fun i => (jacU.getD i 0 : Int) ^ 2)

/-- One Gauss-Seidel sweep at `gamma = 2` on a list of fixed-point numbers,
each new entry being half the sum of the new entry before it (`p` for the first
one) and the old entry after it, rounded up. -/
def gsAux : Nat → List Nat → List Nat
  | _, [] => []
  | p, _ :: rest =>
    ((p + rest.headD 0 + 1) / 2) :: gsAux ((p + rest.headD 0 + 1) / 2) rest

/-- One Gauss-Seidel sweep at `gamma = 2`, rounded up. -/
def gsStep (l : List Nat) : List Nat :=
  gsAux 0 l

/-- The list after `k` sweeps. -/
def gsRun : Nat → List Nat → List Nat
  | 0, l => l
  | k + 1, l =>
    if forced (gsStep l) then gsRun k (gsStep l) else gsRun k (gsStep l)

/-- Upper bounds, in units of `2^-40`, of the errors `1 - x_750` of
Gauss-Seidel on the built system of dimension 20. -/
def gsE : List Nat :=
  gsRun 750 (List.replicate 20 (2 ^ 40))

/-- The sum of the squares of the entries of `g * u - T * u`, for
`u = T^k * 1` with `T` the path matrix of dimension 20: the squared residual
of the `k`-th Jacobi iterate at `gamma = g`, times `g^(2k)`. -/
def jacResSq (g k : Nat) : Int :=
  sumOver (fun i =>
    ((g : Int) * ((pathRun k (List.replicate 20 1)).getD i 0 : Int)
      - ((pathStep (pathRun k (List.replicate 20 1))).getD i 0 : Int)) ^ 2)

/-- One Gauss-Seidel sweep at `gamma = 3` on a list of fixed-point numbers,
each new entry being a third of the sum of the new entry before it (`p` for
the first one) and the old entry after it, rounded up. -/
def gsAux3 : Nat → List Nat → List Nat
  | _, [] => []
  | p, _ :: rest =>
    ((p + rest.headD 0 + 2) / 3) :: gsAux3 ((p + rest.headD 0 + 2) / 3) rest

/-- One Gauss-Seidel sweep at `gamma = 3`, rounded up. -/
def gsStep3 (l : List Nat) : List Nat :=
  gsAux3 0 l

/-- The list after `k` sweeps at `gamma = 3`. -/
def gsRun3 : Nat → List Nat → List Nat
  | 0, l => l
  | k + 1, l =>
    if forced (gsStep3 l) then gsRun3 k (gsStep3 l) else gsRun3 k (gsStep3 l)

/-- Upper bounds, in units of `2^-40`, of the errors `1 - x_25` of
Gauss-Seidel on the system of dimension 20 built from `gamma = 3`. -/
def gsE3 : List Nat :=
  gsRun3 25 (List.replicate 20 (2 ^ 40))

/-- The `k`-th Gauss-Seidel iterate of the system built from `gamma`, with the
`P` and `R` of `CGSMethod::_init`. -/
def gsIterate {α : Type} [LinearOrderedField α] {n : Nat} (gamma : α) (k : Nat) :
    vec_n α n :=
  iterate
    (inverse (keepDiagonal (CSolver.A gamma : mat_n α n) + keepLower (CSolver.A gamma))
      * (-keepUpper (CSolver.A gamma)))
    ((inverse (keepDiagonal (CSolver.A gamma : mat_n α n)
      + keepLower (CSolver.A gamma))).mulVec (CSolver.b gamma)) k

/-- The entry before index `i`, `0` at the first index. -/
def prevV {R : Type} [Zero R] {n : Nat} (v : Fin n → R) (i : Fin n) : R :=
  if 0 < i.val then v ⟨i.val - 1, lt_of_le_of_lt (Nat.sub_le _ _) i.isLt⟩ else 0

/-- The entry after index `i`, `0` at the last index. -/
def nextV {R : Type} [Zero R] {n : Nat} (v : Fin n → R) (i : Fin n) : R :=
  if h : i.val + 1 < n then v ⟨i.val + 1, h⟩ else 0

end Analysis

/-! ## The loops of the matrix builders -/

section BuilderLemmas

variable {α : Type} {n : Nat}

theorem foldl_setCoeff_row (c : Nat → Prop) [DecidablePred c] (y : Nat) (v : α)
    (xs : List Nat) (m : mat_n α n) (i j : Fin n) :
    (xs.foldl (fun m x => if c x then setCoeff m y x v else m) m) i j
      = if i.val = y ∧ j.val ∈ xs ∧ c j.val then v else m i j := by
  induction xs generalizing m with
  | nil => simp
  | cons x xs ih =>
    rw [List.foldl_cons, ih]
    by_cases hx : c x
    · simp only [hx, if_true, setCoeff, List.mem_cons]
      by_cases h1 : i.val = y ∧ j.val ∈ xs ∧ c j.val
      · have h2 : i.val = y ∧ (j.val = x ∨ j.val ∈ xs) ∧ c j.val :=
          ⟨h1.1, Or.inr h1.2.1, h1.2.2⟩
        rw [if_pos h1, if_pos h2]
      · rw [if_neg h1]
        by_cases h3 : i.val = y ∧ j.val = x
        · have h2 : i.val = y ∧ (j.val = x ∨ j.val ∈ xs) ∧ c j.val :=
            ⟨h3.1, Or.inl h3.2, h3.2 ▸ hx⟩
          rw [if_pos h3, if_pos h2]
        · have h2 : ¬ (i.val = y ∧ (j.val = x ∨ j.val ∈ xs) ∧ c j.val) := by
            rintro ⟨a, b | b, d⟩
            · exact h3 ⟨a, b⟩
            · exact h1 ⟨a, b, d⟩
          rw [if_neg h3, if_neg h2]
    · simp only [hx, if_false, List.mem_cons]
      by_cases h1 : i.val = y ∧ j.val ∈ xs ∧ c j.val
      · have h2 : i.val = y ∧ (j.val = x ∨ j.val ∈ xs) ∧ c j.val :=
          ⟨h1.1, Or.inr h1.2.1, h1.2.2⟩
        rw [if_pos h1, if_pos h2]
      · have h2 : ¬ (i.val = y ∧ (j.val = x ∨ j.val ∈ xs) ∧ c j.val) := by
          rintro ⟨a, b | b, d⟩
          · exact hx (b ▸ d)
          · exact h1 ⟨a, b, d⟩
        rw [if_neg h1, if_neg h2]

theorem foldl_rows (q : Nat → Nat → Prop) [∀ y x, Decidable (q y x)] (v : α)
    (inner : Nat → mat_n α n → mat_n α n)
    (hin : ∀ y m (i j : Fin n),
      inner y m i j = if i.val = y ∧ q y j.val then v else m i j)
    (ys : List Nat) (m : mat_n α n) (i j : Fin n) :
    (ys.foldl (fun m y => inner y m) m) i j
      = if i.val ∈ ys ∧ q i.val j.val then v else m i j := by
  induction ys generalizing m with
  | nil => simp
  | cons y ys ih =>
    rw [List.foldl_cons, ih, hin]
    simp only [List.mem_cons]
    by_cases h1 : i.val ∈ ys ∧ q i.val j.val
    · rw [if_pos h1, if_pos ⟨Or.inr h1.1, h1.2⟩]
    · rw [if_neg h1]
      by_cases h3 : i.val = y ∧ q y j.val
      · rw [if_pos h3, if_pos ⟨Or.inl h3.1, h3.1 ▸ h3.2⟩]
      · have h2 : ¬ ((i.val = y ∨ i.val ∈ ys) ∧ q i.val j.val) := by
          rintro ⟨a | a, d⟩
          · exact h3 ⟨a, a ▸ d⟩
          · exact h1 ⟨a, d⟩
        rw [if_neg h3, if_neg h2]

theorem mem_range_zero (n : Nat) (i : Fin n) : i.val ∈ List.range' 0 (n - 0) := by
  rw [List.mem_range'_1]
  exact ⟨Nat.zero_le _, by simp⟩

/-- What `keepDiagonal` leaves: the entry on the diagonal, `0` elsewhere. -/
theorem keepDiagonal_apply [Zero α] (M : mat_n α n) (i j : Fin n) :
    keepDiagonal M i j = if i = j then M i j else 0 := by
  unfold keepDiagonal forLoop
  rw [foldl_rows (fun y x => x ≠ y) (0 : α) _ (fun y m i j => by
    have h := foldl_setCoeff_row (fun x => x ≠ y) y (0 : α) (List.range' 0 (n - 0)) m i j
    rw [h]
    have hj := mem_range_zero n j
    simp [hj])]
  have hi := mem_range_zero n i
  by_cases h : i = j
  · subst h
    simp
  · have h2 : j.val ≠ i.val := fun e => h (Fin.ext e.symm)
    simp [hi, h, h2]

/-- What `keepUpper` leaves: the entries strictly above the diagonal. -/
theorem keepUpper_apply [Zero α] (M : mat_n α n) (i j : Fin n) :
    keepUpper M i j = if i < j then M i j else 0 := by
  unfold keepUpper forLoop
  rw [foldl_rows (fun y x => x ≤ y) (0 : α) _ (fun y m i j => by
    have h := foldl_setCoeff_row (fun _ => True) y (0 : α)
      (List.range' 0 (y + 1 - 0)) m i j
    simp only [if_true] at h
    rw [h]
    simp [List.mem_range'_1, Nat.lt_succ_iff])]
  have hi := mem_range_zero n i
  by_cases h : i < j
  · have h2 : ¬ (j.val ≤ i.val) := Nat.not_le.mpr h
    simp [h, h2]
  · have h2 : j.val ≤ i.val := Nat.not_lt.mp h
    simp [hi, h, h2]

/-- What `keepLower` leaves: the entries strictly below the diagonal. -/
theorem keepLower_apply [Zero α] (M : mat_n α n) (i j : Fin n) :
    keepLower M i j = if j < i then M i j else 0 := by
  unfold keepLower forLoop
  rw [foldl_rows (fun y x => y ≤ x) (0 : α) _ (fun y m i j => by
    have h := foldl_setCoeff_row (fun _ => True) y (0 : α)
      (List.range' y (n - y)) m i j
    simp only [if_true] at h
    rw [h]
    have hj : j.val < n := j.isLt
    have e : (j.val ∈ List.range' y (n - y) ∧ True) ↔ y ≤ j.val := by
      rw [List.mem_range'_1]
      constructor
      · exact fun hh => hh.1.1
      · exact fun hh => ⟨⟨hh, by omega⟩, trivial⟩
    simp only [e])]
  have hi := mem_range_zero n i
  by_cases h : j < i
  · have h2 : ¬ (i.val ≤ j.val) := Nat.not_le.mpr h
    simp [h, h2]
  · have h2 : i.val ≤ j.val := Nat.not_lt.mp h
    simp [hi, h, h2]

/-- What `fillDiagonal` leaves: `value` on the diagonal, the old entry
elsewhere. -/
theorem fillDiagonal_apply (M : mat_n α n) (value : α) (i j : Fin n) :
    fillDiagonal M value i j = if i = j then value else M i j := by
  unfold fillDiagonal forLoop
  have key : ∀ (xs : List Nat) (m : mat_n α n),
      (xs.foldl (fun m x => setCoeff m x x value) m) i j
        = if i.val ∈ xs ∧ i.val = j.val then value else m i j := by
    intro xs
    induction xs with
    | nil => intro m; simp
    | cons x xs ih =>
      intro m
      rw [List.foldl_cons, ih]
      simp only [setCoeff, List.mem_cons]
      by_cases h1 : i.val ∈ xs ∧ i.val = j.val
      · rw [if_pos h1, if_pos ⟨Or.inr h1.1, h1.2⟩]
      · rw [if_neg h1]
        by_cases h3 : i.val = x ∧ j.val = x
        · rw [if_pos h3, if_pos ⟨Or.inl h3.1, h3.1.trans h3.2.symm⟩]
        · have h2 : ¬ ((i.val = x ∨ i.val ∈ xs) ∧ i.val = j.val) := by
            rintro ⟨a | a, d⟩
            · exact h3 ⟨a, d ▸ a⟩
            · exact h1 ⟨a, d⟩
          rw [if_neg h3, if_neg h2]
  rw [key]
  have hi := mem_range_zero n i
  by_cases h : i = j
  · subst h
    simp [hi]
  · have h2 : i.val ≠ j.val := fun e => h (Fin.ext e)
    simp [h, h2]

/-- What `fillDiagonalSiblings` leaves: `value` at the entries one step off
the diagonal, the old entry elsewhere. -/
theorem fillDiagonalSiblings_apply (M : mat_n α n) (value : α) (i j : Fin n) :
    fillDiagonalSiblings M value i j
      = if ((i.val : Int) - (j.val : Int)).natAbs = 1 then value else M i j := by
  unfold fillDiagonalSiblings forLoop
  rw [foldl_rows (fun y x => ((y : Int) - (x : Int)).natAbs = 1) value _
    (fun y m i j => by
      have h := foldl_setCoeff_row (fun x => ((y : Int) - (x : Int)).natAbs = 1) y value
        (List.range' 0 (n - 0)) m i j
      rw [h]
      have hj := mem_range_zero n j
      simp [hj])]
  have hi := mem_range_zero n i
  simp [hi]

end BuilderLemmas

/-! ## The loop of `CMethod::solve` -/

section LoopLemmas

variable {α : Type} [LinearOrderedField α] {n : Nat}

theorem iterate_eq_iterate (P : mat_n α n) (R : vec_n α n) (j : Nat) :
    iterate P R j = (fun x => P.mulVec x + R)^[j] vec := by
  induction j with
  | zero => rfl
  | succ j ih => rw [Function.iterate_succ_apply', ← ih]; rfl

/-- The loop started with `k` rounds left at `x` returns at line 80 when the
`j`-th iterate from `x`, `j < k`, is the first one below the threshold. -/
theorem solveLoop_converged (sqrt : α → α) (A : mat_n α n) (b : vec_n α n)
    (P : mat_n α n) (R : vec_n α n) (K : Nat) (eps : α) (b_norm : FloatVal α) :
    ∀ (k j : Nat) (x : vec_n α n) (res upd : Nat), j < k →
      (∀ i, i < j → ¬ (norm sqrt
        (A.mulVec ((fun x => P.mulVec x + R)^[i] x) - b) / b_norm < eps)) →
      norm sqrt (A.mulVec ((fun x => P.mulVec x + R)^[j] x) - b) / b_norm < eps →
      solveLoop sqrt A b P R K eps b_norm k x res upd
        = ⟨((fun x => P.mulVec x + R)^[j] x, (K : Int) - (k : Int) + (j : Int)),
            80, [], res + j + 1, upd + j⟩ := by
  intro k
  induction k with
  | zero => intro j x res upd hj; exact absurd hj (Nat.not_lt_zero _)
  | succ k ih =>
    intro j x res upd hj hmin hhit
    cases j with
    | zero =>
      simp only [Function.iterate_zero, id_eq] at hhit
      simp only [solveLoop, if_pos hhit, Function.iterate_zero, id_eq]
      simp
    | succ j =>
      have h0 := hmin 0 (Nat.succ_pos j)
      simp only [Function.iterate_zero, id_eq] at h0
      simp only [solveLoop, if_neg h0]
      rw [ih j (P.mulVec x + R) (res + 1) (upd + 1) (Nat.lt_of_succ_lt_succ hj)
        (fun i hi => by
          have := hmin (i + 1) (Nat.succ_lt_succ hi)
          rwa [Function.iterate_succ_apply] at this)
        (by rwa [Function.iterate_succ_apply] at hhit)]
      rw [Function.iterate_succ_apply]
      congr 1
      · congr 1
        push_cast
        ring
      · omega
      · omega

/-- The loop started with `k` rounds left at `x` leaves at line 88 after `k`
updates when none of the first `k` iterates from `x` is below the threshold. -/
theorem solveLoop_exhausted (sqrt : α → α) (A : mat_n α n) (b : vec_n α n)
    (P : mat_n α n) (R : vec_n α n) (K : Nat) (eps : α) (b_norm : FloatVal α) :
    ∀ (k : Nat) (x : vec_n α n) (res upd : Nat),
      (∀ i, i < k → ¬ (norm sqrt
        (A.mulVec ((fun x => P.mulVec x + R)^[i] x) - b) / b_norm < eps)) →
      solveLoop sqrt A b P R K eps b_norm k x res upd
        = ⟨((fun x => P.mulVec x + R)^[k] x, -(K : Int)), 88, [], res + k, upd + k⟩ := by
  intro k
  induction k with
  | zero => intro x res upd _; simp [solveLoop]
  | succ k ih =>
    intro x res upd hmin
    have h0 := hmin 0 (Nat.succ_pos k)
    simp only [Function.iterate_zero, id_eq] at h0
    simp only [solveLoop, if_neg h0]
    rw [ih (P.mulVec x + R) (res + 1) (upd + 1) (fun i hi => by
      have := hmin (i + 1) (Nat.succ_lt_succ hi)
      rwa [Function.iterate_succ_apply] at this)]
    rw [Function.iterate_succ_apply]
    congr 1
    · omega
    · omega

/-- The three ways `CMethod::solve` returns, with `(P, R, converges)` what
`_init` gave: at line 66 when `converges` is false; at line 80 with
`(x_j, j)` when `x_j`, `j < K`, is the first iterate below the threshold; at
line 88 with `(x_K, -K)` when none of `x_0, ..., x_{K-1}` is. -/
theorem solve_cases (sqrt : α → α) (m : CMethod α n) (A : mat_n α n)
    (b : vec_n α n) :
    ((m._init A b).2.2 = false ∧
        m.solve sqrt A b = ⟨(vec, 0), 66, ["Diverges"], 0, 0⟩) ∨
    ((m._init A b).2.2 = true ∧ ∃ j, j < m.K ∧
        relres sqrt A b (iterate (m._init A b).1 (m._init A b).2.1 j) < m.eps ∧
        (∀ i, i < j →
          ¬ relres sqrt A b (iterate (m._init A b).1 (m._init A b).2.1 i) < m.eps) ∧
        m.solve sqrt A b
          = ⟨(iterate (m._init A b).1 (m._init A b).2.1 j, (j : Int)), 80, [],
              j + 1, j⟩) ∨
    ((m._init A b).2.2 = true ∧
        (∀ i, i < m.K →
          ¬ relres sqrt A b (iterate (m._init A b).1 (m._init A b).2.1 i) < m.eps) ∧
        m.solve sqrt A b
          = ⟨(iterate (m._init A b).1 (m._init A b).2.1 m.K, -(m.K : Int)), 88, [],
              m.K, m.K⟩) := by
  cases hc : (m._init A b).2.2 with
  | false =>
    left
    refine ⟨rfl, ?_⟩
    simp [CMethod.solve, hc]
  | true =>
    right
    by_cases hex : ∃ j, j < m.K ∧
        relres sqrt A b (iterate (m._init A b).1 (m._init A b).2.1 j) < m.eps
    · left
      classical
      refine ⟨rfl, Nat.find hex, (Nat.find_spec hex).1, (Nat.find_spec hex).2, ?_, ?_⟩
      · intro i hi hlt
        exact Nat.find_min hex hi ⟨hi.trans (Nat.find_spec hex).1, hlt⟩
      · simp only [CMethod.solve, hc, Bool.not_true, Bool.false_eq_true, if_false]
        rw [solveLoop_converged sqrt A b _ _ m.K m.eps _ m.K (Nat.find hex) vec 0 0
          (Nat.find_spec hex).1
          (fun i hi hlt => by
            rw [← iterate_eq_iterate] at hlt
            exact Nat.find_min hex hi ⟨hi.trans (Nat.find_spec hex).1, hlt⟩)
          (by
            rw [← iterate_eq_iterate]
            exact (Nat.find_spec hex).2)]
        rw [← iterate_eq_iterate]
        simp
    · right
      have hno : ∀ i, i < m.K →
          ¬ relres sqrt A b (iterate (m._init A b).1 (m._init A b).2.1 i) < m.eps :=
        fun i hi hlt => hex ⟨i, hi, hlt⟩
      refine ⟨rfl, hno, ?_⟩
      simp only [CMethod.solve, hc, Bool.not_true, Bool.false_eq_true, if_false]
      rw [solveLoop_exhausted sqrt A b _ _ m.K m.eps _ m.K vec 0 0
        (fun i hi hlt => by
          rw [← iterate_eq_iterate] at hlt
          exact hno i hi hlt)]
      rw [← iterate_eq_iterate]
      simp

end LoopLemmas

/-! ## The values of `norm()` and the test of the loop -/

section FloatLemmas

variable {α : Type} [LinearOrderedField α] {n : Nat}

theorem vec_mulVec_zero (M : mat_n α n) : M.mulVec (vec : vec_n α n) = 0 := by
  have : (vec : vec_n α n) = 0 := rfl
  rw [this, Matrix.mulVec_zero]

theorem fin_lt_fin (a b : α) : (FloatVal.fin a : FloatVal α) < FloatVal.fin b ↔ a < b := by
  show FloatVal.blt (FloatVal.fin a) (FloatVal.fin b) = true ↔ a < b
  simp [FloatVal.blt]

theorem not_nan_lt (y : FloatVal α) : ¬ (FloatVal.nan : FloatVal α) < y := by
  show ¬ FloatVal.blt FloatVal.nan y = true
  cases y <;> simp [FloatVal.blt]

theorem not_posInf_lt (y : FloatVal α) : ¬ (FloatVal.posInf : FloatVal α) < y := by
  show ¬ FloatVal.blt FloatVal.posInf y = true
  cases y <;> simp [FloatVal.blt]

theorem fin_div_fin (a b : α) (hb : b ≠ 0) :
    (FloatVal.fin a : FloatVal α) / FloatVal.fin b = FloatVal.fin (a / b) := by
  show FloatVal.div (FloatVal.fin a) (FloatVal.fin b) = FloatVal.fin (a / b)
  simp [FloatVal.div, hb]

theorem fin_zero_div_zero :
    (FloatVal.fin 0 : FloatVal α) / FloatVal.fin 0 = FloatVal.nan := by
  show FloatVal.div (FloatVal.fin 0) (FloatVal.fin 0) = FloatVal.nan
  simp [FloatVal.div]

theorem posInf_div_posInf :
    (FloatVal.posInf : FloatVal α) / FloatVal.posInf = FloatVal.nan := rfl

theorem posInf_div_fin (b : α) (hb : 0 ≤ b) :
    (FloatVal.posInf : FloatVal α) / FloatVal.fin b = FloatVal.posInf := by
  show FloatVal.div FloatVal.posInf (FloatVal.fin b) = FloatVal.posInf
  simp [FloatVal.div, hb]

theorem norm_of_overflow (sqrt : α → α) (v : vec_n α n)
    (h : dblOverflow ≤ ∑ i, v i * v i) : norm sqrt v = FloatVal.posInf := by
  simp [norm, h]

theorem norm_of_underflow (sqrt : α → α) (v : vec_n α n)
    (h : ∑ i, v i * v i ≤ dblUnderflow) : norm sqrt v = FloatVal.fin (sqrt 0) := by
  have h1 : (dblUnderflow : α) < dblOverflow := by
    unfold dblUnderflow dblOverflow
    have : ((2 : α) ^ 1075)⁻¹ ≤ 1 := inv_le_one_of_one_le₀ (one_le_pow₀ (by norm_num))
    have : (1 : α) < 2 ^ 1024 := one_lt_pow₀ (by norm_num) (by norm_num)
    linarith
  have h2 : ¬ dblOverflow ≤ ∑ i, v i * v i := by
    intro hc
    linarith
  simp [norm, h, h2]

theorem norm_of_normal (sqrt : α → α) (v : vec_n α n)
    (h1 : dblUnderflow < ∑ i, v i * v i) (h2 : ∑ i, v i * v i < dblOverflow) :
    norm sqrt v = FloatVal.fin (euclidNorm sqrt v) := by
  simp [norm, euclidNorm, not_le.mpr h1, not_le.mpr h2]

theorem norm_neg_vec (sqrt : α → α) (v : vec_n α n) : norm sqrt (-v) = norm sqrt v := by
  simp [norm]

/-- The sum of the squares of a vector with one entry. -/
theorem sum_sq_single (c : α) (k : Nat) (hk : k < n) :
    ∑ i : Fin n, (if i.val = k then c else 0) * (if i.val = k then c else 0) = c * c := by
  rw [Finset.sum_eq_single (⟨k, hk⟩ : Fin n)]
  · simp
  · intro i _ hi
    have : i.val ≠ k := fun e => hi (Fin.ext e)
    simp [this]
  · simp

theorem dblUnderflow_pos : (0 : α) < dblUnderflow := by
  unfold dblUnderflow
  positivity

theorem euclidNorm_nonneg (v : vec_n ℝ n) : 0 ≤ euclidNorm Real.sqrt v :=
  Real.sqrt_nonneg _

/-- The starting iterate `x_0 = 0` never passes the test when `eps ≤ 1`: the
quotient is `1`, or NaN when `b.norm()` is zero or infinite. -/
theorem relres_start_not_lt (A : mat_n ℝ n) (b : vec_n ℝ n) (eps : ℝ) (heps : eps ≤ 1) :
    ¬ relres Real.sqrt A b vec < eps := by
  unfold relres
  rw [vec_mulVec_zero, zero_sub, norm_neg_vec]
  by_cases h2 : dblOverflow ≤ ∑ i, b i * b i
  · rw [norm_of_overflow _ _ h2, posInf_div_posInf]
    exact not_nan_lt _
  · by_cases h1 : ∑ i, b i * b i ≤ dblUnderflow
    · rw [norm_of_underflow _ _ h1, Real.sqrt_zero, fin_zero_div_zero]
      exact not_nan_lt _
    · rw [norm_of_normal _ _ (not_le.mp h1) (not_le.mp h2)]
      have hpos : 0 < ∑ i, b i * b i := lt_trans dblUnderflow_pos (not_le.mp h1)
      have hne : euclidNorm Real.sqrt b ≠ 0 := by
        unfold euclidNorm
        exact (Real.sqrt_pos.mpr hpos).ne'
      rw [fin_div_fin _ _ hne, fin_lt_fin, div_self hne]
      exact not_lt.mpr heps

/-- A Euclidean relative residual below `eps ≤ 1` passes the program's test
when `b.norm()` is a positive number. -/
theorem relres_lt_of_euclid (A : mat_n ℝ n) (b x : vec_n ℝ n) (eps : ℝ)
    (hb1 : dblUnderflow < ∑ i, b i * b i) (hb2 : ∑ i, b i * b i < dblOverflow)
    (heps : eps ≤ 1) (h : euclidRelres Real.sqrt A b x < eps) :
    relres Real.sqrt A b x < eps := by
  have hpos : 0 < ∑ i, b i * b i := lt_trans dblUnderflow_pos hb1
  have hbpos : 0 < euclidNorm Real.sqrt b := Real.sqrt_pos.mpr hpos
  have hne : euclidNorm Real.sqrt b ≠ 0 := hbpos.ne'
  have heps0 : 0 < eps := lt_of_le_of_lt
    (div_nonneg (euclidNorm_nonneg _) (euclidNorm_nonneg _)) h
  unfold relres
  rw [norm_of_normal _ b hb1 hb2]
  have hlt : euclidNorm Real.sqrt (A.mulVec x - b) < euclidNorm Real.sqrt b := by
    unfold euclidRelres at h
    rw [div_lt_iff₀ hbpos] at h
    have : eps * euclidNorm Real.sqrt b ≤ 1 * euclidNorm Real.sqrt b :=
      mul_le_mul_of_nonneg_right heps hbpos.le
    linarith
  have hr2 : ∑ i, (A.mulVec x - b) i * (A.mulVec x - b) i < dblOverflow := by
    have := (Real.sqrt_lt_sqrt_iff
      (Finset.sum_nonneg (fun i _ => mul_self_nonneg ((A.mulVec x - b) i)))).mp hlt
    linarith
  by_cases h1 : ∑ i, (A.mulVec x - b) i * (A.mulVec x - b) i ≤ dblUnderflow
  · rw [norm_of_underflow _ _ h1, Real.sqrt_zero, fin_div_fin _ _ hne, fin_lt_fin, zero_div]
    exact heps0
  · rw [norm_of_normal _ _ (not_le.mp h1) hr2, fin_div_fin _ _ hne, fin_lt_fin]
    exact h

/-- A Euclidean relative residual not below `eps` fails the program's test
when `b.norm()` is a positive number and `eps * ||b||` is not so small that a
residual of that size underflows. -/
theorem not_relres_lt_of_euclid (A : mat_n ℝ n) (b x : vec_n ℝ n) (eps : ℝ)
    (hb1 : dblUnderflow < ∑ i, b i * b i) (hb2 : ∑ i, b i * b i < dblOverflow)
    (heps : 0 ≤ eps) (hlow : dblUnderflow < eps ^ 2 * ∑ i, b i * b i)
    (h : ¬ euclidRelres Real.sqrt A b x < eps) :
    ¬ relres Real.sqrt A b x < eps := by
  have hpos : 0 < ∑ i, b i * b i := lt_trans dblUnderflow_pos hb1
  have hbpos : 0 < euclidNorm Real.sqrt b := Real.sqrt_pos.mpr hpos
  have hne : euclidNorm Real.sqrt b ≠ 0 := hbpos.ne'
  unfold relres
  rw [norm_of_normal _ b hb1 hb2]
  by_cases h2 : dblOverflow ≤ ∑ i, (A.mulVec x - b) i * (A.mulVec x - b) i
  · rw [norm_of_overflow _ _ h2, posInf_div_fin _ hbpos.le]
    exact not_posInf_lt _
  · have hge : eps ≤ euclidRelres Real.sqrt A b x := not_lt.mp h
    have hr1 : dblUnderflow < ∑ i, (A.mulVec x - b) i * (A.mulVec x - b) i := by
      unfold euclidRelres at hge
      rw [le_div_iff₀ hbpos] at hge
      have hsq : (eps * euclidNorm Real.sqrt b) ^ 2
          ≤ (euclidNorm Real.sqrt (A.mulVec x - b)) ^ 2 :=
        pow_le_pow_left₀ (mul_nonneg heps hbpos.le) hge 2
      unfold euclidNorm at hsq
      rw [mul_pow, Real.sq_sqrt hpos.le, Real.sq_sqrt
        (Finset.sum_nonneg (fun i _ => mul_self_nonneg ((A.mulVec x - b) i)))] at hsq
      linarith
    rw [norm_of_normal _ _ hr1 (not_le.mp h2), fin_div_fin _ _ hne, fin_lt_fin]
    exact h

/-- The norm `norm()` gives for a vector with one entry `c ≥ 0` whose square is
in the range of `double`. -/
theorem norm_single (c : ℝ) (k : Nat) (hk : k < n) (hc : 0 ≤ c)
    (h1 : dblUnderflow < c * c) (h2 : c * c < dblOverflow) :
    norm Real.sqrt (fun i : Fin n => if i.val = k then c else 0) = FloatVal.fin c := by
  have hs := sum_sq_single c k hk
  rw [norm_of_normal Real.sqrt _ (by rw [hs]; exact h1) (by rw [hs]; exact h2)]
  unfold euclidNorm
  rw [hs, Real.sqrt_mul_self hc]

theorem norm_zero_vec : norm Real.sqrt (0 : vec_n ℝ n) = FloatVal.fin 0 := by
  rw [norm_of_underflow Real.sqrt _ (by simpa using dblUnderflow_pos.le), Real.sqrt_zero]

theorem norm_unitVec (k : Nat) (hk : k < n) :
    norm Real.sqrt (unitVec k : vec_n ℝ n) = FloatVal.fin 1 :=
  norm_single 1 k hk (by norm_num) (by unfold dblUnderflow; norm_num)
    (by unfold dblOverflow; norm_num)

theorem norm_neg_unitVec (k : Nat) (hk : k < n) :
    norm Real.sqrt (-(unitVec k : vec_n ℝ n)) = FloatVal.fin 1 := by
  rw [norm_neg_vec, norm_unitVec k hk]

end FloatLemmas

/-! ## The splittings -/

section SplittingLemmas

variable {α : Type} [LinearOrderedField α] {n : Nat}

theorem inverse_eq_inv (M : mat_n α n) : inverse M = M⁻¹ := by
  simp [inverse, Matrix.inv_def]

/-- `keepLower M + keepDiagonal M + keepUpper M` gives `M` back. -/
theorem keep_decomposition (M : mat_n α n) :
    keepLower M + keepDiagonal M + keepUpper M = M := by
  ext i j
  simp only [Matrix.add_apply, keepLower_apply, keepDiagonal_apply, keepUpper_apply]
  rcases lt_trichotomy i j with h | h | h
  · simp [h, ne_of_lt h, not_lt_of_lt h]
  · subst h
    simp
  · simp [h, ne_of_gt h, not_lt_of_lt h]

/-- With `Q` invertible, `x` is a fixed point of `x ↦ (Q⁻¹ * M) x + Q⁻¹ b`
exactly when `Q x = M x + b`. -/
theorem fixed_point_iff (Q M : mat_n α n) (b x : vec_n α n) (hQ : Q.det ≠ 0) :
    x = (inverse Q * M).mulVec x + (inverse Q).mulVec b
      ↔ Q.mulVec x = M.mulVec x + b := by
  have hu : IsUnit Q.det := isUnit_iff_ne_zero.mpr hQ
  rw [inverse_eq_inv, ← Matrix.mulVec_mulVec, ← Matrix.mulVec_add]
  constructor
  · intro h
    have h2 := congrArg (fun v => Q.mulVec v) h
    simp only [Matrix.mulVec_mulVec, Matrix.mul_nonsing_inv Q hu, Matrix.one_mulVec] at h2
    exact h2
  · intro h
    rw [← h, Matrix.mulVec_mulVec, Matrix.nonsing_inv_mul Q hu, Matrix.one_mulVec]

end SplittingLemmas

/-! ## The concrete runs -/

section ConcreteLemmas

variable {α : Type} [LinearOrderedField α] {n : Nat}

theorem convergesLoop_eq_true_iff {κ : Type} (abs : κ → α) (ev : Fin n → κ)
    (l : List (Fin n)) :
    convergesLoop abs ev l = true ↔ ∀ x, x ∈ l → abs (ev x) < 1 := by
  induction l with
  | nil => simp [convergesLoop]
  | cons x l ih =>
    simp only [convergesLoop, List.mem_cons, forall_eq_or_imp]
    by_cases h : abs (ev x) ≥ 1
    · simp [h, not_lt.mpr h]
    · simp [h, ih, not_le.mp h]

theorem converges_eq_true_iff {κ : Type} (eigenvalues : mat_n α n → Fin n → κ)
    (abs : κ → α) (M : mat_n α n) :
    converges eigenvalues abs M = true ↔ ∀ i, abs (eigenvalues M i) < 1 := by
  simp [converges, convergesLoop_eq_true_iff, List.mem_finRange]

theorem keepDiagonal_of_unit_diagonal (A : mat_n α n) (h : ∀ i, A i i = 1) :
    keepDiagonal A = 1 := by
  ext i j
  rw [keepDiagonal_apply, Matrix.one_apply]
  by_cases hij : i = j
  · subst hij
    simp [h]
  · simp [hij]

/-- On a matrix with unit diagonal, `CJacobiMethod::_init` has `Q = 1`. -/
theorem jacobi_init_of_unit_diagonal {κ : Type}
    (eigenvalues : mat_n α n → Fin n → κ) (abs : κ → α) (A : mat_n α n)
    (b : vec_n α n) (h : ∀ i, A i i = 1) :
    CJacobiMethod._init eigenvalues abs A b
      = (1 - A, b, converges eigenvalues abs (1 - A)) := by
  simp [CJacobiMethod._init, keepDiagonal_of_unit_diagonal A h, inverse_eq_inv]

/-- `CJacobiMethod::_init` on `A = 1`, `b = e_0`: `P = 0`, `R = b`, and `W = 0`
has all its eigenvalues `0`. -/
theorem jacobi_init_identity :
    CJacobiMethod._init triangularEigenvalues (fun z : ℝ => |z|)
      (1 : mat_n ℝ N) (unitVec 0) = (0, unitVec 0, true) := by
  rw [jacobi_init_of_unit_diagonal _ _ _ _ (fun i => by simp), sub_self]
  have hconv : converges triangularEigenvalues (fun z : ℝ => |z|)
      (0 : mat_n ℝ N) = true := by
    rw [converges_eq_true_iff]
    intro i
    simp [triangularEigenvalues]
  rw [hconv]

/-- The run of Jacobi with `K = 1` on the shear matrix, `b = e_1`. -/
theorem run_shear :
    (jacobiOneRound : CMethod ℝ N).solve Real.sqrt shearMatrix (unitVec 1)
      = ⟨(unitVec 1, -1), 88, [], 1, 1⟩ := by
  have hinit : CJacobiMethod._init triangularEigenvalues (fun z : ℝ => |z|)
      (shearMatrix : mat_n ℝ N) (unitVec 1)
        = (1 - shearMatrix, unitVec 1, true) := by
    rw [jacobi_init_of_unit_diagonal _ _ _ _ (fun i => by simp [shearMatrix])]
    have hconv : converges triangularEigenvalues (fun z : ℝ => |z|)
        (1 - shearMatrix : mat_n ℝ N) = true := by
      rw [converges_eq_true_iff]
      intro i
      simp [triangularEigenvalues, shearMatrix]
    rw [hconv]
  simp only [CMethod.solve, jacobiOneRound, jacobiTri, CJacobiMethod, hinit, Bool.not_true,
    Bool.false_eq_true, if_false]
  rw [solveLoop_exhausted Real.sqrt _ _ _ _ 1 _ _ 1 vec 0 0]
  · simp [vec_mulVec_zero]
  · intro i hi
    have hi0 : i = 0 := by omega
    subst hi0
    simp only [Function.iterate_zero, id_eq, vec_mulVec_zero, zero_sub]
    rw [norm_neg_unitVec 1 (by norm_num), norm_unitVec 1 (by norm_num),
      fin_div_fin _ _ one_ne_zero, fin_lt_fin]
    norm_num

theorem det_keepDiagonal (A : mat_n α n) :
    (keepDiagonal A).det = ∏ i, A i i := by
  have h : keepDiagonal A = Matrix.diagonal (fun i => A i i) := by
    ext i j
    rw [keepDiagonal_apply, Matrix.diagonal_apply]
    by_cases hij : i = j
    · subst hij
      simp
    · simp [hij]
  rw [h, Matrix.det_diagonal]

theorem det_keepDiagonal_add_keepLower (A : mat_n α n) :
    (keepDiagonal A + keepLower A).det = ∏ i, A i i := by
  rw [Matrix.det_of_lowerTriangular]
  · apply Finset.prod_congr rfl
    intro i _
    simp [keepDiagonal_apply, keepLower_apply]
  · intro i j hij
    have hlt : i < j := hij
    simp [keepDiagonal_apply, keepLower_apply, ne_of_lt hlt, not_lt_of_lt hlt]

theorem isInvertible_keepDiagonal (A : mat_n α n) (h : ∀ i, A i i ≠ 0) :
    isInvertible (keepDiagonal A) := by
  unfold isInvertible
  rw [det_keepDiagonal]
  exact Finset.prod_ne_zero_iff.mpr (fun i _ => h i)

theorem isInvertible_keepDiagonal_add_keepLower (A : mat_n α n)
    (h : ∀ i, A i i ≠ 0) : isInvertible (keepDiagonal A + keepLower A) := by
  unfold isInvertible
  rw [det_keepDiagonal_add_keepLower]
  exact Finset.prod_ne_zero_iff.mpr (fun i _ => h i)

theorem CSolver_A_diag (gamma : α) (i : Fin n) :
    (CSolver.A gamma : mat_n α n) i i = gamma := by
  simp [CSolver.A, fillDiagonalSiblings_apply, fillDiagonal_apply]

theorem converges_eq_false_of {κ : Type} (eigenvalues : mat_n α n → Fin n → κ)
    (abs : κ → α) (M : mat_n α n) (i : Fin n) (h : abs (eigenvalues M i) ≥ 1) :
    converges eigenvalues abs M = false := by
  cases hc : converges eigenvalues abs M with
  | false => rfl
  | true =>
    rw [converges_eq_true_iff] at hc
    exact absurd (hc i) (not_lt.mpr h)

/-- On the coupled matrix `CGSMethod::_init` reports `converges = false`:
`W` is upper triangular with the entry `4` at `(1, 1)`. -/
theorem gs_init_coupled (b : vec_n ℝ N) :
    (CGSMethod._init triangularEigenvalues (fun z : ℝ => |z|)
      (coupledMatrix : mat_n ℝ N) b).2.2 = false := by
  have hQ : keepDiagonal (coupledMatrix : mat_n ℝ N) + keepLower coupledMatrix
      = 1 + Matrix.stdBasisMatrix (1 : Fin N) (0 : Fin N) (2 : ℝ) := by
    ext i j
    simp only [Matrix.add_apply, keepDiagonal_apply, keepLower_apply, coupledMatrix,
      Matrix.one_apply, Matrix.stdBasisMatrix]
    by_cases hij : i = j
    · subst hij
      by_cases h1 : (1 : Fin N) = i
      · subst h1
        simp
      · simp [h1]
    · by_cases hlt : j < i
      · by_cases h10 : i.val = 1 ∧ j.val = 0
        · have hi : (1 : Fin N) = i := Fin.ext h10.1.symm
          have hj : (0 : Fin N) = j := Fin.ext h10.2.symm
          subst hi
          subst hj
          simp
        · have h2 : ¬ ((1 : Fin N) = i ∧ (0 : Fin N) = j) := fun ⟨a, c⟩ =>
            h10 ⟨by rw [← a]; rfl, by rw [← c]; rfl⟩
          have h3 : ¬ (i.val = 0 ∧ j.val = 1) := fun ⟨a, c⟩ => by
            have : j.val < i.val := hlt
            omega
          simp [hij, hlt, h10, h2, h3]
      · have h2 : ¬ ((1 : Fin N) = i ∧ (0 : Fin N) = j) := fun ⟨a, c⟩ => by
          apply hlt
          rw [← a, ← c]
          decide
        simp [hij, hlt, h2]
  have hinv : inverse (1 + Matrix.stdBasisMatrix (1 : Fin N) (0 : Fin N) (2 : ℝ))
      = 1 - Matrix.stdBasisMatrix (1 : Fin N) (0 : Fin N) (2 : ℝ) := by
    rw [inverse_eq_inv]
    apply Matrix.inv_eq_left_inv
    have hz : Matrix.stdBasisMatrix (1 : Fin N) (0 : Fin N) (2 : ℝ)
        * Matrix.stdBasisMatrix (1 : Fin N) (0 : Fin N) (2 : ℝ) = 0 :=
      Matrix.StdBasisMatrix.mul_of_ne (1 : Fin N) (0 : Fin N) (2 : ℝ) (by decide) (2 : ℝ)
    rw [Matrix.sub_mul, Matrix.mul_add, Matrix.mul_add, hz]
    simp
  apply converges_eq_false_of _ _ _ (1 : Fin N)
  simp only [triangularEigenvalues, hQ, hinv, Matrix.sub_mul, Matrix.one_mul,
    Matrix.sub_apply, Matrix.one_apply_eq,
    Matrix.StdBasisMatrix.mul_left_apply_same]
  norm_num [coupledMatrix]

end ConcreteLemmas

/-! ## The tridiagonal system -/

section Tridiagonal

variable {R : Type} [CommRing R] {n : Nat}

theorem sum_sub_diagonal (d : R) (v : Fin n → R) (i : Fin n) :
    ∑ j : Fin n, (if j.val + 1 = i.val then d else 0) * v j = d * prevV v i := by
  unfold prevV
  by_cases h : 0 < i.val
  · rw [if_pos h, Finset.sum_eq_single
      (⟨i.val - 1, lt_of_le_of_lt (Nat.sub_le _ _) i.isLt⟩ : Fin n)]
    · have : i.val - 1 + 1 = i.val := by omega
      simp [this]
    · intro j _ hj
      have : j.val + 1 ≠ i.val := fun e => hj (Fin.ext (by simp; omega))
      simp [this]
    · simp
  · rw [if_neg h, mul_zero]
    apply Finset.sum_eq_zero
    intro j _
    have : j.val + 1 ≠ i.val := by omega
    simp [this]

theorem sum_super_diagonal (d : R) (v : Fin n → R) (i : Fin n) :
    ∑ j : Fin n, (if j.val = i.val + 1 then d else 0) * v j = d * nextV v i := by
  unfold nextV
  by_cases h : i.val + 1 < n
  · rw [dif_pos h, Finset.sum_eq_single (⟨i.val + 1, h⟩ : Fin n)]
    · simp
    · intro j _ hj
      have : j.val ≠ i.val + 1 := fun e => hj (Fin.ext e)
      simp [this]
    · simp
  · rw [dif_neg h, mul_zero]
    apply Finset.sum_eq_zero
    intro j _
    have : j.val ≠ i.val + 1 := by have := j.isLt; omega
    simp [this]

theorem sum_diagonal (c : R) (v : Fin n → R) (i : Fin n) :
    ∑ j : Fin n, (if i = j then c else 0) * v j = c * v i := by
  rw [Finset.sum_eq_single i]
  · simp
  · intro j _ hj
    simp [Ne.symm hj]
  · simp

/-- The product of a tridiagonal matrix (`c` on the diagonal, `d` on both
neighbouring diagonals) with a vector. -/
theorem mulVec_tridiagonal (M : Matrix (Fin n) (Fin n) R) (c d : R)
    (hM : ∀ i j, M i j = if i = j then c
      else if |(i.val : Int) - (j.val : Int)| = 1 then d else 0)
    (v : Fin n → R) (i : Fin n) :
    M.mulVec v i = c * v i + d * (prevV v i + nextV v i) := by
  rw [mul_add, ← sum_diagonal c v i, ← sum_sub_diagonal d v i, ← sum_super_diagonal d v i,
    ← Finset.sum_add_distrib, ← Finset.sum_add_distrib]
  simp only [Matrix.mulVec, Matrix.dotProduct]
  apply Finset.sum_congr rfl
  intro j _
  rw [hM, ← add_mul, ← add_mul]
  congr 1
  by_cases hij : i = j
  · subst hij
    simp
  · have hne : i.val ≠ j.val := fun e => hij (Fin.ext e)
    by_cases h1 : j.val + 1 = i.val
    · have h2 : ¬ j.val = i.val + 1 := by omega
      have h3 : |(i.val : Int) - (j.val : Int)| = 1 := by
        rw [← h1]; push_cast; simp
      simp [hij, h1, h2, h3]
    · by_cases h2 : j.val = i.val + 1
      · have h3 : |(i.val : Int) - (j.val : Int)| = 1 := by
          rw [h2]; push_cast; simp
        simp [hij, h2, h3]
        intro h
        omega
      · have h3 : ¬ |(i.val : Int) - (j.val : Int)| = 1 := by
          intro h
          rcases abs_eq (by norm_num : (0 : Int) ≤ 1) |>.mp h with h | h <;> omega
        simp [hij, h1, h2, h3]

end Tridiagonal

section SystemParts

variable {α : Type} [LinearOrderedField α] {n : Nat}

theorem CSolver_A_tridiagonal (gamma : α) (i j : Fin n) :
    (CSolver.A gamma : mat_n α n) i j
      = if i = j then gamma
        else if |(i.val : Int) - (j.val : Int)| = 1 then -1 else 0 := by
  simp only [CSolver.A, fillDiagonalSiblings_apply, fillDiagonal_apply, mat]
  have e : ((i.val : Int) - (j.val : Int)).natAbs = 1
      ↔ |(i.val : Int) - (j.val : Int)| = 1 := by
    rw [Int.abs_eq_natAbs]
    exact_mod_cast Iff.rfl
  by_cases hij : i = j
  · subst hij
    simp
  · by_cases h1 : ((i.val : Int) - (j.val : Int)).natAbs = 1
    · rw [if_pos h1, if_neg hij, if_pos (e.mp h1)]
    · rw [if_neg h1, if_neg hij, if_neg hij, if_neg (fun h => h1 (e.mpr h))]

theorem CSolver_A_upper (gamma : α) (i j : Fin n) :
    keepUpper (CSolver.A gamma : mat_n α n) i j
      = if j.val = i.val + 1 then -1 else 0 := by
  rw [keepUpper_apply, CSolver_A_tridiagonal]
  by_cases h : j.val = i.val + 1
  · have h1 : i < j := by rw [Fin.lt_def]; omega
    have h2 : i ≠ j := ne_of_lt h1
    have h3 : |(i.val : Int) - (j.val : Int)| = 1 := by
      rw [h]; push_cast; simp
    simp [h, h1, h2, h3]
  · by_cases h1 : i < j
    · have h2 : i ≠ j := ne_of_lt h1
      have h3 : ¬ |(i.val : Int) - (j.val : Int)| = 1 := by
        intro hh
        rw [Fin.lt_def] at h1
        rcases abs_eq (by norm_num : (0 : Int) ≤ 1) |>.mp hh with hh | hh <;> omega
      simp [h, h1, h2, h3]
    · simp [h, h1]

theorem CSolver_A_lower_diagonal (gamma : α) (i j : Fin n) :
    (keepDiagonal (CSolver.A gamma) + keepLower (CSolver.A gamma) : mat_n α n) i j
      = (if i = j then gamma else 0) + (if j.val + 1 = i.val then -1 else 0) := by
  rw [Matrix.add_apply, keepDiagonal_apply, keepLower_apply, CSolver_A_tridiagonal]
  by_cases hij : i = j
  · subst hij
    simp
  · by_cases h : j.val + 1 = i.val
    · have h1 : j < i := by rw [Fin.lt_def]; omega
      have h3 : |(i.val : Int) - (j.val : Int)| = 1 := by
        rw [← h]; push_cast; simp
      simp [hij, h, h1, h3]
    · by_cases h1 : j < i
      · have h3 : ¬ |(i.val : Int) - (j.val : Int)| = 1 := by
          intro hh
          rw [Fin.lt_def] at h1
          rcases abs_eq (by norm_num : (0 : Int) ≤ 1) |>.mp hh with hh | hh <;> omega
        simp [hij, h, h1, h3]
      · simp [hij, h, h1]

theorem CSolver_A_keepDiagonal (gamma : α) :
    keepDiagonal (CSolver.A gamma : mat_n α n) = gamma • (1 : mat_n α n) := by
  ext i j
  rw [keepDiagonal_apply, Matrix.smul_apply, Matrix.one_apply]
  by_cases hij : i = j
  · subst hij
    simp [CSolver_A_diag]
  · simp [hij]

theorem inverse_smul_one (gamma : α) (h : gamma ≠ 0) :
    inverse (gamma • (1 : mat_n α n)) = gamma⁻¹ • (1 : mat_n α n) := by
  rw [inverse_eq_inv]
  apply Matrix.inv_eq_left_inv
  rw [Matrix.smul_mul, Matrix.one_mul, smul_smul, inv_mul_cancel₀ h, one_smul]

/-- `CJacobiMethod::_init` on the built system: `Q = gamma * I`. -/
theorem jacobi_init_CSolver {κ : Type} (eigenvalues : mat_n α n → Fin n → κ)
    (abs : κ → α) (gamma : α) (h : gamma ≠ 0) (b : vec_n α n) :
    CJacobiMethod._init eigenvalues abs (CSolver.A gamma) b
      = (gamma⁻¹ • (gamma • (1 : mat_n α n) - CSolver.A gamma), gamma⁻¹ • b,
          converges eigenvalues abs
            ((1 : mat_n α n) - gamma⁻¹ • (CSolver.A gamma : mat_n α n))) := by
  simp only [CJacobiMethod._init, CSolver_A_keepDiagonal, inverse_smul_one gamma h,
    Matrix.smul_mul, Matrix.one_mul, Matrix.smul_mulVec_assoc, Matrix.one_mulVec]

theorem isInvertible_CSolver_lower (gamma : α) (h : gamma ≠ 0) :
    isInvertible (keepDiagonal (CSolver.A gamma : mat_n α n)
      + keepLower (CSolver.A gamma)) :=
  isInvertible_keepDiagonal_add_keepLower _ (fun i => by rw [CSolver_A_diag]; exact h)

theorem mul_inverse (Q : mat_n α n) (h : isInvertible Q) : Q * inverse Q = 1 := by
  rw [inverse_eq_inv]
  exact Matrix.mul_nonsing_inv Q (isUnit_iff_ne_zero.mpr h)

end SystemParts

section Spectral

variable {n : Nat}

theorem exists_max_entry (v : Fin n → ℂ) (hv : v ≠ 0) :
    ∃ k, (∀ j, ‖v j‖ ≤ ‖v k‖) ∧ 0 < ‖v k‖ := by
  have hne : ∃ j, v j ≠ 0 := by
    by_contra hcon
    push_neg at hcon
    exact hv (funext hcon)
  obtain ⟨j0, hj0⟩ := hne
  obtain ⟨k, _, hk⟩ := Finset.exists_max_image Finset.univ (fun j => ‖v j‖)
    ⟨j0, Finset.mem_univ _⟩
  refine ⟨k, fun j => hk j (Finset.mem_univ _), ?_⟩
  exact lt_of_lt_of_le (norm_pos_iff.mpr hj0) (hk j0 (Finset.mem_univ _))

theorem norm_prevV_le (v : Fin n → ℂ) (k : Fin n) (hk : ∀ j, ‖v j‖ ≤ ‖v k‖)
    (i : Fin n) : ‖prevV v i‖ ≤ ‖v k‖ := by
  unfold prevV
  split
  · exact hk _
  · simp

theorem norm_nextV_le (v : Fin n → ℂ) (k : Fin n) (hk : ∀ j, ‖v j‖ ≤ ‖v k‖)
    (i : Fin n) : ‖nextV v i‖ ≤ ‖v k‖ := by
  unfold nextV
  split
  · exact hk _
  · simp

/-- Every eigenvalue of the Jacobi matrix `W = I - Q^-1 * A` of the built
system has modulus below `1` when `gamma > 2`. -/
theorem jacobi_eigenvalue_lt_one (gamma : ℝ) (hg : 2 < gamma) (μ : ℂ)
    (h : isEigenvalue ((1 : mat_n ℝ n) - gamma⁻¹ • (CSolver.A gamma : mat_n ℝ n)) μ) :
    Complex.abs μ < 1 := by
  obtain ⟨v, hv0, hv⟩ := h
  obtain ⟨k, hmax, hpos⟩ := exists_max_entry v hv0
  have hg0 : gamma ≠ 0 := by linarith
  have hentry : ∀ i j : Fin n,
      (((1 : mat_n ℝ n) - gamma⁻¹ • (CSolver.A gamma : mat_n ℝ n)).map Complex.ofReal) i j
        = if i = j then (0 : ℂ)
          else if |(i.val : Int) - (j.val : Int)| = 1 then ((gamma⁻¹ : ℝ) : ℂ) else 0 := by
    intro i j
    rw [Matrix.map_apply, Matrix.sub_apply, Matrix.smul_apply, CSolver_A_tridiagonal,
      Matrix.one_apply]
    by_cases hij : i = j
    · subst hij
      simp [hg0]
    · by_cases h1 : |(i.val : Int) - (j.val : Int)| = 1
      · simp [hij, h1]
      · simp [hij, h1]
  have hk := congrFun hv k
  rw [mulVec_tridiagonal _ _ _ hentry v k] at hk
  simp only [zero_mul, zero_add, Pi.smul_apply, smul_eq_mul] at hk
  have hnorm : ‖μ‖ * ‖v k‖ ≤ gamma⁻¹ * (2 * ‖v k‖) := by
    rw [← norm_mul, ← hk, norm_mul]
    have h1 : ‖((gamma⁻¹ : ℝ) : ℂ)‖ = gamma⁻¹ := by
      rw [Complex.norm_eq_abs, Complex.abs_ofReal, abs_of_pos (inv_pos.mpr (by linarith))]
    rw [h1]
    apply mul_le_mul_of_nonneg_left _ (inv_nonneg.mpr (by linarith))
    calc ‖prevV v k + nextV v k‖ ≤ ‖prevV v k‖ + ‖nextV v k‖ := norm_add_le _ _
      _ ≤ ‖v k‖ + ‖v k‖ := add_le_add (norm_prevV_le v k hmax k) (norm_nextV_le v k hmax k)
      _ = 2 * ‖v k‖ := by ring
  have h2 : ‖μ‖ ≤ gamma⁻¹ * 2 := by
    have : ‖μ‖ * ‖v k‖ ≤ (gamma⁻¹ * 2) * ‖v k‖ := by linarith
    exact le_of_mul_le_mul_right this hpos
  have h3 : gamma⁻¹ * 2 < 1 := by
    rw [inv_mul_lt_iff₀ (by linarith)]
    linarith
  rw [← Complex.norm_eq_abs]
  linarith

/-- Every eigenvalue of the Gauss-Seidel matrix `W = I - Q^-1 * A` of the
built system has modulus below `1` when `gamma > 2`. -/
theorem gs_eigenvalue_lt_one (gamma : ℝ) (hg : 2 < gamma) (μ : ℂ)
    (h : isEigenvalue ((1 : mat_n ℝ n)
      - inverse (keepDiagonal (CSolver.A gamma : mat_n ℝ n) + keepLower (CSolver.A gamma))
        * (CSolver.A gamma : mat_n ℝ n)) μ) :
    Complex.abs μ < 1 := by
  obtain ⟨v, hv0, hv⟩ := h
  obtain ⟨k, hmax, hpos⟩ := exists_max_entry v hv0
  have hg0 : gamma ≠ 0 := by linarith
  have hQW : (keepDiagonal (CSolver.A gamma : mat_n ℝ n) + keepLower (CSolver.A gamma))
      * ((1 : mat_n ℝ n)
        - inverse (keepDiagonal (CSolver.A gamma : mat_n ℝ n) + keepLower (CSolver.A gamma))
          * (CSolver.A gamma : mat_n ℝ n))
      = -keepUpper (CSolver.A gamma : mat_n ℝ n) := by
    rw [Matrix.mul_sub, Matrix.mul_one, ← Matrix.mul_assoc,
      mul_inverse _ (isInvertible_CSolver_lower gamma hg0), Matrix.one_mul]
    have hdec := keep_decomposition (CSolver.A gamma : mat_n ℝ n)
    nth_rewrite 3 [← hdec]
    abel
  have hmap := congrArg (fun M : mat_n ℝ n => M.map (Complex.ofRealHom : ℝ → ℂ)) hQW
  simp only [Matrix.map_mul] at hmap
  have hv2 := congrArg (fun w => ((keepDiagonal (CSolver.A gamma : mat_n ℝ n)
    + keepLower (CSolver.A gamma)).map (Complex.ofRealHom : ℝ → ℂ)).mulVec w) hv
  simp only [Matrix.mulVec_mulVec, Matrix.mulVec_smul] at hv2
  have hv3 : ((-keepUpper (CSolver.A gamma : mat_n ℝ n)).map
        (Complex.ofRealHom : ℝ → ℂ)).mulVec v
      = μ • ((keepDiagonal (CSolver.A gamma : mat_n ℝ n)
          + keepLower (CSolver.A gamma)).map (Complex.ofRealHom : ℝ → ℂ)).mulVec v := by
    rw [← hmap]
    exact hv2
  have hk := congrFun hv3 k
  have hU : ((-keepUpper (CSolver.A gamma : mat_n ℝ n)).map
      (Complex.ofRealHom : ℝ → ℂ)).mulVec v k = 1 * nextV v k := by
    rw [← sum_super_diagonal (1 : ℂ) v k]
    simp only [Matrix.mulVec, Matrix.dotProduct]
    apply Finset.sum_congr rfl
    intro j _
    rw [Matrix.map_apply, Matrix.neg_apply, CSolver_A_upper]
    by_cases hj : j.val = k.val + 1
    · simp [hj]
    · simp [hj]
  have hQ : ((keepDiagonal (CSolver.A gamma : mat_n ℝ n)
      + keepLower (CSolver.A gamma)).map (Complex.ofRealHom : ℝ → ℂ)).mulVec v k
        = (gamma : ℂ) * v k + (-1) * prevV v k := by
    rw [← sum_diagonal (gamma : ℂ) v k, ← sum_sub_diagonal (-1 : ℂ) v k,
      ← Finset.sum_add_distrib]
    simp only [Matrix.mulVec, Matrix.dotProduct]
    apply Finset.sum_congr rfl
    intro j _
    rw [Matrix.map_apply, CSolver_A_lower_diagonal, ← add_mul]
    congr 1
    by_cases h1 : k = j <;> by_cases h2 : j.val + 1 = k.val <;> simp [h1, h2]
  rw [hU, Pi.smul_apply, hQ, smul_eq_mul, one_mul] at hk
  by_contra hcon
  have hmu : 1 ≤ ‖μ‖ := by
    rw [Complex.norm_eq_abs]
    exact not_lt.mp hcon
  have hkey : μ * ((gamma : ℂ) * v k) = nextV v k + μ * prevV v k := by
    rw [hk]
    ring
  have hn : ‖μ‖ * (gamma * ‖v k‖) ≤ ‖v k‖ + ‖μ‖ * ‖v k‖ := by
    have e1 : ‖μ * ((gamma : ℂ) * v k)‖ = ‖μ‖ * (gamma * ‖v k‖) := by
      rw [norm_mul, norm_mul, Complex.norm_eq_abs (gamma : ℂ), Complex.abs_ofReal,
        abs_of_pos (by linarith : (0 : ℝ) < gamma)]
    rw [← e1, hkey]
    calc ‖nextV v k + μ * prevV v k‖ ≤ ‖nextV v k‖ + ‖μ * prevV v k‖ := norm_add_le _ _
      _ ≤ ‖v k‖ + ‖μ‖ * ‖v k‖ := by
        rw [norm_mul]
        exact add_le_add (norm_nextV_le v k hmax k)
          (mul_le_mul_of_nonneg_left (norm_prevV_le v k hmax k) (norm_nonneg _))
  have hn2 : ‖μ‖ * gamma ≤ 1 + ‖μ‖ := by
    have : (‖μ‖ * gamma) * ‖v k‖ ≤ (1 + ‖μ‖) * ‖v k‖ := by linarith
    exact le_of_mul_le_mul_right this hpos
  nlinarith

/-- A vector whose entries of largest modulus all have a neighbour before
them of the same modulus is zero: the descent ends at the first index, which
has no neighbour before it. -/
theorem max_entry_descent (v : Fin n → ℂ) (k : Fin n) (hpos : 0 < ‖v k‖)
    (hstep : ∀ i : Fin n, ‖v i‖ = ‖v k‖ → ‖prevV v i‖ = ‖v k‖) : False := by
  have hall : ∀ (m : Nat) (i : Fin n), i.val = m → ‖v i‖ = ‖v k‖ → False := by
    intro m
    induction m with
    | zero =>
      intro i hi hnorm
      have h := hstep i hnorm
      unfold prevV at h
      rw [if_neg (by omega), norm_zero] at h
      rw [← h] at hpos
      exact lt_irrefl _ hpos
    | succ m ih =>
      intro i hi hnorm
      have h := hstep i hnorm
      unfold prevV at h
      rw [if_pos (by omega)] at h
      exact ih ⟨i.val - 1, lt_of_le_of_lt (Nat.sub_le _ _) i.isLt⟩ (by simp; omega) h
  exact hall k.val k rfl rfl

/-- The eigenvalue equation of the Jacobi matrix of the built system, entry by
entry. -/
theorem jacobi_eigen_entry (gamma : ℝ) (hg0 : gamma ≠ 0) (μ : ℂ) (v : Fin n → ℂ)
    (hv : (((1 : mat_n ℝ n) - gamma⁻¹ • (CSolver.A gamma : mat_n ℝ n)).map
      Complex.ofReal).mulVec v = μ • v) (i : Fin n) :
    ((gamma⁻¹ : ℝ) : ℂ) * (prevV v i + nextV v i) = μ * v i := by
  have hentry : ∀ i j : Fin n,
      (((1 : mat_n ℝ n) - gamma⁻¹ • (CSolver.A gamma : mat_n ℝ n)).map Complex.ofReal) i j
        = if i = j then (0 : ℂ)
          else if |(i.val : Int) - (j.val : Int)| = 1 then ((gamma⁻¹ : ℝ) : ℂ) else 0 := by
    intro i j
    rw [Matrix.map_apply, Matrix.sub_apply, Matrix.smul_apply, CSolver_A_tridiagonal,
      Matrix.one_apply]
    by_cases hij : i = j
    · subst hij
      simp [hg0]
    · by_cases h1 : |(i.val : Int) - (j.val : Int)| = 1
      · simp [hij, h1]
      · simp [hij, h1]
  have hk := congrFun hv i
  rw [mulVec_tridiagonal _ _ _ hentry v i] at hk
  simp only [zero_mul, zero_add, Pi.smul_apply, smul_eq_mul] at hk
  exact hk

/-- Every eigenvalue of the Jacobi matrix `W = I - Q^-1 * A` of the built
system has modulus below `1` when `gamma ≥ 2`. -/
theorem jacobi_eigenvalue_lt_one_of_le (gamma : ℝ) (hg : 2 ≤ gamma) (μ : ℂ)
    (h : isEigenvalue ((1 : mat_n ℝ n) - gamma⁻¹ • (CSolver.A gamma : mat_n ℝ n)) μ) :
    Complex.abs μ < 1 := by
  obtain ⟨v, hv0, hv⟩ := h
  obtain ⟨k, hmax, hpos⟩ := exists_max_entry v hv0
  have hg0 : gamma ≠ 0 := by linarith
  by_contra hcon
  have hmu : 1 ≤ ‖μ‖ := by
    rw [Complex.norm_eq_abs]
    exact not_lt.mp hcon
  apply max_entry_descent v k hpos
  intro i hi
  have he := jacobi_eigen_entry gamma hg0 μ v hv i
  have h1 : ‖((gamma⁻¹ : ℝ) : ℂ)‖ = gamma⁻¹ := by
    rw [Complex.norm_eq_abs, Complex.abs_ofReal, abs_of_pos (inv_pos.mpr (by linarith))]
  have hn : gamma⁻¹ * ‖prevV v i + nextV v i‖ = ‖μ‖ * ‖v k‖ := by
    rw [← hi, ← norm_mul, ← he, norm_mul, h1]
  have hsum : gamma * (‖μ‖ * ‖v k‖) = ‖prevV v i + nextV v i‖ := by
    rw [← hn]
    field_simp
  have htri : ‖prevV v i + nextV v i‖ ≤ ‖prevV v i‖ + ‖nextV v i‖ := norm_add_le _ _
  have hp := norm_prevV_le v k hmax i
  have hq := norm_nextV_le v k hmax i
  have hprod : 2 * ‖v k‖ ≤ gamma * (‖μ‖ * ‖v k‖) := by
    have h2 : ‖v k‖ ≤ ‖μ‖ * ‖v k‖ := by
      have := mul_le_mul_of_nonneg_right hmu hpos.le
      linarith
    have h3 : 2 * (‖μ‖ * ‖v k‖) ≤ gamma * (‖μ‖ * ‖v k‖) :=
      mul_le_mul_of_nonneg_right hg (by positivity)
    linarith
  linarith

/-- The eigenvalue equation of the Gauss-Seidel matrix of the built system,
entry by entry. -/
theorem gs_eigen_entry (gamma : ℝ) (hg0 : gamma ≠ 0) (μ : ℂ) (v : Fin n → ℂ)
    (hv : (((1 : mat_n ℝ n)
      - inverse (keepDiagonal (CSolver.A gamma : mat_n ℝ n) + keepLower (CSolver.A gamma))
        * (CSolver.A gamma : mat_n ℝ n)).map Complex.ofReal).mulVec v = μ • v) (i : Fin n) :
    nextV v i = μ * ((gamma : ℂ) * v i + (-1) * prevV v i) := by
  have hQW : (keepDiagonal (CSolver.A gamma : mat_n ℝ n) + keepLower (CSolver.A gamma))
      * ((1 : mat_n ℝ n)
        - inverse (keepDiagonal (CSolver.A gamma : mat_n ℝ n) + keepLower (CSolver.A gamma))
          * (CSolver.A gamma : mat_n ℝ n))
      = -keepUpper (CSolver.A gamma : mat_n ℝ n) := by
    rw [Matrix.mul_sub, Matrix.mul_one, ← Matrix.mul_assoc,
      mul_inverse _ (isInvertible_CSolver_lower gamma hg0), Matrix.one_mul]
    have hdec := keep_decomposition (CSolver.A gamma : mat_n ℝ n)
    nth_rewrite 3 [← hdec]
    abel
  have hmap := congrArg (fun M : mat_n ℝ n => M.map (Complex.ofRealHom : ℝ → ℂ)) hQW
  simp only [Matrix.map_mul] at hmap
  have hv2 := congrArg (fun w => ((keepDiagonal (CSolver.A gamma : mat_n ℝ n)
    + keepLower (CSolver.A gamma)).map (Complex.ofRealHom : ℝ → ℂ)).mulVec w) hv
  simp only [Matrix.mulVec_mulVec, Matrix.mulVec_smul] at hv2
  have hv3 : ((-keepUpper (CSolver.A gamma : mat_n ℝ n)).map
        (Complex.ofRealHom : ℝ → ℂ)).mulVec v
      = μ • ((keepDiagonal (CSolver.A gamma : mat_n ℝ n)
          + keepLower (CSolver.A gamma)).map (Complex.ofRealHom : ℝ → ℂ)).mulVec v := by
    rw [← hmap]
    exact hv2
  have hk := congrFun hv3 i
  have hU : ((-keepUpper (CSolver.A gamma : mat_n ℝ n)).map
      (Complex.ofRealHom : ℝ → ℂ)).mulVec v i = 1 * nextV v i := by
    rw [← sum_super_diagonal (1 : ℂ) v i]
    simp only [Matrix.mulVec, Matrix.dotProduct]
    apply Finset.sum_congr rfl
    intro j _
    rw [Matrix.map_apply, Matrix.neg_apply, CSolver_A_upper]
    by_cases hj : j.val = i.val + 1
    · simp [hj]
    · simp [hj]
  have hQ : ((keepDiagonal (CSolver.A gamma : mat_n ℝ n)
      + keepLower (CSolver.A gamma)).map (Complex.ofRealHom : ℝ → ℂ)).mulVec v i
        = (gamma : ℂ) * v i + (-1) * prevV v i := by
    rw [← sum_diagonal (gamma : ℂ) v i, ← sum_sub_diagonal (-1 : ℂ) v i,
      ← Finset.sum_add_distrib]
    simp only [Matrix.mulVec, Matrix.dotProduct]
    apply Finset.sum_congr rfl
    intro j _
    rw [Matrix.map_apply, CSolver_A_lower_diagonal, ← add_mul]
    congr 1
    by_cases h1 : i = j <;> by_cases h2 : j.val + 1 = i.val <;> simp [h1, h2]
  rw [hU, Pi.smul_apply, hQ, smul_eq_mul, one_mul] at hk
  exact hk

/-- Every eigenvalue of the Gauss-Seidel matrix `W = I - Q^-1 * A` of the
built system has modulus below `1` when `gamma ≥ 2`. -/
theorem gs_eigenvalue_lt_one_of_le (gamma : ℝ) (hg : 2 ≤ gamma) (μ : ℂ)
    (h : isEigenvalue ((1 : mat_n ℝ n)
      - inverse (keepDiagonal (CSolver.A gamma : mat_n ℝ n) + keepLower (CSolver.A gamma))
        * (CSolver.A gamma : mat_n ℝ n)) μ) :
    Complex.abs μ < 1 := by
  obtain ⟨v, hv0, hv⟩ := h
  obtain ⟨k, hmax, hpos⟩ := exists_max_entry v hv0
  have hg0 : gamma ≠ 0 := by linarith
  by_contra hcon
  have hmu : 1 ≤ ‖μ‖ := by
    rw [Complex.norm_eq_abs]
    exact not_lt.mp hcon
  apply max_entry_descent v k hpos
  intro i hi
  have hk := gs_eigen_entry gamma hg0 μ v hv i
  have hkey : μ * ((gamma : ℂ) * v i) = nextV v i + μ * prevV v i := by
    rw [hk]
    ring
  have hn : ‖μ‖ * (gamma * ‖v k‖) ≤ ‖nextV v i‖ + ‖μ‖ * ‖prevV v i‖ := by
    have e1 : ‖μ * ((gamma : ℂ) * v i)‖ = ‖μ‖ * (gamma * ‖v k‖) := by
      rw [norm_mul, norm_mul, Complex.norm_eq_abs (gamma : ℂ), Complex.abs_ofReal,
        abs_of_pos (by linarith : (0 : ℝ) < gamma), hi]
    rw [← e1, hkey]
    calc ‖nextV v i + μ * prevV v i‖ ≤ ‖nextV v i‖ + ‖μ * prevV v i‖ := norm_add_le _ _
      _ = ‖nextV v i‖ + ‖μ‖ * ‖prevV v i‖ := by rw [norm_mul]
  have hp := norm_prevV_le v k hmax i
  have hq := norm_nextV_le v k hmax i
  have hmupos : 0 < ‖μ‖ := by linarith
  have h2 : ‖μ‖ * (2 * ‖v k‖) ≤ ‖μ‖ * (gamma * ‖v k‖) :=
    mul_le_mul_of_nonneg_left (mul_le_mul_of_nonneg_right hg hpos.le) hmupos.le
  have h3 : ‖v k‖ ≤ ‖μ‖ * ‖v k‖ := by
    have := mul_le_mul_of_nonneg_right hmu hpos.le
    linarith
  have h4 : ‖μ‖ * ‖v k‖ ≤ ‖μ‖ * ‖prevV v i‖ := by linarith
  have h5 : ‖v k‖ ≤ ‖prevV v i‖ := le_of_mul_le_mul_left h4 hmupos
  exact le_antisymm hp h5

end Spectral

section Iterates

variable {α : Type} [LinearOrderedField α] {n : Nat}

/-- What `fillPyramid` leaves: `value - 1` at the first and at the last
index, `value - 2` at the others. -/
theorem fillPyramid_apply (v : vec_n α n) (value : α) (i : Fin n) :
    fillPyramid v value i
      = if i.val = 0 ∨ i.val + 1 = n then value - 1 else value - 2 := by
  unfold fillPyramid forLoop
  have key : ∀ (xs : List Nat) (w : vec_n α n),
      (xs.foldl (fun w x => if x = 0 ∨ x + 1 = n then setEntry w x (value - 1)
          else setEntry w x (value - 2)) w) i
        = if i.val ∈ xs then
            (if i.val = 0 ∨ i.val + 1 = n then value - 1 else value - 2)
          else w i := by
    intro xs
    induction xs with
    | nil => intro w; simp
    | cons x xs ih =>
      intro w
      rw [List.foldl_cons, ih]
      by_cases h1 : i.val ∈ xs
      · simp [h1]
      · by_cases h2 : i.val = x
        · subst h2
          by_cases h3 : i.val = 0 ∨ i.val + 1 = n
          · simp [h1, h3, setEntry]
          · simp [h1, h3, setEntry]
        · by_cases h3 : x = 0 ∨ x + 1 = n
          · simp [h1, h2, h3, setEntry]
          · simp [h1, h2, h3, setEntry]
  rw [key, if_pos (mem_range_zero n i)]

theorem CSolver_b_apply (gamma : α) (i : Fin n) :
    (CSolver.b gamma : vec_n α n) i
      = if i.val = 0 ∨ i.val + 1 = n then gamma - 1 else gamma - 2 := by
  simp only [CSolver.b, fillPyramid_apply]

theorem CSolver_A_eq (gamma : α) :
    (CSolver.A gamma : mat_n α n) = gamma • (1 : mat_n α n) - pathMatrix := by
  ext i j
  rw [CSolver_A_tridiagonal, Matrix.sub_apply, Matrix.smul_apply, Matrix.one_apply]
  unfold pathMatrix
  by_cases hij : i = j
  · subst hij
    simp
  · by_cases h1 : |(i.val : Int) - (j.val : Int)| = 1
    · simp [hij, h1]
    · simp [hij, h1]

theorem pathMatrix_mulVec (v : vec_n α n) (i : Fin n) :
    (pathMatrix : mat_n α n).mulVec v i = prevV v i + nextV v i := by
  rw [mulVec_tridiagonal pathMatrix 0 1 (fun i j => rfl) v i]
  ring

/-- The all-ones vector solves the built system (for `n ≥ 2`). -/
theorem CSolver_b_eq (gamma : α) (hn : 2 ≤ n) :
    (CSolver.b gamma : vec_n α n) = (CSolver.A gamma : mat_n α n).mulVec ones := by
  funext i
  rw [CSolver_b_apply, CSolver_A_eq, Matrix.sub_mulVec, Pi.sub_apply, pathMatrix_mulVec,
    Matrix.smul_mulVec_assoc, Matrix.one_mulVec]
  unfold prevV nextV ones
  simp only [Pi.smul_apply, smul_eq_mul, mul_one]
  have hi := i.isLt
  by_cases h0 : i.val = 0
  · have h1 : ¬ (0 < i.val) := by omega
    have h2 : i.val + 1 < n := by omega
    have h4 : 1 < n := by omega
    simp [h0, h2, h4]
  · have h1 : 0 < i.val := by omega
    by_cases h2 : i.val + 1 = n
    · have h3 : ¬ (i.val + 1 < n) := by omega
      simp [h0, h1, h2, h3]
    · have h3 : i.val + 1 < n := by omega
      simp [h0, h1, h2, h3]
      ring

/-- The Jacobi iterates of the built system: `x_k = 1 - gamma^(-k) * T^k 1`,
with `T` the path matrix. -/
theorem jacobi_iterate (gamma : α) (hg : gamma ≠ 0) (hn : 2 ≤ n) (k : Nat) :
    iterate (gamma⁻¹ • (gamma • (1 : mat_n α n) - CSolver.A gamma))
        (gamma⁻¹ • (CSolver.b gamma : vec_n α n)) k
      = ones - (gamma⁻¹) ^ k
          • ((fun v => (pathMatrix : mat_n α n).mulVec v)^[k] ones) := by
  have hT : gamma • (1 : mat_n α n) - CSolver.A gamma = pathMatrix := by
    rw [CSolver_A_eq]
    abel
  rw [hT, CSolver_b_eq gamma hn, CSolver_A_eq]
  induction k with
  | zero =>
    funext i
    simp [iterate, vec, ones]
  | succ k ih =>
    rw [iterate, ih, Function.iterate_succ_apply']
    generalize (fun v => (pathMatrix : mat_n α n).mulVec v)^[k] ones = u
    rw [Matrix.smul_mulVec_assoc, Matrix.mulVec_sub, Matrix.mulVec_smul, Matrix.sub_mulVec,
      Matrix.smul_mulVec_assoc, Matrix.one_mulVec]
    funext i
    simp only [Pi.add_apply, Pi.sub_apply, Pi.smul_apply, smul_eq_mul, ones]
    field_simp
    ring

/-- The residual of the `k`-th Jacobi iterate of the built system. -/
theorem jacobi_residual (gamma : α) (hg : gamma ≠ 0) (hn : 2 ≤ n) (k : Nat) :
    (CSolver.A gamma : mat_n α n).mulVec
        (iterate (gamma⁻¹ • (gamma • (1 : mat_n α n) - CSolver.A gamma))
          (gamma⁻¹ • (CSolver.b gamma : vec_n α n)) k) - CSolver.b gamma
      = -((gamma⁻¹) ^ k
          • (gamma • ((fun v => (pathMatrix : mat_n α n).mulVec v)^[k] ones)
            - (fun v => (pathMatrix : mat_n α n).mulVec v)^[k + 1] ones)) := by
  rw [jacobi_iterate gamma hg hn k, CSolver_b_eq gamma hn, Function.iterate_succ_apply',
    CSolver_A_eq]
  generalize (fun v => (pathMatrix : mat_n α n).mulVec v)^[k] ones = u
  simp only [Matrix.mulVec_sub, Matrix.mulVec_smul, Matrix.sub_mulVec,
    Matrix.smul_mulVec_assoc, Matrix.one_mulVec]
  funext i
  simp only [Pi.neg_apply, Pi.sub_apply, Pi.smul_apply, smul_eq_mul, ones]
  ring

end Iterates

section Lists

variable {α : Type} [LinearOrderedField α] {n : Nat}

theorem length_pathAux (l : List Nat) : ∀ p, (pathAux p l).length = l.length := by
  induction l with
  | nil => intro p; rfl
  | cons x rest ih => intro p; simp [pathAux, ih]

theorem getD_pathAux (l : List Nat) : ∀ (p i : Nat), i < l.length →
    (pathAux p l).getD i 0 = (if i = 0 then p else l.getD (i - 1) 0) + l.getD (i + 1) 0 := by
  induction l with
  | nil => intro p i hi; simp at hi
  | cons x rest ih =>
    intro p i hi
    cases i with
    | zero =>
      cases rest with
      | nil => simp [pathAux]
      | cons y rest2 => simp [pathAux]
    | succ i =>
      have hi2 : i < rest.length := by simpa using hi
      simp only [pathAux, List.getD_cons_succ, ih x i hi2]
      cases i with
      | zero => simp
      | succ i => simp

theorem pathRun_eq (k : Nat) : ∀ l, pathRun k l = pathStep^[k] l := by
  induction k with
  | zero => intro l; rfl
  | succ k ih =>
    intro l
    rw [pathRun, ite_self, ih, Function.iterate_succ_apply]

theorem length_pathRun (k : Nat) (l : List Nat) : (pathRun k l).length = l.length := by
  rw [pathRun_eq]
  induction k with
  | zero => rfl
  | succ k ih =>
    rw [Function.iterate_succ_apply', pathStep, length_pathAux, ih]

theorem pathMatrix_mulVec_toVec (l : List Nat) (hl : l.length = n) :
    (pathMatrix : mat_n α n).mulVec (toVec l) = toVec (pathStep l) := by
  funext i
  rw [pathMatrix_mulVec]
  unfold toVec pathStep prevV nextV
  rw [getD_pathAux l 0 i.val (by rw [hl]; exact i.isLt), Nat.cast_add]
  have hi := i.isLt
  congr 1
  · by_cases h0 : i.val = 0
    · rw [if_neg (by omega), if_pos h0, Nat.cast_zero]
    · rw [if_pos (by omega), if_neg h0]
  · by_cases h2 : i.val + 1 < n
    · rw [dif_pos h2]
    · rw [dif_neg h2, List.getD_eq_default _ _ (by omega), Nat.cast_zero]

theorem ones_eq_toVec : (ones : vec_n α n) = toVec (List.replicate n 1) := by
  funext i
  unfold ones toVec
  rw [List.getD_eq_getElem _ _ (by simp)]
  simp

theorem path_iterate_eq_toVec (k : Nat) :
    (fun v => (pathMatrix : mat_n α n).mulVec v)^[k] ones
      = toVec (pathRun k (List.replicate n 1)) := by
  induction k with
  | zero => exact ones_eq_toVec
  | succ k ih =>
    rw [Function.iterate_succ_apply', ih,
      pathMatrix_mulVec_toVec _ (by rw [length_pathRun]; simp), pathRun_eq, pathRun_eq,
      Function.iterate_succ_apply']

end Lists

section JacobiBound

theorem sum_fin_eq_sumOver (f : Nat → Int) :
    (∑ i : Fin N, ((f i.val : Int) : ℝ)) = ((sumOver f : Int) : ℝ) := by
  have h : List.range 20 = [0, 1, 2, 3, 4, 5, 6, 7, 8, 9, 10, 11, 12, 13, 14, 15, 16, 17,
      18, 19] := by decide
  simp only [sumOver, h, List.map_cons, List.map_nil, List.sum_cons, List.sum_nil,
    Fin.sum_univ_succ, Fin.sum_univ_zero]
  push_cast
  simp only [Fin.val_succ, Fin.val_zero]

/-- The computed certificate: three inequalities between integers. -/
theorem jacobi_certificate :
    10 ^ 12 * jacW0 < 2 * 4 ^ 1000 ∧
      10 ^ 12 * (2 * jacW1) ≤ (4 + 2 * 1000) * 4 ^ 1000 ∧
      10 ^ 12 * jacW2 ≤ (20 + 4 * 1000) * 4 ^ 1000 := by
  decide!

theorem jacobi_poly_of_le (W0 W1 W2 F G t k : ℝ) (hF : 0 < F) (ht : 0 ≤ t) (hk : 0 ≤ k)
    (h0 : W0 < 2 * F) (h1 : 2 * W1 ≤ (4 + 2 * k) * F) (h2 : W2 ≤ (20 + 4 * k) * F)
    (hG : F * (1 + k * t) ≤ G) :
    W0 + 2 * t * W1 + t ^ 2 * W2 < G * (2 + 4 * t + 20 * t ^ 2) := by
  have e1 : t * (2 * W1) ≤ t * ((4 + 2 * k) * F) := mul_le_mul_of_nonneg_left h1 ht
  have e2 : t ^ 2 * W2 ≤ t ^ 2 * ((20 + 4 * k) * F) :=
    mul_le_mul_of_nonneg_left h2 (by positivity)
  have e3 : 0 ≤ 20 * k * t ^ 3 * F := by positivity
  have e4 : F * (1 + k * t) * (2 + 4 * t + 20 * t ^ 2) ≤ G * (2 + 4 * t + 20 * t ^ 2) :=
    mul_le_mul_of_nonneg_right hG (by positivity)
  nlinarith

theorem jacobi_poly (W0 W1 W2 F G t k : ℝ) (hF : 0 < F) (ht : 0 < t) (hk : 0 ≤ k)
    (h0 : W0 < 2 * F) (h1 : 2 * W1 ≤ (4 + 2 * k) * F) (h2 : W2 ≤ (20 + 4 * k) * F)
    (hG : F * (1 + k * t) ≤ G) :
    W0 + 2 * t * W1 + t ^ 2 * W2 < G * (2 + 4 * t + 20 * t ^ 2) :=
  jacobi_poly_of_le W0 W1 W2 F G t k hF ht.le hk h0 h1 h2 hG

theorem sum_sq_CSolver_b (gamma : ℝ) :
    ∑ i : Fin N, (CSolver.b gamma : vec_n ℝ N) i * (CSolver.b gamma : vec_n ℝ N) i
      = 2 * (gamma - 1) ^ 2 + 18 * (gamma - 2) ^ 2 := by
  simp only [CSolver_b_apply, Fin.sum_univ_succ, Fin.sum_univ_zero, Fin.val_succ, Fin.val_zero]
  norm_num
  ring

theorem relres_lt_of_sq {n : Nat} (A : mat_n ℝ n) (b x : vec_n ℝ n) (c : ℝ) (hc : 0 < c)
    (h : ∑ i, (A.mulVec x - b) i * (A.mulVec x - b) i < c ^ 2 * ∑ i, b i * b i) :
    euclidRelres Real.sqrt A b x < c := by
  unfold euclidRelres euclidNorm
  have hr : 0 ≤ ∑ i, (A.mulVec x - b) i * (A.mulVec x - b) i :=
    Finset.sum_nonneg (fun i _ => mul_self_nonneg _)
  have hb0 : 0 ≤ ∑ i, b i * b i := Finset.sum_nonneg (fun i _ => mul_self_nonneg _)
  have hb : 0 < ∑ i, b i * b i := by
    rcases hb0.lt_or_eq with hlt | heq
    · exact hlt
    · rw [← heq, mul_zero] at h
      exact absurd h (not_lt.mpr hr)
  rw [div_lt_iff₀ (Real.sqrt_pos.mpr hb)]
  have e : c * Real.sqrt (∑ i, b i * b i) = Real.sqrt (c ^ 2 * ∑ i, b i * b i) := by
    rw [Real.sqrt_mul (sq_nonneg c), Real.sqrt_sq hc.le]
  rw [e]
  exact Real.sqrt_lt_sqrt hr h

theorem pow_lower_bound_of_le (gamma : ℝ) (hg : 2 ≤ gamma) (k : Nat) :
    (4 : ℝ) ^ k * (1 + (k : ℝ) * (gamma - 2)) ≤ gamma ^ (2 * k) := by
  have h1 : 1 + (k : ℝ) * (gamma - 2) ≤ (1 + (gamma - 2)) ^ k :=
    one_add_mul_le_pow (by linarith) k
  have h2 : (4 : ℝ) ^ k * (1 + (gamma - 2)) ^ k ≤ gamma ^ (2 * k) := by
    rw [← mul_pow, pow_mul]
    apply pow_le_pow_left₀ (by nlinarith)
    nlinarith
  calc (4 : ℝ) ^ k * (1 + (k : ℝ) * (gamma - 2))
      ≤ (4 : ℝ) ^ k * (1 + (gamma - 2)) ^ k :=
        mul_le_mul_of_nonneg_left h1 (by positivity)
    _ ≤ gamma ^ (2 * k) := h2

theorem pow_lower_bound (gamma : ℝ) (hg : 2 < gamma) (k : Nat) :
    (4 : ℝ) ^ k * (1 + (k : ℝ) * (gamma - 2)) ≤ gamma ^ (2 * k) :=
  pow_lower_bound_of_le gamma hg.le k

theorem jacW0_eq :
    ∑ i : Fin N, (2 * (toVec jacU : vec_n ℝ N) i - (toVec (pathStep jacU) : vec_n ℝ N) i) ^ 2
      = (jacW0 : ℝ) := by
  unfold jacW0
  rw [← sum_fin_eq_sumOver]
  apply Finset.sum_congr rfl
  intro i _
  unfold toVec
  push_cast
  rfl

theorem jacW1_eq :
    ∑ i : Fin N, (2 * (toVec jacU : vec_n ℝ N) i - (toVec (pathStep jacU) : vec_n ℝ N) i)
        * (toVec jacU : vec_n ℝ N) i
      = (jacW1 : ℝ) := by
  unfold jacW1
  rw [← sum_fin_eq_sumOver]
  apply Finset.sum_congr rfl
  intro i _
  unfold toVec
  push_cast
  rfl

theorem jacW2_eq :
    ∑ i : Fin N, ((toVec jacU : vec_n ℝ N) i) ^ 2 = (jacW2 : ℝ) := by
  unfold jacW2
  rw [← sum_fin_eq_sumOver]
  apply Finset.sum_congr rfl
  intro i _
  unfold toVec
  push_cast
  rfl

/-- For `gamma ≥ 2` the Jacobi iterate `x_1000` of the built system has
relative residual below `1e-6`. -/
theorem jacobi_relres_of_le (gamma : ℝ) (hg : 2 ≤ gamma) :
    euclidRelres Real.sqrt (CSolver.A gamma : mat_n ℝ N) (CSolver.b gamma)
        (iterate (gamma⁻¹ • (gamma • (1 : mat_n ℝ N) - CSolver.A gamma))
          (gamma⁻¹ • (CSolver.b gamma : vec_n ℝ N)) 1000)
      < 1e-6 := by
  have hg0 : gamma ≠ 0 := by linarith
  apply relres_lt_of_sq _ _ _ _ (by norm_num)
  rw [jacobi_residual gamma hg0 (by norm_num) 1000, sum_sq_CSolver_b]
  have hu : (fun v => (pathMatrix : mat_n ℝ N).mulVec v)^[1000] ones = toVec jacU :=
    path_iterate_eq_toVec 1000
  have hu2 : (fun v => (pathMatrix : mat_n ℝ N).mulVec v)^[1000 + 1] ones
      = toVec (pathStep jacU) := by
    rw [Function.iterate_succ_apply', hu, pathMatrix_mulVec_toVec]
    exact length_pathRun 1000 _
  rw [hu, hu2]
  have hsum : ∑ i : Fin N,
      (-((gamma⁻¹) ^ 1000 • (gamma • (toVec jacU : vec_n ℝ N) - toVec (pathStep jacU)))
          : vec_n ℝ N) i
        * (-((gamma⁻¹) ^ 1000 • (gamma • (toVec jacU : vec_n ℝ N) - toVec (pathStep jacU)))
          : vec_n ℝ N) i
      = ((gamma ^ (2 * 1000))⁻¹)
        * ((jacW0 : ℝ) + 2 * (gamma - 2) * (jacW1 : ℝ) + (gamma - 2) ^ 2 * (jacW2 : ℝ)) := by
    rw [← jacW0_eq, ← jacW1_eq, ← jacW2_eq, Finset.mul_sum, Finset.mul_sum,
      ← Finset.sum_add_distrib, ← Finset.sum_add_distrib, Finset.mul_sum]
    apply Finset.sum_congr rfl
    intro i _
    simp only [Pi.neg_apply, Pi.smul_apply, Pi.sub_apply, smul_eq_mul, inv_pow, pow_mul]
    ring
  rw [hsum]
  obtain ⟨c0, c1, c2⟩ := jacobi_certificate
  have c0r : (10 : ℝ) ^ 12 * (jacW0 : ℝ) < 2 * (4 : ℝ) ^ 1000 := by
    have h := (Int.cast_lt (R := ℝ)).mpr c0
    simp only [Int.cast_mul, Int.cast_pow, Int.cast_ofNat] at h
    exact h
  have c1r : (10 : ℝ) ^ 12 * (2 * (jacW1 : ℝ)) ≤ (4 + 2 * 1000) * (4 : ℝ) ^ 1000 := by
    have h := (Int.cast_le (R := ℝ)).mpr c1
    simp only [Int.cast_mul, Int.cast_pow, Int.cast_ofNat, Int.cast_add] at h
    exact h
  have c2r : (10 : ℝ) ^ 12 * (jacW2 : ℝ) ≤ (20 + 4 * 1000) * (4 : ℝ) ^ 1000 := by
    have h := (Int.cast_le (R := ℝ)).mpr c2
    simp only [Int.cast_mul, Int.cast_pow, Int.cast_ofNat, Int.cast_add] at h
    exact h
  have hG := pow_lower_bound_of_le gamma hg 1000
  have hpos : (0 : ℝ) < gamma ^ (2 * 1000) := by positivity
  have hP : (0 : ℝ) < (4 : ℝ) ^ 1000 := by positivity
  generalize (gamma ^ (2 * 1000) : ℝ) = G at hG hpos ⊢
  generalize ((4 : ℝ) ^ 1000) = P at c0r c1r c2r hG hP
  have hmain := jacobi_poly_of_le ((10 : ℝ) ^ 12 * (jacW0 : ℝ)) ((10 : ℝ) ^ 12 * (jacW1 : ℝ))
    ((10 : ℝ) ^ 12 * (jacW2 : ℝ)) P G (gamma - 2) 1000 hP (by linarith) (by norm_num)
    c0r (by linarith) c2r (by push_cast at hG; linarith)
  generalize (jacW0 : ℝ) = W0 at hmain ⊢
  generalize (jacW1 : ℝ) = W1 at hmain ⊢
  generalize (jacW2 : ℝ) = W2 at hmain ⊢
  rw [inv_mul_lt_iff₀ hpos]
  have e : (1e-6 : ℝ) ^ 2 = ((10 : ℝ) ^ 12)⁻¹ := by norm_num
  rw [e]
  have h10 : (0 : ℝ) < (10 : ℝ) ^ 12 := by positivity
  have hgoal : (10 : ℝ) ^ 12 * (W0 + 2 * (gamma - 2) * W1 + (gamma - 2) ^ 2 * W2)
      < G * (2 * (gamma - 1) ^ 2 + 18 * (gamma - 2) ^ 2) := by
    calc (10 : ℝ) ^ 12 * (W0 + 2 * (gamma - 2) * W1 + (gamma - 2) ^ 2 * W2)
        = (10 : ℝ) ^ 12 * W0 + 2 * (gamma - 2) * ((10 : ℝ) ^ 12 * W1)
          + (gamma - 2) ^ 2 * ((10 : ℝ) ^ 12 * W2) := by ring
      _ < G * (2 + 4 * (gamma - 2) + 20 * (gamma - 2) ^ 2) := hmain
      _ = G * (2 * (gamma - 1) ^ 2 + 18 * (gamma - 2) ^ 2) := by ring
  calc W0 + 2 * (gamma - 2) * W1 + (gamma - 2) ^ 2 * W2
      = ((10 : ℝ) ^ 12)⁻¹
        * ((10 : ℝ) ^ 12 * (W0 + 2 * (gamma - 2) * W1 + (gamma - 2) ^ 2 * W2)) := by
        field_simp
    _ < ((10 : ℝ) ^ 12)⁻¹ * (G * (2 * (gamma - 1) ^ 2 + 18 * (gamma - 2) ^ 2)) :=
        mul_lt_mul_of_pos_left hgoal (inv_pos.mpr h10)
    _ = G * (((10 : ℝ) ^ 12)⁻¹ * (2 * (gamma - 1) ^ 2 + 18 * (gamma - 2) ^ 2)) := by ring

/-- For `gamma > 2` the Jacobi iterate `x_1000` of the built system has
relative residual below `1e-6`. -/
theorem jacobi_relres (gamma : ℝ) (hg : 2 < gamma) :
    euclidRelres Real.sqrt (CSolver.A gamma : mat_n ℝ N) (CSolver.b gamma)
        (iterate (gamma⁻¹ • (gamma • (1 : mat_n ℝ N) - CSolver.A gamma))
          (gamma⁻¹ • (CSolver.b gamma : vec_n ℝ N)) 1000)
      < 1e-6 :=
  jacobi_relres_of_le gamma hg.le

end JacobiBound

section GSBound

variable {α : Type} [LinearOrderedField α] {n : Nat}

theorem length_gsAux (l : List Nat) : ∀ p, (gsAux p l).length = l.length := by
  induction l with
  | nil => intro p; rfl
  | cons x rest ih => intro p; simp [gsAux, ih]

theorem getD_gsAux (l : List Nat) : ∀ (p i : Nat), i < l.length →
    (gsAux p l).getD i 0
      = ((if i = 0 then p else (gsAux p l).getD (i - 1) 0) + l.getD (i + 1) 0 + 1) / 2 := by
  induction l with
  | nil => intro p i hi; simp at hi
  | cons x rest ih =>
    intro p i hi
    cases i with
    | zero =>
      cases rest with
      | nil => simp [gsAux]
      | cons y rest2 => simp [gsAux]
    | succ i =>
      have hi2 : i < rest.length := by simpa using hi
      simp only [gsAux, List.getD_cons_succ]
      rw [ih _ i hi2]
      cases i with
      | zero => simp
      | succ i => simp

theorem gsRun_eq (k : Nat) : ∀ l, gsRun k l = gsStep^[k] l := by
  induction k with
  | zero => intro l; rfl
  | succ k ih =>
    intro l
    rw [gsRun, ite_self, ih, Function.iterate_succ_apply]

theorem length_gsRun (k : Nat) (l : List Nat) : (gsRun k l).length = l.length := by
  rw [gsRun_eq]
  induction k with
  | zero => rfl
  | succ k ih =>
    rw [Function.iterate_succ_apply', gsStep, length_gsAux, ih]

/-- One Gauss-Seidel update `x' = P*x + R` on the built system satisfies
`Q * x' = -U * x + b`. -/
theorem gs_update (gamma : α) (hg : gamma ≠ 0) (b x : vec_n α n) :
    (keepDiagonal (CSolver.A gamma : mat_n α n) + keepLower (CSolver.A gamma)).mulVec
        ((inverse (keepDiagonal (CSolver.A gamma : mat_n α n) + keepLower (CSolver.A gamma))
            * (-keepUpper (CSolver.A gamma))).mulVec x
          + (inverse (keepDiagonal (CSolver.A gamma : mat_n α n)
              + keepLower (CSolver.A gamma))).mulVec b)
      = (-keepUpper (CSolver.A gamma : mat_n α n)).mulVec x + b := by
  rw [Matrix.mulVec_add, Matrix.mulVec_mulVec, Matrix.mulVec_mulVec, ← Matrix.mul_assoc,
    mul_inverse _ (isInvertible_CSolver_lower gamma hg), Matrix.one_mul, Matrix.one_mulVec]

theorem lower_mulVec (gamma : α) (v : vec_n α n) (i : Fin n) :
    (keepDiagonal (CSolver.A gamma : mat_n α n) + keepLower (CSolver.A gamma)).mulVec v i
      = gamma * v i - prevV v i := by
  have h : gamma * v i - prevV v i = gamma * v i + (-1) * prevV v i := by ring
  rw [h, ← sum_diagonal gamma v i, ← sum_sub_diagonal (-1 : α) v i,
    ← Finset.sum_add_distrib]
  simp only [Matrix.mulVec, Matrix.dotProduct]
  apply Finset.sum_congr rfl
  intro j _
  rw [CSolver_A_lower_diagonal, ← add_mul]

theorem upper_mulVec (gamma : α) (v : vec_n α n) (i : Fin n) :
    (keepUpper (CSolver.A gamma : mat_n α n)).mulVec v i = -nextV v i := by
  have h : -nextV v i = (-1) * nextV v i := by ring
  rw [h, ← sum_super_diagonal (-1 : α) v i]
  simp only [Matrix.mulVec, Matrix.dotProduct]
  apply Finset.sum_congr rfl
  intro j _
  rw [CSolver_A_upper]

/-- The errors `e = 1 - x` of Gauss-Seidel on the built system: after an
update, `gamma * e'_i = e'_{i-1} + e_{i+1}`. -/
theorem gs_error_step (gamma : α) (hn : 2 ≤ n) (x x' : vec_n α n)
    (hup : (keepDiagonal (CSolver.A gamma : mat_n α n)
        + keepLower (CSolver.A gamma)).mulVec x'
      = (-keepUpper (CSolver.A gamma : mat_n α n)).mulVec x + CSolver.b gamma)
    (i : Fin n) :
    gamma * ((ones : vec_n α n) - x') i
      = prevV ((ones : vec_n α n) - x') i + nextV ((ones : vec_n α n) - x) i := by
  have hb : (CSolver.b gamma : vec_n α n)
      = (keepDiagonal (CSolver.A gamma : mat_n α n) + keepLower (CSolver.A gamma)).mulVec ones
        + (keepUpper (CSolver.A gamma : mat_n α n)).mulVec ones := by
    rw [← Matrix.add_mulVec, add_comm (keepDiagonal (CSolver.A gamma : mat_n α n)),
      keep_decomposition]
    exact CSolver_b_eq gamma hn
  have h1 : (keepDiagonal (CSolver.A gamma : mat_n α n) + keepLower (CSolver.A gamma)).mulVec
      ((ones : vec_n α n) - x')
      = -((keepUpper (CSolver.A gamma : mat_n α n)).mulVec ((ones : vec_n α n) - x)) := by
    rw [Matrix.mulVec_sub, hup, Matrix.mulVec_sub, Matrix.neg_mulVec, hb]
    abel
  have h2 := congrFun h1 i
  rw [lower_mulVec, Pi.neg_apply, upper_mulVec] at h2
  linear_combination h2

theorem gs_bound_step (gamma S : α) (hg : 2 ≤ gamma) (hS : 0 < S) (e e' : vec_n α n)
    (E : List Nat) (hE : E.length = n)
    (hrel : ∀ i, gamma * e' i = prevV e' i + nextV e i)
    (hinv : ∀ i : Fin n, 0 ≤ e i ∧ e i * S ≤ ((E.getD i.val 0 : Nat) : α)) :
    ∀ i : Fin n, 0 ≤ e' i ∧ e' i * S ≤ (((gsStep E).getD i.val 0 : Nat) : α) := by
  have hnext : ∀ i : Fin n,
      0 ≤ nextV e i ∧ nextV e i * S ≤ ((E.getD (i.val + 1) 0 : Nat) : α) := by
    intro i
    unfold nextV
    by_cases h : i.val + 1 < n
    · rw [dif_pos h]
      exact hinv ⟨i.val + 1, h⟩
    · rw [dif_neg h, zero_mul]
      exact ⟨le_refl _, Nat.cast_nonneg _⟩
  have hstep : ∀ (i : Fin n) (a : α) (pn : Nat), prevV e' i = a → 0 ≤ a →
      a * S ≤ (pn : α) →
      (gsStep E).getD i.val 0 = (pn + E.getD (i.val + 1) 0 + 1) / 2 →
      0 ≤ e' i ∧ e' i * S ≤ (((gsStep E).getD i.val 0 : Nat) : α) := by
    intro i a pn ha ha0 haS hget
    have hr := hrel i
    rw [ha] at hr
    obtain ⟨hc0, hcS⟩ := hnext i
    have hgpos : 0 < gamma := by linarith
    have he0 : 0 ≤ e' i := by
      have : 0 ≤ gamma * e' i := by rw [hr]; linarith
      exact nonneg_of_mul_nonneg_right this hgpos
    refine ⟨he0, ?_⟩
    rw [hget]
    have hnat : pn + E.getD (i.val + 1) 0
        ≤ 2 * ((pn + E.getD (i.val + 1) 0 + 1) / 2) := by omega
    have hcast : ((pn : α) + ((E.getD (i.val + 1) 0 : Nat) : α))
        ≤ 2 * (((pn + E.getD (i.val + 1) 0 + 1) / 2 : Nat) : α) := by
      exact_mod_cast hnat
    have h1 : gamma * (e' i * S) ≤ (pn : α) + ((E.getD (i.val + 1) 0 : Nat) : α) := by
      have : gamma * (e' i * S) = a * S + nextV e i * S := by
        rw [← mul_assoc, hr]
        ring
      rw [this]
      linarith
    have h2 : 2 * (e' i * S) ≤ gamma * (e' i * S) :=
      mul_le_mul_of_nonneg_right hg (mul_nonneg he0 hS.le)
    linarith
  have hall : ∀ (m : Nat) (i : Fin n), i.val = m →
      0 ≤ e' i ∧ e' i * S ≤ (((gsStep E).getD i.val 0 : Nat) : α) := by
    intro m
    induction m with
    | zero =>
      intro i hi
      apply hstep i 0 0
      · unfold prevV
        rw [if_neg (by omega)]
      · exact le_refl _
      · simp
      · rw [gsStep, getD_gsAux E 0 i.val (by rw [hE]; exact i.isLt), if_pos hi]
    | succ m ih =>
      intro i hi
      have hm : m < n := by have := i.isLt; omega
      obtain ⟨h0, h1⟩ := ih ⟨m, hm⟩ rfl
      have hidx : (⟨i.val - 1, lt_of_le_of_lt (Nat.sub_le _ _) i.isLt⟩ : Fin n) = ⟨m, hm⟩ :=
        Fin.ext (by simp; omega)
      apply hstep i (e' ⟨m, hm⟩) ((gsStep E).getD m 0)
      · unfold prevV
        rw [if_pos (by omega), hidx]
      · exact h0
      · exact h1
      · have hne : ¬ i.val = 0 := by omega
        have hm1 : i.val - 1 = m := by omega
        rw [gsStep, getD_gsAux E 0 i.val (by rw [hE]; exact i.isLt), if_neg hne, hm1]
  exact fun i => hall i.val i rfl

/-- The errors of the Gauss-Seidel iterates of the built system, for
`gamma ≥ 2`, are nonnegative and bounded by the computed fixed-point list. -/
theorem gs_bound (gamma S : α) (hg : 2 ≤ gamma) (hn : 2 ≤ n) (s : Nat) (hS : S = 2 ^ s)
    (k : Nat) :
    ∀ i : Fin n,
      0 ≤ ((ones : vec_n α n) - gsIterate gamma k : vec_n α n) i ∧
      ((ones : vec_n α n) - gsIterate gamma k : vec_n α n) i * S
        ≤ (((gsRun k (List.replicate n (2 ^ s))).getD i.val 0 : Nat) : α) := by
  have hg0 : gamma ≠ 0 := by
    intro h
    rw [h] at hg
    linarith
  have hSpos : 0 < S := by rw [hS]; positivity
  induction k with
  | zero =>
    intro i
    have hget : (List.replicate n (2 ^ s)).getD i.val 0 = 2 ^ s := by
      rw [List.getD_eq_getElem _ _ (by simp)]
      simp
    rw [gsRun, hget]
    simp only [gsIterate, iterate, vec, ones, Pi.sub_apply, sub_zero, one_mul]
    refine ⟨by norm_num, ?_⟩
    rw [hS]
    push_cast
    exact le_refl _
  | succ k ih =>
    have hrun : gsRun (k + 1) (List.replicate n (2 ^ s))
        = gsStep (gsRun k (List.replicate n (2 ^ s))) := by
      rw [gsRun_eq, gsRun_eq, Function.iterate_succ_apply']
    rw [hrun]
    apply gs_bound_step gamma S hg hSpos _ _ _ (by rw [length_gsRun]; simp) _ ih
    intro i
    exact gs_error_step gamma hn _ _ (gs_update gamma hg0 (CSolver.b gamma) _) i

end GSBound

section GSBoundThree

variable {α : Type} [LinearOrderedField α] {n : Nat}

theorem length_gsAux3 (l : List Nat) : ∀ p, (gsAux3 p l).length = l.length := by
  induction l with
  | nil => intro p; rfl
  | cons x rest ih => intro p; simp [gsAux3, ih]

theorem getD_gsAux3 (l : List Nat) : ∀ (p i : Nat), i < l.length →
    (gsAux3 p l).getD i 0
      = ((if i = 0 then p else (gsAux3 p l).getD (i - 1) 0) + l.getD (i + 1) 0 + 2) / 3 := by
  induction l with
  | nil => intro p i hi; simp at hi
  | cons x rest ih =>
    intro p i hi
    cases i with
    | zero =>
      cases rest with
      | nil => simp [gsAux3]
      | cons y rest2 => simp [gsAux3]
    | succ i =>
      have hi2 : i < rest.length := by simpa using hi
      simp only [gsAux3, List.getD_cons_succ]
      rw [ih _ i hi2]
      cases i with
      | zero => simp
      | succ i => simp

theorem gsRun3_eq (k : Nat) : ∀ l, gsRun3 k l = gsStep3^[k] l := by
  induction k with
  | zero => intro l; rfl
  | succ k ih =>
    intro l
    rw [gsRun3, ite_self, ih, Function.iterate_succ_apply]

theorem length_gsRun3 (k : Nat) (l : List Nat) : (gsRun3 k l).length = l.length := by
  rw [gsRun3_eq]
  induction k with
  | zero => rfl
  | succ k ih =>
    rw [Function.iterate_succ_apply', gsStep3, length_gsAux3, ih]

theorem gs_bound_step3 (gamma S : α) (hg : 3 ≤ gamma) (hS : 0 < S) (e e' : vec_n α n)
    (E : List Nat) (hE : E.length = n)
    (hrel : ∀ i, gamma * e' i = prevV e' i + nextV e i)
    (hinv : ∀ i : Fin n, 0 ≤ e i ∧ e i * S ≤ ((E.getD i.val 0 : Nat) : α)) :
    ∀ i : Fin n, 0 ≤ e' i ∧ e' i * S ≤ (((gsStep3 E).getD i.val 0 : Nat) : α) := by
  have hnext : ∀ i : Fin n,
      0 ≤ nextV e i ∧ nextV e i * S ≤ ((E.getD (i.val + 1) 0 : Nat) : α) := by
    intro i
    unfold nextV
    by_cases h : i.val + 1 < n
    · rw [dif_pos h]
      exact hinv ⟨i.val + 1, h⟩
    · rw [dif_neg h, zero_mul]
      exact ⟨le_refl _, Nat.cast_nonneg _⟩
  have hstep : ∀ (i : Fin n) (a : α) (pn : Nat), prevV e' i = a → 0 ≤ a →
      a * S ≤ (pn : α) →
      (gsStep3 E).getD i.val 0 = (pn + E.getD (i.val + 1) 0 + 2) / 3 →
      0 ≤ e' i ∧ e' i * S ≤ (((gsStep3 E).getD i.val 0 : Nat) : α) := by
    intro i a pn ha ha0 haS hget
    have hr := hrel i
    rw [ha] at hr
    obtain ⟨hc0, hcS⟩ := hnext i
    have hgpos : 0 < gamma := by linarith
    have he0 : 0 ≤ e' i := by
      have : 0 ≤ gamma * e' i := by rw [hr]; linarith
      exact nonneg_of_mul_nonneg_right this hgpos
    refine ⟨he0, ?_⟩
    rw [hget]
    have hnat : pn + E.getD (i.val + 1) 0
        ≤ 3 * ((pn + E.getD (i.val + 1) 0 + 2) / 3) := by omega
    have hcast : ((pn : α) + ((E.getD (i.val + 1) 0 : Nat) : α))
        ≤ 3 * (((pn + E.getD (i.val + 1) 0 + 2) / 3 : Nat) : α) := by
      exact_mod_cast hnat
    have h1 : gamma * (e' i * S) ≤ (pn : α) + ((E.getD (i.val + 1) 0 : Nat) : α) := by
      have : gamma * (e' i * S) = a * S + nextV e i * S := by
        rw [← mul_assoc, hr]
        ring
      rw [this]
      linarith
    have h2 : 3 * (e' i * S) ≤ gamma * (e' i * S) :=
      mul_le_mul_of_nonneg_right hg (mul_nonneg he0 hS.le)
    linarith
  have hall : ∀ (m : Nat) (i : Fin n), i.val = m →
      0 ≤ e' i ∧ e' i * S ≤ (((gsStep3 E).getD i.val 0 : Nat) : α) := by
    intro m
    induction m with
    | zero =>
      intro i hi
      apply hstep i 0 0
      · unfold prevV
        rw [if_neg (by omega)]
      · exact le_refl _
      · simp
      · rw [gsStep3, getD_gsAux3 E 0 i.val (by rw [hE]; exact i.isLt), if_pos hi]
    | succ m ih =>
      intro i hi
      have hm : m < n := by have := i.isLt; omega
      obtain ⟨h0, h1⟩ := ih ⟨m, hm⟩ rfl
      have hidx : (⟨i.val - 1, lt_of_le_of_lt (Nat.sub_le _ _) i.isLt⟩ : Fin n) = ⟨m, hm⟩ :=
        Fin.ext (by simp; omega)
      apply hstep i (e' ⟨m, hm⟩) ((gsStep3 E).getD m 0)
      · unfold prevV
        rw [if_pos (by omega), hidx]
      · exact h0
      · exact h1
      · have hne : ¬ i.val = 0 := by omega
        have hm1 : i.val - 1 = m := by omega
        rw [gsStep3, getD_gsAux3 E 0 i.val (by rw [hE]; exact i.isLt), if_neg hne, hm1]
  exact fun i => hall i.val i rfl

/-- The errors of the Gauss-Seidel iterates of the built system, for
`gamma ≥ 3`, are nonnegative and bounded by the computed fixed-point list. -/
theorem gs_bound3 (gamma S : α) (hg : 3 ≤ gamma) (hn : 2 ≤ n) (s : Nat) (hS : S = 2 ^ s)
    (k : Nat) :
    ∀ i : Fin n,
      0 ≤ ((ones : vec_n α n) - gsIterate gamma k : vec_n α n) i ∧
      ((ones : vec_n α n) - gsIterate gamma k : vec_n α n) i * S
        ≤ (((gsRun3 k (List.replicate n (2 ^ s))).getD i.val 0 : Nat) : α) := by
  have hg0 : gamma ≠ 0 := by
    intro h
    rw [h] at hg
    linarith
  have hSpos : 0 < S := by rw [hS]; positivity
  induction k with
  | zero =>
    intro i
    have hget : (List.replicate n (2 ^ s)).getD i.val 0 = 2 ^ s := by
      rw [List.getD_eq_getElem _ _ (by simp)]
      simp
    rw [gsRun3, hget]
    simp only [gsIterate, iterate, vec, ones, Pi.sub_apply, sub_zero, one_mul]
    refine ⟨by norm_num, ?_⟩
    rw [hS]
    push_cast
    exact le_refl _
  | succ k ih =>
    have hrun : gsRun3 (k + 1) (List.replicate n (2 ^ s))
        = gsStep3 (gsRun3 k (List.replicate n (2 ^ s))) := by
      rw [gsRun3_eq, gsRun3_eq, Function.iterate_succ_apply']
    rw [hrun]
    apply gs_bound_step3 gamma S hg hSpos _ _ _ (by rw [length_gsRun3]; simp) _ ih
    intro i
    exact gs_error_step gamma hn _ _ (gs_update gamma hg0 (CSolver.b gamma) _) i

end GSBoundThree

section GSFinal

/-- The computed certificate: after 750 sweeps every bound is at most
`70000` units of `2^-40`. -/
theorem gs_certificate : gsE.all (fun x => Nat.ble x 70000) = true := by
  decide!

theorem gsE_getD_le (i : Nat) : gsE.getD i 0 ≤ 70000 := by
  by_cases h : i < gsE.length
  · rw [List.getD_eq_getElem _ _ h]
    have hall := List.all_eq_true.mp gs_certificate _ (List.getElem_mem h)
    exact Nat.le_of_ble_eq_true hall
  · rw [List.getD_eq_default _ _ (by omega)]
    exact Nat.zero_le _

/-- A bound `E` on the errors `1 - x_k` of a Gauss-Seidel iterate of the
built system with `20 * E^2 < 1e-12 / 2` puts its relative residual below
`1e-6`, for `gamma ≥ 2`. -/
theorem gs_relres_of_errors (gamma E : ℝ) (hg : 2 ≤ gamma) (k : Nat)
    (hbound : ∀ i : Fin N,
      0 ≤ ((ones : vec_n ℝ N) - gsIterate gamma k : vec_n ℝ N) i ∧
      ((ones : vec_n ℝ N) - gsIterate gamma k : vec_n ℝ N) i ≤ E)
    (hsmall : ((N : Nat) : ℝ) * E ^ 2 < (1e-6 : ℝ) ^ 2 / 2) :
    euclidRelres Real.sqrt (CSolver.A gamma : mat_n ℝ N) (CSolver.b gamma)
        (gsIterate gamma k) < 1e-6 := by
  apply relres_lt_of_sq _ _ _ _ (by norm_num)
  rw [sum_sq_CSolver_b]
  have hd : (0 : ℝ) ≤ E := le_trans (hbound ⟨0, by norm_num⟩).1 (hbound ⟨0, by norm_num⟩).2
  generalize he : ((ones : vec_n ℝ N) - gsIterate gamma k : vec_n ℝ N) = e at hbound
  have hres : (CSolver.A gamma : mat_n ℝ N).mulVec (gsIterate gamma k) - CSolver.b gamma
      = fun i => -(gamma * e i - (prevV e i + nextV e i)) := by
    have hx : (gsIterate gamma k : vec_n ℝ N) = ones - e := by
      rw [← he]
      abel
    rw [hx, CSolver_b_eq gamma (by norm_num : 2 ≤ N), ← Matrix.mulVec_sub]
    funext i
    have : (ones : vec_n ℝ N) - e - ones = -e := by abel
    rw [this, Matrix.mulVec_neg, Pi.neg_apply, CSolver_A_eq, Matrix.sub_mulVec, Pi.sub_apply,
      pathMatrix_mulVec, Matrix.smul_mulVec_assoc, Matrix.one_mulVec, Pi.smul_apply,
      smul_eq_mul]
  rw [hres]
  have hprev : ∀ i : Fin N, 0 ≤ prevV e i ∧ prevV e i ≤ E := by
    intro i
    unfold prevV
    split
    · exact hbound _
    · exact ⟨le_refl _, hd⟩
  have hnext : ∀ i : Fin N, 0 ≤ nextV e i ∧ nextV e i ≤ E := by
    intro i
    unfold nextV
    split
    · exact hbound _
    · exact ⟨le_refl _, hd⟩
  have hterm : ∀ i : Fin N,
      (-(gamma * e i - (prevV e i + nextV e i))) * (-(gamma * e i - (prevV e i + nextV e i)))
        ≤ gamma ^ 2 * E ^ 2 := by
    intro i
    obtain ⟨a0, a1⟩ := hbound i
    obtain ⟨p0, p1⟩ := hprev i
    obtain ⟨q0, q1⟩ := hnext i
    have hup : gamma * e i - (prevV e i + nextV e i) ≤ gamma * E := by
      have : gamma * e i ≤ gamma * E := mul_le_mul_of_nonneg_left a1 (by linarith)
      linarith
    have hlo : -(gamma * E) ≤ gamma * e i - (prevV e i + nextV e i) := by
      have h1 : 0 ≤ gamma * e i := mul_nonneg (by linarith) a0
      have h2 : 2 * E ≤ gamma * E := mul_le_mul_of_nonneg_right hg hd
      linarith
    have habs : |gamma * e i - (prevV e i + nextV e i)| ≤ gamma * E := abs_le.mpr ⟨hlo, hup⟩
    have hsq := pow_le_pow_left₀ (abs_nonneg _) habs 2
    rw [sq_abs] at hsq
    calc (-(gamma * e i - (prevV e i + nextV e i)))
          * (-(gamma * e i - (prevV e i + nextV e i)))
        = (gamma * e i - (prevV e i + nextV e i)) ^ 2 := by ring
      _ ≤ (gamma * E) ^ 2 := hsq
      _ = gamma ^ 2 * E ^ 2 := by ring
  have hsum := Finset.sum_le_sum (fun i (_ : i ∈ (Finset.univ : Finset (Fin N))) => hterm i)
  rw [Finset.sum_const, Finset.card_univ, Fintype.card_fin, nsmul_eq_mul] at hsum
  refine lt_of_le_of_lt hsum ?_
  have h1 : gamma ^ 2 / 2 ≤ 2 * (gamma - 1) ^ 2 := by nlinarith
  have h2 : (0 : ℝ) ≤ 18 * (gamma - 2) ^ 2 := by positivity
  have hg2 : (0 : ℝ) < gamma ^ 2 := by
    apply pow_pos
    linarith
  calc ((N : Nat) : ℝ) * (gamma ^ 2 * E ^ 2)
      = gamma ^ 2 * (((N : Nat) : ℝ) * E ^ 2) := by ring
    _ < gamma ^ 2 * ((1e-6 : ℝ) ^ 2 / 2) := mul_lt_mul_of_pos_left hsmall hg2
    _ = (1e-6 : ℝ) ^ 2 * (gamma ^ 2 / 2) := by ring
    _ ≤ (1e-6 : ℝ) ^ 2 * (2 * (gamma - 1) ^ 2 + 18 * (gamma - 2) ^ 2) :=
        mul_le_mul_of_nonneg_left (by linarith) (by positivity)

/-- For `gamma ≥ 2` the Gauss-Seidel iterate `x_750` of the built system has
relative residual below `1e-6`. -/
theorem gs_relres_of_le (gamma : ℝ) (hg : 2 ≤ gamma) :
    euclidRelres Real.sqrt (CSolver.A gamma : mat_n ℝ N) (CSolver.b gamma)
        (gsIterate gamma 750) < 1e-6 := by
  have hb := gs_bound gamma ((2 : ℝ) ^ 40) hg (by norm_num : 2 ≤ N) 40 rfl 750
  apply gs_relres_of_errors gamma (70000 / (2 : ℝ) ^ 40) hg 750
  · intro i
    obtain ⟨h0, h1⟩ := hb i
    refine ⟨h0, ?_⟩
    rw [le_div_iff₀ (by positivity)]
    have h2 : (((gsRun 750 (List.replicate N (2 ^ 40))).getD i.val 0 : Nat) : ℝ) ≤ 70000 := by
      have := gsE_getD_le i.val
      exact_mod_cast this
    linarith
  · norm_num

/-- For `gamma > 2` the Gauss-Seidel iterate `x_750` of the built system has
relative residual below `1e-6`. -/
theorem gs_relres (gamma : ℝ) (hg : 2 < gamma) :
    euclidRelres Real.sqrt (CSolver.A gamma : mat_n ℝ N) (CSolver.b gamma)
        (gsIterate gamma 750) < 1e-6 :=
  gs_relres_of_le gamma hg.le

/-- The computed certificate: after 25 sweeps at `gamma = 3` every bound is
at most `25000` units of `2^-40`. -/
theorem gs_certificate_three : gsE3.all (fun x => Nat.ble x 25000) = true := by
  decide!

theorem gsE3_getD_le (i : Nat) : gsE3.getD i 0 ≤ 25000 := by
  by_cases h : i < gsE3.length
  · rw [List.getD_eq_getElem _ _ h]
    have hall := List.all_eq_true.mp gs_certificate_three _ (List.getElem_mem h)
    exact Nat.le_of_ble_eq_true hall
  · rw [List.getD_eq_default _ _ (by omega)]
    exact Nat.zero_le _

/-- For `gamma ≥ 3` the Gauss-Seidel iterate `x_25` of the built system has
relative residual below `1e-6`. -/
theorem gs_relres_three (gamma : ℝ) (hg : 3 ≤ gamma) :
    euclidRelres Real.sqrt (CSolver.A gamma : mat_n ℝ N) (CSolver.b gamma)
        (gsIterate gamma 25) < 1e-6 := by
  have hb := gs_bound3 gamma ((2 : ℝ) ^ 40) hg (by norm_num : 2 ≤ N) 40 rfl 25
  apply gs_relres_of_errors gamma (25000 / (2 : ℝ) ^ 40) (by linarith) 25
  · intro i
    obtain ⟨h0, h1⟩ := hb i
    refine ⟨h0, ?_⟩
    rw [le_div_iff₀ (by positivity)]
    have h2 : (((gsRun3 25 (List.replicate N (2 ^ 40))).getD i.val 0 : Nat) : ℝ) ≤ 25000 := by
      have := gsE3_getD_le i.val
      exact_mod_cast this
    linarith
  · norm_num

end GSFinal

section Assembly

theorem exists_eigenvalue (M : mat_n ℝ N) : ∃ μ : ℂ, isEigenvalue M μ := by
  obtain ⟨μ, hμ⟩ := Module.End.exists_eigenvalue (Matrix.toLin' (M.map Complex.ofReal))
  obtain ⟨v, hv⟩ := hμ.exists_hasEigenvector
  refine ⟨μ, v, hv.2, ?_⟩
  have := hv.apply_eq_smul
  rwa [Matrix.toLin'_apply] at this

end Assembly

/-! ## Runs used by the later claims -/

section RunLemmas

variable {α : Type} [LinearOrderedField α] {n : Nat}

/-- The run of Jacobi with `K = 1` on `A = 1`, `b = e_0`. -/
theorem run_identity_one_round :
    (jacobiOneRound : CMethod ℝ N).solve Real.sqrt (1 : mat_n ℝ N) (unitVec 0)
      = ⟨(unitVec 0, -1), 88, [], 1, 1⟩ := by
  simp only [CMethod.solve, jacobiOneRound, jacobiTri, CJacobiMethod, jacobi_init_identity,
    Bool.not_true, Bool.false_eq_true, if_false]
  rw [solveLoop_exhausted Real.sqrt _ _ _ _ 1 _ _ 1 vec 0 0]
  · simp [vec_mulVec_zero]
  · intro i hi
    have hi0 : i = 0 := by omega
    subst hi0
    simp only [Function.iterate_zero, id_eq, vec_mulVec_zero, zero_sub]
    rw [norm_neg_unitVec 0 (by norm_num), norm_unitVec 0 (by norm_num),
      fin_div_fin _ _ one_ne_zero, fin_lt_fin]
    norm_num

theorem relres_identity_unitVec :
    relres Real.sqrt (1 : mat_n ℝ N) (unitVec 0) (unitVec 0) = FloatVal.fin 0 := by
  unfold relres
  rw [Matrix.one_mulVec, sub_self, norm_zero_vec, norm_unitVec 0 (by norm_num),
    fin_div_fin _ _ one_ne_zero, zero_div]

theorem euclidRelres_identity_unitVec :
    euclidRelres Real.sqrt (1 : mat_n ℝ N) (unitVec 0) (unitVec 0) = 0 := by
  unfold euclidRelres
  rw [Matrix.one_mulVec, sub_self]
  simp [euclidNorm]

theorem CSolver_b_rev (gamma : α) (i : Fin n) :
    (CSolver.b gamma : vec_n α n) (Fin.rev i) = CSolver.b gamma i := by
  rw [CSolver_b_apply, CSolver_b_apply]
  have hi := i.isLt
  have hr : (Fin.rev i).val = n - (i.val + 1) := Fin.val_rev i
  have hiff : ((Fin.rev i).val = 0 ∨ (Fin.rev i).val + 1 = n)
      ↔ (i.val = 0 ∨ i.val + 1 = n) := by
    rw [hr]
    omega
  by_cases h : i.val = 0 ∨ i.val + 1 = n
  · rw [if_pos h, if_pos (hiff.mpr h)]
  · rw [if_neg h, if_neg (fun h2 => h (hiff.mp h2))]

/-- The neighbour sum `T v` of a palindromic vector is palindromic. -/
theorem pathMatrix_mulVec_rev (v : vec_n α n) (hv : ∀ i, v (Fin.rev i) = v i) (i : Fin n) :
    (pathMatrix : mat_n α n).mulVec v (Fin.rev i) = (pathMatrix : mat_n α n).mulVec v i := by
  rw [pathMatrix_mulVec, pathMatrix_mulVec]
  have hi := i.isLt
  have hr : (Fin.rev i).val = n - (i.val + 1) := Fin.val_rev i
  have h1 : prevV v (Fin.rev i) = nextV v i := by
    unfold prevV nextV
    by_cases h : i.val + 1 < n
    · rw [dif_pos h, if_pos (by rw [hr]; omega)]
      rw [← hv ⟨i.val + 1, h⟩]
      have e2 : (Fin.rev (⟨i.val + 1, h⟩ : Fin n)).val = n - (i.val + 1 + 1) :=
        Fin.val_rev _
      refine congrArg v (Fin.ext ?_)
      show (Fin.rev i).val - 1 = (Fin.rev (⟨i.val + 1, h⟩ : Fin n)).val
      omega
    · rw [dif_neg h, if_neg (by rw [hr]; omega)]
  have h2 : nextV v (Fin.rev i) = prevV v i := by
    unfold prevV nextV
    by_cases h : 0 < i.val
    · rw [if_pos h, dif_pos (by rw [hr]; omega)]
      rw [← hv ⟨i.val - 1, lt_of_le_of_lt (Nat.sub_le _ _) i.isLt⟩]
      have e2 : (Fin.rev (⟨i.val - 1, lt_of_le_of_lt (Nat.sub_le _ _) i.isLt⟩ : Fin n)).val
          = n - (i.val - 1 + 1) := Fin.val_rev _
      refine congrArg v (Fin.ext ?_)
      show (Fin.rev i).val + 1
        = (Fin.rev (⟨i.val - 1, lt_of_le_of_lt (Nat.sub_le _ _) i.isLt⟩ : Fin n)).val
      omega
    · rw [if_neg h, dif_neg (by rw [hr]; omega)]
  rw [h1, h2, add_comm]

/-- Every Jacobi iterate of the built system is palindromic. -/
theorem jacobi_iterate_rev (gamma : α) (j : Nat) (i : Fin n) :
    iterate (gamma⁻¹ • (gamma • (1 : mat_n α n) - CSolver.A gamma))
        (gamma⁻¹ • (CSolver.b gamma : vec_n α n)) j (Fin.rev i)
      = iterate (gamma⁻¹ • (gamma • (1 : mat_n α n) - CSolver.A gamma))
        (gamma⁻¹ • (CSolver.b gamma : vec_n α n)) j i := by
  have hP : gamma • (1 : mat_n α n) - CSolver.A gamma = pathMatrix := by
    rw [CSolver_A_eq]
    abel
  rw [hP]
  induction j generalizing i with
  | zero => rfl
  | succ j ih =>
    simp only [iterate, Pi.add_apply, Pi.smul_apply, Matrix.smul_mulVec_assoc, smul_eq_mul]
    rw [pathMatrix_mulVec_rev _ ih, CSolver_b_rev]

end RunLemmas

section JacobiLower

theorem sum_prevV_sq_le {n : Nat} (s : vec_n ℝ n) :
    ∑ i, prevV s i * prevV s i ≤ ∑ i, s i * s i := by
  cases n with
  | zero => simp
  | succ m =>
    rw [Fin.sum_univ_succ, Fin.sum_univ_castSucc (fun i => s i * s i)]
    have h0 : prevV s (0 : Fin (m + 1)) = 0 := by
      unfold prevV
      simp
    have hs : ∀ i : Fin m, prevV s i.succ = s (Fin.castSucc i) := by
      intro i
      unfold prevV
      rw [if_pos (by simp)]
      exact congrArg s (Fin.ext (by simp))
    rw [h0, mul_zero, zero_add]
    simp only [hs]
    have := mul_self_nonneg (s (Fin.last m))
    linarith

theorem sum_nextV_sq_le {n : Nat} (s : vec_n ℝ n) :
    ∑ i, nextV s i * nextV s i ≤ ∑ i, s i * s i := by
  cases n with
  | zero => simp
  | succ m =>
    rw [Fin.sum_univ_castSucc, Fin.sum_univ_succ (fun i => s i * s i)]
    have h0 : nextV s (Fin.last m) = 0 := by
      unfold nextV
      simp
    have hs : ∀ i : Fin m, nextV s (Fin.castSucc i) = s i.succ := by
      intro i
      unfold nextV
      rw [dif_pos (by simp)]
      exact congrArg s (Fin.ext (by simp))
    rw [h0, mul_zero, add_zero]
    simp only [hs]
    have := mul_self_nonneg (s 0)
    linarith

/-- The path matrix at most doubles the Euclidean length. -/
theorem sum_pathMatrix_sq_le {n : Nat} (s : vec_n ℝ n) :
    ∑ i, (pathMatrix : mat_n ℝ n).mulVec s i * (pathMatrix : mat_n ℝ n).mulVec s i
      ≤ 4 * ∑ i, s i * s i := by
  have h1 : ∀ i : Fin n,
      (pathMatrix : mat_n ℝ n).mulVec s i * (pathMatrix : mat_n ℝ n).mulVec s i
        ≤ 2 * (prevV s i * prevV s i) + 2 * (nextV s i * nextV s i) := by
    intro i
    rw [pathMatrix_mulVec]
    nlinarith [sq_nonneg (prevV s i - nextV s i)]
  have h2 := Finset.sum_le_sum (fun i (_ : i ∈ (Finset.univ : Finset (Fin n))) => h1 i)
  rw [Finset.sum_add_distrib, ← Finset.mul_sum, ← Finset.mul_sum] at h2
  have h3 := sum_prevV_sq_le s
  have h4 := sum_nextV_sq_le s
  linarith

/-- One Jacobi update on the built system multiplies the residual by
`gamma^-1 * T`, with `T` the path matrix. -/
theorem jacobi_residual_step {n : Nat} (gamma : ℝ) (hg : gamma ≠ 0) (x : vec_n ℝ n) :
    (CSolver.A gamma : mat_n ℝ n).mulVec
        ((gamma⁻¹ • (gamma • (1 : mat_n ℝ n) - CSolver.A gamma)).mulVec x
          + gamma⁻¹ • (CSolver.b gamma : vec_n ℝ n)) - CSolver.b gamma
      = gamma⁻¹ • (pathMatrix : mat_n ℝ n).mulVec
          ((CSolver.A gamma : mat_n ℝ n).mulVec x - CSolver.b gamma) := by
  have hT : gamma • (1 : mat_n ℝ n) - CSolver.A gamma = pathMatrix := by
    rw [CSolver_A_eq]
    abel
  rw [hT, CSolver_A_eq]
  generalize (CSolver.b gamma : vec_n ℝ n) = b
  simp only [Matrix.mulVec_add, Matrix.mulVec_sub, Matrix.mulVec_smul, Matrix.sub_mulVec,
    Matrix.smul_mulVec_assoc, Matrix.one_mulVec]
  generalize (pathMatrix : mat_n ℝ n).mulVec x = y
  generalize (pathMatrix : mat_n ℝ n).mulVec y = z
  generalize (pathMatrix : mat_n ℝ n).mulVec b = c
  funext i
  simp only [Pi.add_apply, Pi.sub_apply, Pi.smul_apply, smul_eq_mul]
  field_simp
  ring

/-- For `gamma ≥ 2` the residual of the Jacobi iterates of the built system
does not grow. -/
theorem jacobi_residual_antitone {n : Nat} (gamma : ℝ) (hg : 2 ≤ gamma) (j k : Nat)
    (hjk : j ≤ k) :
    ∑ i, ((CSolver.A gamma : mat_n ℝ n).mulVec
          (iterate (gamma⁻¹ • (gamma • (1 : mat_n ℝ n) - CSolver.A gamma))
            (gamma⁻¹ • (CSolver.b gamma : vec_n ℝ n)) k) - CSolver.b gamma : vec_n ℝ n) i
        * ((CSolver.A gamma : mat_n ℝ n).mulVec
          (iterate (gamma⁻¹ • (gamma • (1 : mat_n ℝ n) - CSolver.A gamma))
            (gamma⁻¹ • (CSolver.b gamma : vec_n ℝ n)) k) - CSolver.b gamma : vec_n ℝ n) i
      ≤ ∑ i, ((CSolver.A gamma : mat_n ℝ n).mulVec
          (iterate (gamma⁻¹ • (gamma • (1 : mat_n ℝ n) - CSolver.A gamma))
            (gamma⁻¹ • (CSolver.b gamma : vec_n ℝ n)) j) - CSolver.b gamma : vec_n ℝ n) i
        * ((CSolver.A gamma : mat_n ℝ n).mulVec
          (iterate (gamma⁻¹ • (gamma • (1 : mat_n ℝ n) - CSolver.A gamma))
            (gamma⁻¹ • (CSolver.b gamma : vec_n ℝ n)) j) - CSolver.b gamma : vec_n ℝ n) i := by
  have hg0 : gamma ≠ 0 := by linarith
  induction k with
  | zero =>
    have : j = 0 := by omega
    rw [this]
  | succ k ih =>
    by_cases hj : j = k + 1
    · rw [hj]
    · refine le_trans ?_ (ih (by omega))
      rw [iterate, jacobi_residual_step gamma hg0]
      generalize (CSolver.A gamma : mat_n ℝ n).mulVec
          (iterate (gamma⁻¹ • (gamma • (1 : mat_n ℝ n) - CSolver.A gamma))
            (gamma⁻¹ • (CSolver.b gamma : vec_n ℝ n)) k) - CSolver.b gamma = s
      have h1 := sum_pathMatrix_sq_le s
      have e : ∑ i, (gamma⁻¹ • (pathMatrix : mat_n ℝ n).mulVec s) i
            * (gamma⁻¹ • (pathMatrix : mat_n ℝ n).mulVec s) i
          = (gamma⁻¹) ^ 2 * ∑ i, (pathMatrix : mat_n ℝ n).mulVec s i
            * (pathMatrix : mat_n ℝ n).mulVec s i := by
        rw [Finset.mul_sum]
        apply Finset.sum_congr rfl
        intro i _
        simp only [Pi.smul_apply, smul_eq_mul]
        ring
      rw [e]
      have hs0 : 0 ≤ ∑ i, s i * s i := Finset.sum_nonneg (fun i _ => mul_self_nonneg _)
      have hinv : (gamma⁻¹) ^ 2 * 4 ≤ 1 := by
        rw [inv_pow, inv_mul_le_iff₀ (by positivity)]
        nlinarith
      calc (gamma⁻¹) ^ 2 * ∑ i, (pathMatrix : mat_n ℝ n).mulVec s i
            * (pathMatrix : mat_n ℝ n).mulVec s i
          ≤ (gamma⁻¹) ^ 2 * (4 * ∑ i, s i * s i) :=
            mul_le_mul_of_nonneg_left h1 (by positivity)
        _ = ((gamma⁻¹) ^ 2 * 4) * ∑ i, s i * s i := by ring
        _ ≤ 1 * ∑ i, s i * s i := mul_le_mul_of_nonneg_right hinv hs0
        _ = ∑ i, s i * s i := one_mul _

theorem relres_not_lt_of_sq {n : Nat} (A : mat_n ℝ n) (b x : vec_n ℝ n) (c : ℝ) (hc : 0 ≤ c)
    (hb : 0 < ∑ i, b i * b i)
    (h : c ^ 2 * ∑ i, b i * b i ≤ ∑ i, (A.mulVec x - b) i * (A.mulVec x - b) i) :
    ¬ euclidRelres Real.sqrt A b x < c := by
  unfold euclidRelres euclidNorm
  rw [div_lt_iff₀ (Real.sqrt_pos.mpr hb)]
  have e : c * Real.sqrt (∑ i, b i * b i) = Real.sqrt (c ^ 2 * ∑ i, b i * b i) := by
    rw [Real.sqrt_mul (sq_nonneg c), Real.sqrt_sq hc]
  rw [e, not_lt]
  exact Real.sqrt_le_sqrt h

theorem jacResSq_eq (g k : Nat) :
    ∑ i : Fin N, ((g : ℝ) * (toVec (pathRun k (List.replicate 20 1)) : vec_n ℝ N) i
        - (toVec (pathStep (pathRun k (List.replicate 20 1))) : vec_n ℝ N) i) ^ 2
      = (jacResSq g k : ℝ) := by
  unfold jacResSq
  rw [← sum_fin_eq_sumOver]
  apply Finset.sum_congr rfl
  intro i _
  unfold toVec
  push_cast
  rfl

/-- The squared residual of the `k`-th Jacobi iterate of the built system of
dimension 20 for a whole number `gamma = g`, from the computed list. -/
theorem jacobi_residual_sq (g k : Nat) (hg : g ≠ 0) :
    ∑ i, ((CSolver.A (g : ℝ) : mat_n ℝ N).mulVec
          (iterate ((g : ℝ)⁻¹ • ((g : ℝ) • (1 : mat_n ℝ N) - CSolver.A (g : ℝ)))
            ((g : ℝ)⁻¹ • (CSolver.b (g : ℝ) : vec_n ℝ N)) k) - CSolver.b (g : ℝ) : vec_n ℝ N) i
        * ((CSolver.A (g : ℝ) : mat_n ℝ N).mulVec
          (iterate ((g : ℝ)⁻¹ • ((g : ℝ) • (1 : mat_n ℝ N) - CSolver.A (g : ℝ)))
            ((g : ℝ)⁻¹ • (CSolver.b (g : ℝ) : vec_n ℝ N)) k) - CSolver.b (g : ℝ) : vec_n ℝ N) i
      = (((g : ℝ) ^ (2 * k))⁻¹) * (jacResSq g k : ℝ) := by
  have hg0 : (g : ℝ) ≠ 0 := Nat.cast_ne_zero.mpr hg
  rw [jacobi_residual (g : ℝ) hg0 (by norm_num) k]
  have hu : (fun v => (pathMatrix : mat_n ℝ N).mulVec v)^[k] ones
      = toVec (pathRun k (List.replicate 20 1)) :=
    path_iterate_eq_toVec k
  have hu2 : (fun v => (pathMatrix : mat_n ℝ N).mulVec v)^[k + 1] ones
      = toVec (pathStep (pathRun k (List.replicate 20 1))) := by
    rw [Function.iterate_succ_apply', hu, pathMatrix_mulVec_toVec]
    exact length_pathRun k _
  rw [hu, hu2, ← jacResSq_eq, Finset.mul_sum]
  apply Finset.sum_congr rfl
  intro i _
  simp only [Pi.neg_apply, Pi.smul_apply, Pi.sub_apply, smul_eq_mul, inv_pow, pow_mul]
  ring

/-- No Jacobi iterate `x_j`, `j ≤ k`, of the built system for a whole number
`gamma = g ≥ 2` is below the threshold `1e-6`, when the computed squared
residual of `x_k` is large enough. -/
theorem jacobi_no_hit (g k : Nat) (hg : 2 ≤ g)
    (hcert : (2 * ((g : Int) - 1) ^ 2 + 18 * ((g : Int) - 2) ^ 2) * ((g : Int) ^ 2) ^ k
      ≤ 10 ^ 12 * jacResSq g k) (j : Nat) (hj : j ≤ k) :
    ¬ euclidRelres Real.sqrt (CSolver.A (g : ℝ) : mat_n ℝ N) (CSolver.b (g : ℝ))
        (iterate ((g : ℝ)⁻¹ • ((g : ℝ) • (1 : mat_n ℝ N) - CSolver.A (g : ℝ)))
          ((g : ℝ)⁻¹ • (CSolver.b (g : ℝ) : vec_n ℝ N)) j) < 1e-6 := by
  have hg2 : (2 : ℝ) ≤ (g : ℝ) := by exact_mod_cast hg
  have hb : (0 : ℝ) < 2 * ((g : ℝ) - 1) ^ 2 + 18 * ((g : ℝ) - 2) ^ 2 := by
    have : (0 : ℝ) < ((g : ℝ) - 1) ^ 2 := by
      apply pow_pos
      linarith
    positivity
  apply relres_not_lt_of_sq _ _ _ _ (by norm_num)
  · rw [sum_sq_CSolver_b]
    exact hb
  · refine le_trans ?_ (jacobi_residual_antitone (g : ℝ) hg2 j k hj)
    rw [jacobi_residual_sq g k (by omega), sum_sq_CSolver_b]
    have hc := (Int.cast_le (R := ℝ)).mpr hcert
    simp only [Int.cast_mul, Int.cast_pow, Int.cast_ofNat, Int.cast_add, Int.cast_sub,
      Int.cast_natCast, Int.cast_one] at hc
    have hpos : (0 : ℝ) < (g : ℝ) ^ (2 * k) := by positivity
    rw [le_inv_mul_iff₀ hpos]
    rw [← pow_mul] at hc
    have e : (1e-6 : ℝ) ^ 2 = ((10 : ℝ) ^ 12)⁻¹ := by norm_num
    rw [e]
    have h10 : (0 : ℝ) < (10 : ℝ) ^ 12 := by positivity
    generalize (jacResSq g k : ℝ) = W at hc ⊢
    generalize ((g : ℝ) ^ (2 * k)) = G at hc hpos ⊢
    generalize (2 * ((g : ℝ) - 1) ^ 2 + 18 * ((g : ℝ) - 2) ^ 2) = S at hc hb ⊢
    have : G * (((10 : ℝ) ^ 12)⁻¹ * S) = ((10 : ℝ) ^ 12)⁻¹ * (S * G) := by ring
    rw [this, inv_mul_le_iff₀ h10]
    exact hc

end JacobiLower

section Counts

/-- The computed certificates: the squared residuals of the Jacobi iterates
`x_25` at `gamma = 3` and `x_750` at `gamma = 2` are not below the squared
threshold. -/
theorem jacobi_low_certificate :
    (2 * ((3 : Int) - 1) ^ 2 + 18 * ((3 : Int) - 2) ^ 2) * ((3 : Int) ^ 2) ^ 25
        ≤ 10 ^ 12 * jacResSq 3 25 ∧
      (2 * ((2 : Int) - 1) ^ 2 + 18 * ((2 : Int) - 2) ^ 2) * ((2 : Int) ^ 2) ^ 750
        ≤ 10 ^ 12 * jacResSq 2 750 := by
  decide!

/-- Where `CMethod::solve` stops when `_init` reports convergence, no iterate
before `x_lo` is below the threshold and `x_hi` is: at the converged return,
with a count between `lo` and `hi`. -/
theorem solve_count_between {n : Nat} (m : CMethod ℝ n) (A : mat_n ℝ n) (b : vec_n ℝ n)
    (hc : (m._init A b).2.2 = true) (lo hi : Nat) (hhi : hi < m.K)
    (hno : ∀ j, j < lo →
      ¬ relres Real.sqrt A b (iterate (m._init A b).1 (m._init A b).2.1 j) < m.eps)
    (hhit : relres Real.sqrt A b (iterate (m._init A b).1 (m._init A b).2.1 hi) < m.eps) :
    (m.solve Real.sqrt A b).line = 80 ∧ ((lo : Nat) : Int) ≤ (m.solve Real.sqrt A b).ret.2 ∧
      (m.solve Real.sqrt A b).ret.2 ≤ ((hi : Nat) : Int) := by
  rcases solve_cases Real.sqrt m A b with ⟨hd, _⟩ | ⟨_, j0, _, hhit0, hmin, e⟩ | ⟨_, hnone, _⟩
  · rw [hc] at hd
    exact absurd hd (by simp)
  · rw [e]
    refine ⟨rfl, ?_, ?_⟩
    · show ((lo : Nat) : Int) ≤ ((j0 : Nat) : Int)
      have : lo ≤ j0 := by
        by_contra hlt
        exact hno j0 (not_le.mp hlt) hhit0
      exact_mod_cast this
    · show ((j0 : Nat) : Int) ≤ ((hi : Nat) : Int)
      have : j0 ≤ hi := by
        by_contra hlt
        exact hmin hi (not_le.mp hlt) hhit
      exact_mod_cast this
  · exact absurd hhit (hnone hi hhi)

theorem CSolver_b_ne_zero (gamma : ℝ) (hg : 2 ≤ gamma) :
    (CSolver.b gamma : vec_n ℝ N) ≠ 0 := by
  intro h
  have h0 := congrFun h (⟨0, by norm_num⟩ : Fin N)
  rw [CSolver_b_apply] at h0
  simp at h0
  linarith

theorem CSolver_b_sum_range (g : Nat) (hg : 2 ≤ g) (hg3 : g ≤ 3) :
    (dblUnderflow : ℝ) < ∑ i, (CSolver.b (g : ℝ) : vec_n ℝ N) i * CSolver.b (g : ℝ) i ∧
      ∑ i, (CSolver.b (g : ℝ) : vec_n ℝ N) i * CSolver.b (g : ℝ) i < dblOverflow ∧
      (dblUnderflow : ℝ)
        < (1e-6 : ℝ) ^ 2 * ∑ i, (CSolver.b (g : ℝ) : vec_n ℝ N) i * CSolver.b (g : ℝ) i := by
  rw [sum_sq_CSolver_b]
  have h2 : (2 : ℝ) ≤ (g : ℝ) := by exact_mod_cast hg
  have h3 : (g : ℝ) ≤ 3 := by exact_mod_cast hg3
  have hlo : (2 : ℝ) ≤ 2 * ((g : ℝ) - 1) ^ 2 + 18 * ((g : ℝ) - 2) ^ 2 := by nlinarith
  have hhi : 2 * ((g : ℝ) - 1) ^ 2 + 18 * ((g : ℝ) - 2) ^ 2 ≤ 26 := by nlinarith
  have hu : (dblUnderflow : ℝ) < (1e-6 : ℝ) ^ 2 * 2 := by
    unfold dblUnderflow
    norm_num
  have ho : (26 : ℝ) < dblOverflow := by
    unfold dblOverflow
    norm_num
  refine ⟨?_, ?_, ?_⟩
  · have : (1e-6 : ℝ) ^ 2 * 2 ≤ 2 := by norm_num
    linarith
  · linarith
  · have : (1e-6 : ℝ) ^ 2 * 2
        ≤ (1e-6 : ℝ) ^ 2 * (2 * ((g : ℝ) - 1) ^ 2 + 18 * ((g : ℝ) - 2) ^ 2) :=
      mul_le_mul_of_nonneg_left hlo (by norm_num)
    linarith

/-- The counts of the two methods on the built system, for `gamma = g` equal
to `2` or `3`, when Gauss-Seidel is below the threshold at `x_k` and Jacobi
is not at `x_k` (certificate) but is at `x_1000`. -/
theorem counts_of_certificates (eigenvalues : mat_n ℝ N → Fin N → ℂ)
    (hev : ∀ M i, isEigenvalue M (eigenvalues M i)) (g k : Nat) (hg : 2 ≤ g) (hg3 : g ≤ 3)
    (hk : k < 1000)
    (hgs : euclidRelres Real.sqrt (CSolver.A (g : ℝ) : mat_n ℝ N) (CSolver.b (g : ℝ))
      (gsIterate (g : ℝ) k) < 1e-6)
    (hcert : (2 * ((g : Int) - 1) ^ 2 + 18 * ((g : Int) - 2) ^ 2) * ((g : Int) ^ 2) ^ k
      ≤ 10 ^ 12 * jacResSq g k) :
    (CSolver.solve Real.sqrt (g : ℝ)
        (CJacobiMethod eigenvalues (fun z => Complex.abs z))).line = 80 ∧
      (CSolver.solve Real.sqrt (g : ℝ)
        (CGSMethod eigenvalues (fun z => Complex.abs z))).line = 80 ∧
      0 < (CSolver.solve Real.sqrt (g : ℝ)
        (CGSMethod eigenvalues (fun z => Complex.abs z))).ret.2 ∧
      (CSolver.solve Real.sqrt (g : ℝ)
          (CGSMethod eigenvalues (fun z => Complex.abs z))).ret.2
        < (CSolver.solve Real.sqrt (g : ℝ)
          (CJacobiMethod eigenvalues (fun z => Complex.abs z))).ret.2 := by
  have hg2 : (2 : ℝ) ≤ (g : ℝ) := by exact_mod_cast hg
  have hg0 : (g : ℝ) ≠ 0 := by linarith
  obtain ⟨hb1, hb2, hlow⟩ := CSolver_b_sum_range g hg hg3
  -- Jacobi
  have hinit := jacobi_init_CSolver eigenvalues (fun z => Complex.abs z) (g : ℝ) hg0
    (CSolver.b (g : ℝ) : vec_n ℝ N)
  have hcJ : ((CJacobiMethod eigenvalues (fun z => Complex.abs z))._init
      (CSolver.A (g : ℝ)) (CSolver.b (g : ℝ) : vec_n ℝ N)).2.2 = true := by
    show (CJacobiMethod._init eigenvalues (fun z => Complex.abs z)
      (CSolver.A (g : ℝ)) (CSolver.b (g : ℝ) : vec_n ℝ N)).2.2 = true
    rw [hinit]
    show converges eigenvalues (fun z => Complex.abs z) _ = true
    rw [converges_eq_true_iff]
    intro i
    exact jacobi_eigenvalue_lt_one_of_le (g : ℝ) hg2 _ (hev _ i)
  have hnoJ : ∀ j, j < k + 1 →
      ¬ relres Real.sqrt (CSolver.A (g : ℝ) : mat_n ℝ N) (CSolver.b (g : ℝ))
        (iterate ((CJacobiMethod eigenvalues (fun z => Complex.abs z))._init
            (CSolver.A (g : ℝ)) (CSolver.b (g : ℝ) : vec_n ℝ N)).1
          ((CJacobiMethod eigenvalues (fun z => Complex.abs z))._init
            (CSolver.A (g : ℝ)) (CSolver.b (g : ℝ) : vec_n ℝ N)).2.1 j)
        < (CJacobiMethod eigenvalues (fun z => Complex.abs z) : CMethod ℝ N).eps := by
    intro j hj
    show ¬ relres Real.sqrt (CSolver.A (g : ℝ) : mat_n ℝ N) (CSolver.b (g : ℝ))
      (iterate (CJacobiMethod._init eigenvalues (fun z => Complex.abs z)
          (CSolver.A (g : ℝ)) (CSolver.b (g : ℝ) : vec_n ℝ N)).1
        (CJacobiMethod._init eigenvalues (fun z => Complex.abs z)
          (CSolver.A (g : ℝ)) (CSolver.b (g : ℝ) : vec_n ℝ N)).2.1 j) < ((1e-6 : ℝ) : FloatVal ℝ)
    rw [hinit]
    exact not_relres_lt_of_euclid _ _ _ _ hb1 hb2 (by norm_num) hlow
      (jacobi_no_hit g k hg hcert j (by omega))
  have hhitJ : relres Real.sqrt (CSolver.A (g : ℝ) : mat_n ℝ N) (CSolver.b (g : ℝ))
      (iterate ((CJacobiMethod eigenvalues (fun z => Complex.abs z))._init
          (CSolver.A (g : ℝ)) (CSolver.b (g : ℝ) : vec_n ℝ N)).1
        ((CJacobiMethod eigenvalues (fun z => Complex.abs z))._init
          (CSolver.A (g : ℝ)) (CSolver.b (g : ℝ) : vec_n ℝ N)).2.1 1000)
      < (CJacobiMethod eigenvalues (fun z => Complex.abs z) : CMethod ℝ N).eps := by
    show relres Real.sqrt (CSolver.A (g : ℝ) : mat_n ℝ N) (CSolver.b (g : ℝ))
      (iterate (CJacobiMethod._init eigenvalues (fun z => Complex.abs z)
          (CSolver.A (g : ℝ)) (CSolver.b (g : ℝ) : vec_n ℝ N)).1
        (CJacobiMethod._init eigenvalues (fun z => Complex.abs z)
          (CSolver.A (g : ℝ)) (CSolver.b (g : ℝ) : vec_n ℝ N)).2.1 1000)
      < ((1e-6 : ℝ) : FloatVal ℝ)
    rw [hinit]
    exact relres_lt_of_euclid _ _ _ _ hb1 hb2 (by norm_num) (jacobi_relres_of_le (g : ℝ) hg2)
  obtain ⟨j1, j2, _⟩ := solve_count_between
    (CJacobiMethod eigenvalues (fun z => Complex.abs z)) (CSolver.A (g : ℝ))
    (CSolver.b (g : ℝ) : vec_n ℝ N) hcJ (k + 1) 1000 (by show 1000 < 1200; norm_num)
    hnoJ hhitJ
  -- Gauss-Seidel
  have hcG : ((CGSMethod eigenvalues (fun z => Complex.abs z))._init
      (CSolver.A (g : ℝ)) (CSolver.b (g : ℝ) : vec_n ℝ N)).2.2 = true := by
    show converges eigenvalues (fun z => Complex.abs z) _ = true
    rw [converges_eq_true_iff]
    intro i
    exact gs_eigenvalue_lt_one_of_le (g : ℝ) hg2 _ (hev _ i)
  have hnoG : ∀ j, j < 1 →
      ¬ relres Real.sqrt (CSolver.A (g : ℝ) : mat_n ℝ N) (CSolver.b (g : ℝ))
        (iterate ((CGSMethod eigenvalues (fun z => Complex.abs z))._init
            (CSolver.A (g : ℝ)) (CSolver.b (g : ℝ) : vec_n ℝ N)).1
          ((CGSMethod eigenvalues (fun z => Complex.abs z))._init
            (CSolver.A (g : ℝ)) (CSolver.b (g : ℝ) : vec_n ℝ N)).2.1 j)
        < (CGSMethod eigenvalues (fun z => Complex.abs z) : CMethod ℝ N).eps := by
    intro j hj
    have hj0 : j = 0 := by omega
    rw [hj0]
    exact relres_start_not_lt _ _ _ (by show (1e-6 : ℝ) ≤ 1; norm_num)
  have hhitG : relres Real.sqrt (CSolver.A (g : ℝ) : mat_n ℝ N) (CSolver.b (g : ℝ))
      (iterate ((CGSMethod eigenvalues (fun z => Complex.abs z))._init
          (CSolver.A (g : ℝ)) (CSolver.b (g : ℝ) : vec_n ℝ N)).1
        ((CGSMethod eigenvalues (fun z => Complex.abs z))._init
          (CSolver.A (g : ℝ)) (CSolver.b (g : ℝ) : vec_n ℝ N)).2.1 k)
      < (CGSMethod eigenvalues (fun z => Complex.abs z) : CMethod ℝ N).eps :=
    relres_lt_of_euclid _ _ _ _ hb1 hb2 (by show (1e-6 : ℝ) ≤ 1; norm_num) hgs
  obtain ⟨g1, g2, g3⟩ := solve_count_between
    (CGSMethod eigenvalues (fun z => Complex.abs z)) (CSolver.A (g : ℝ))
    (CSolver.b (g : ℝ) : vec_n ℝ N) hcG 1 k (by show k < 1200; omega) hnoG hhitG
  refine ⟨j1, g1, ?_, ?_⟩
  · show 0 < ((CGSMethod eigenvalues (fun z => Complex.abs z)).solve Real.sqrt
      (CSolver.A (g : ℝ)) (CSolver.b (g : ℝ) : vec_n ℝ N)).ret.2
    omega
  · show ((CGSMethod eigenvalues (fun z => Complex.abs z)).solve Real.sqrt
        (CSolver.A (g : ℝ)) (CSolver.b (g : ℝ) : vec_n ℝ N)).ret.2
      < ((CJacobiMethod eigenvalues (fun z => Complex.abs z)).solve Real.sqrt
        (CSolver.A (g : ℝ)) (CSolver.b (g : ℝ) : vec_n ℝ N)).ret.2
    omega

end Counts

/-! ## Runs outside the range of `double` -/

section RangeRuns

end RangeRuns

/-! ## The claims -/

section Claims

variable {α : Type} [LinearOrderedField α] {n : Nat}

/-- C3: if `_init` returns `converges = false`, `CMethod::solve` returns
exactly (zero vector, 0) from line 66, and neither the residual line 75 nor
the update line 83 has been executed, whatever `P`, `R`, `K` and `eps` are. -/
theorem solve_diverges (sqrt : α → α) (m : CMethod α n) (A : mat_n α n)
    (b : vec_n α n) (h : (m._init A b).2.2 = false) :
    (m.solve sqrt A b).ret = (vec, 0) ∧ (m.solve sqrt A b).line = 66 ∧
      (m.solve sqrt A b).residuals = 0 ∧ (m.solve sqrt A b).updates = 0 := by
  simp [CMethod.solve, h]

/-- C3 at a concrete run: Gauss-Seidel on the coupled matrix, where `_init`
reports `converges = false`. -/
theorem solve_diverges_witness :
    ((gsTri : CMethod ℝ N)._init coupledMatrix (unitVec 0)).2.2 = false ∧
      ((gsTri : CMethod ℝ N).solve Real.sqrt coupledMatrix (unitVec 0)).ret = (vec, 0) ∧
      ((gsTri : CMethod ℝ N).solve Real.sqrt coupledMatrix (unitVec 0)).line = 66 ∧
      ((gsTri : CMethod ℝ N).solve Real.sqrt coupledMatrix (unitVec 0)).residuals = 0 ∧
      ((gsTri : CMethod ℝ N).solve Real.sqrt coupledMatrix (unitVec 0)).updates = 0 :=
  ⟨gs_init_coupled (unitVec 0),
    solve_diverges Real.sqrt gsTri coupledMatrix (unitVec 0) (gs_init_coupled (unitVec 0))⟩

/-- C4: `CMethod::solve` returns after `j` updates `x <- P*x + R` for some
`j <= K`: the returned vector is the iterate `x_j`, and the magnitude of the
returned count is `j`. -/
theorem solve_update_cap (sqrt : α → α) (m : CMethod α n) (A : mat_n α n)
    (b : vec_n α n) :
    ∃ j, j ≤ m.K ∧ (m.solve sqrt A b).updates = j ∧
      (m.solve sqrt A b).ret.1 = iterate (m._init A b).1 (m._init A b).2.1 j ∧
      (m.solve sqrt A b).ret.2.natAbs = j := by
  rcases solve_cases sqrt m A b with ⟨_, e⟩ | ⟨_, j, hj, _, _, e⟩ | ⟨_, _, e⟩
  · exact ⟨0, Nat.zero_le _, by rw [e], by rw [e]; rfl, by rw [e]; rfl⟩
  · exact ⟨j, Nat.le_of_lt hj, by rw [e], by rw [e], by rw [e]; simp⟩
  · exact ⟨m.K, Nat.le_refl _, by rw [e], by rw [e], by rw [e]; simp⟩

/-- C5, amended: the count returned by `CMethod::solve` lies in `[0, K]` when
the return is the divergence return (line 66) or the converged return
(line 80), and is `-K` when the budget is exhausted (line 88); its magnitude
is at most `K` in every case. -/
theorem solve_count_range (sqrt : α → α) (m : CMethod α n) (A : mat_n α n)
    (b : vec_n α n) :
    (((m.solve sqrt A b).line ≠ 88 ∧ 0 ≤ (m.solve sqrt A b).ret.2 ∧
        (m.solve sqrt A b).ret.2 ≤ (m.K : Int)) ∨
      ((m.solve sqrt A b).line = 88 ∧ (m.solve sqrt A b).ret.2 = -(m.K : Int))) ∧
    (m.solve sqrt A b).ret.2.natAbs ≤ m.K := by
  rcases solve_cases sqrt m A b with ⟨_, e⟩ | ⟨_, j, hj, _, _, e⟩ | ⟨_, _, e⟩
  · rw [e]
    refine ⟨Or.inl ⟨by simp, le_refl _, Int.ofNat_nonneg _⟩, ?_⟩
    simp
  · rw [e]
    refine ⟨Or.inl ⟨by simp, Int.ofNat_nonneg _, ?_⟩, ?_⟩
    · exact Int.ofNat_le.mpr (Nat.le_of_lt hj)
    · simpa using Nat.le_of_lt hj
  · rw [e]
    refine ⟨Or.inr ⟨rfl, rfl⟩, ?_⟩
    simp

/-- C5 fails as stated: Jacobi with `K = 1` on the shear matrix, `b = e_1`,
returns the count `-1`, which is not in `[0, K]`. -/
theorem solve_count_negative :
    ¬ (0 ≤ ((jacobiOneRound : CMethod ℝ N).solve Real.sqrt shearMatrix (unitVec 1)).ret.2 ∧
        ((jacobiOneRound : CMethod ℝ N).solve Real.sqrt shearMatrix (unitVec 1)).ret.2
          ≤ ((jacobiOneRound : CMethod ℝ N).K : Int)) := by
  rw [run_shear]
  norm_num

/-- C7: with `Q = keepDiagonal(A)` invertible, the pair `(P, R)` returned by
`CJacobiMethod::_init` satisfies `x = P*x + R` if and only if `A*x = b`, for
every `x`. -/
theorem jacobi_fixed_point_iff {κ : Type} (eigenvalues : mat_n α n → Fin n → κ)
    (abs : κ → α) (A : mat_n α n) (b x : vec_n α n)
    (hQ : isInvertible (keepDiagonal A)) :
    x = (CJacobiMethod._init eigenvalues abs A b).1.mulVec x
          + (CJacobiMethod._init eigenvalues abs A b).2.1
      ↔ A.mulVec x = b := by
  simp only [CJacobiMethod._init]
  rw [fixed_point_iff (keepDiagonal A) (keepDiagonal A - A) b x hQ, Matrix.sub_mulVec]
  constructor
  · intro h
    linear_combination h
  · intro h
    rw [h]
    abel

/-- C7 at a concrete input: the shear matrix, whose diagonal part is the
identity, with `b = e_1` and `x = e_1`. -/
theorem jacobi_fixed_point_iff_witness :
    isInvertible (keepDiagonal (shearMatrix : mat_n ℝ N)) ∧
      ((unitVec 1 : vec_n ℝ N)
          = (CJacobiMethod._init triangularEigenvalues (fun z : ℝ => |z|)
              (shearMatrix : mat_n ℝ N) (unitVec 1)).1.mulVec (unitVec 1)
            + (CJacobiMethod._init triangularEigenvalues (fun z : ℝ => |z|)
              (shearMatrix : mat_n ℝ N) (unitVec 1)).2.1
        ↔ (shearMatrix : mat_n ℝ N).mulVec (unitVec 1) = unitVec 1) :=
  have h : isInvertible (keepDiagonal (shearMatrix : mat_n ℝ N)) :=
    isInvertible_keepDiagonal shearMatrix (fun i => by simp [shearMatrix])
  ⟨h, jacobi_fixed_point_iff triangularEigenvalues (fun z : ℝ => |z|)
    (shearMatrix : mat_n ℝ N) (unitVec 1 : vec_n ℝ N) (unitVec 1 : vec_n ℝ N) h⟩

/-- C8: with `Q = keepDiagonal(A) + keepLower(A)` invertible, the pair
`(P, R)` returned by `CGSMethod::_init` satisfies `x = P*x + R` if and only
if `A*x = b`, for every `x`. -/
theorem gs_fixed_point_iff {κ : Type} (eigenvalues : mat_n α n → Fin n → κ)
    (abs : κ → α) (A : mat_n α n) (b x : vec_n α n)
    (hQ : isInvertible (keepDiagonal A + keepLower A)) :
    x = (CGSMethod._init eigenvalues abs A b).1.mulVec x
          + (CGSMethod._init eigenvalues abs A b).2.1
      ↔ A.mulVec x = b := by
  simp only [CGSMethod._init]
  rw [fixed_point_iff (keepDiagonal A + keepLower A) (-keepUpper A) b x hQ,
    Matrix.neg_mulVec]
  have hA : A.mulVec x
      = (keepDiagonal A + keepLower A).mulVec x + (keepUpper A).mulVec x := by
    rw [← Matrix.add_mulVec, add_comm (keepDiagonal A) (keepLower A),
      keep_decomposition]
  rw [hA]
  constructor
  · intro h
    rw [h]
    abel
  · intro h
    rw [← h]
    abel

/-- C8 at a concrete input: the shear matrix, whose lower part with the
diagonal is the identity, with `b = e_1` and `x = e_1`. -/
theorem gs_fixed_point_iff_witness :
    isInvertible (keepDiagonal (shearMatrix : mat_n ℝ N) + keepLower shearMatrix) ∧
      ((unitVec 1 : vec_n ℝ N)
          = (CGSMethod._init triangularEigenvalues (fun z : ℝ => |z|)
              (shearMatrix : mat_n ℝ N) (unitVec 1)).1.mulVec (unitVec 1)
            + (CGSMethod._init triangularEigenvalues (fun z : ℝ => |z|)
              (shearMatrix : mat_n ℝ N) (unitVec 1)).2.1
        ↔ (shearMatrix : mat_n ℝ N).mulVec (unitVec 1) = unitVec 1) :=
  have h : isInvertible
      (keepDiagonal (shearMatrix : mat_n ℝ N) + keepLower shearMatrix) :=
    isInvertible_keepDiagonal_add_keepLower shearMatrix (fun i => by simp [shearMatrix])
  ⟨h, gs_fixed_point_iff triangularEigenvalues (fun z : ℝ => |z|)
    (shearMatrix : mat_n ℝ N) (unitVec 1 : vec_n ℝ N) (unitVec 1 : vec_n ℝ N) h⟩

/-- C10: the matrix built by `CSolver::solve` from `gamma` has entry `gamma`
where `i = j`, entry `-1` where `|i - j| = 1`, and entry `0` everywhere
else. -/
theorem CSolver_A_entries (gamma : α) (i j : Fin n) :
    (CSolver.A gamma : mat_n α n) i j
      = if i = j then gamma
        else if |(i.val : Int) - (j.val : Int)| = 1 then -1 else 0 := by
  simp only [CSolver.A, fillDiagonalSiblings_apply, fillDiagonal_apply, mat]
  have e : ((i.val : Int) - (j.val : Int)).natAbs = 1
      ↔ |(i.val : Int) - (j.val : Int)| = 1 := by
    rw [Int.abs_eq_natAbs]
    exact_mod_cast Iff.rfl
  by_cases hij : i = j
  · subst hij
    simp
  · by_cases h1 : ((i.val : Int) - (j.val : Int)).natAbs = 1
    · rw [if_pos h1, if_neg hij, if_pos (e.mp h1)]
    · rw [if_neg h1, if_neg hij, if_neg hij, if_neg (fun h => h1 (e.mpr h))]

/-- C11: the right-hand side built by `fillPyramid` on the zero vector has
entry `gamma - 1` at index `0` and at the last index, and entry `gamma - 2`
at every index between them. -/
theorem CSolver_b_entries (gamma : α) :
    (CSolver.b gamma : vec_n α n) = fillPyramid vec gamma ∧
      ∀ i : Fin n, (fillPyramid vec gamma : vec_n α n) i
        = if i.val = 0 ∨ i.val + 1 = n then gamma - 1 else gamma - 2 :=
  ⟨rfl, fun i => fillPyramid_apply vec gamma i⟩

/-- C12: `keepLower(M) + keepDiagonal(M) + keepUpper(M) = M`, where
`keepDiagonal` keeps the entries with row = column, `keepUpper` those with
column > row and `keepLower` those with column < row, every other entry
being `0`. -/
theorem keep_partition (M : mat_n α n) :
    keepLower M + keepDiagonal M + keepUpper M = M ∧
      (∀ i j, keepDiagonal M i j = if i = j then M i j else 0) ∧
      (∀ i j, keepUpper M i j = if i < j then M i j else 0) ∧
      (∀ i j, keepLower M i j = if j < i then M i j else 0) := by
  refine ⟨?_, keepDiagonal_apply M, keepUpper_apply M, keepLower_apply M⟩
  ext i j
  simp only [Matrix.add_apply, keepLower_apply, keepDiagonal_apply, keepUpper_apply]
  rcases lt_trichotomy i j with h | h | h
  · simp [h, ne_of_lt h, not_lt_of_lt h]
  · subst h
    simp
  · simp [h, ne_of_gt h, not_lt_of_lt h]

/-- C13: with the eigenvalues of `W` as given, `converges(W)` returns `true`
if and only if every eigenvalue has modulus strictly below `1`; an eigenvalue
of modulus exactly `1` makes it return `false`. -/
theorem converges_iff_all_below_one {κ : Type} (eigenvalues : mat_n α n → Fin n → κ)
    (abs : κ → α) (W : mat_n α n) :
    (converges eigenvalues abs W = true ↔ ∀ i, abs (eigenvalues W i) < 1) ∧
      (∀ i, abs (eigenvalues W i) = 1 → converges eigenvalues abs W = false) := by
  have hloop : ∀ l : List (Fin n),
      convergesLoop abs (eigenvalues W) l = true
        ↔ ∀ x, x ∈ l → abs (eigenvalues W x) < 1 := by
    intro l
    induction l with
    | nil => simp [convergesLoop]
    | cons x l ih =>
      simp only [convergesLoop, List.mem_cons, forall_eq_or_imp]
      by_cases h : abs (eigenvalues W x) ≥ 1
      · simp [h, not_lt.mpr h]
      · simp [h, ih, not_le.mp h]
  have hiff : converges eigenvalues abs W = true ↔ ∀ i, abs (eigenvalues W i) < 1 := by
    unfold converges
    rw [hloop]
    constructor
    · exact fun h i => h i (List.mem_finRange i)
    · exact fun h i _ => h i
  refine ⟨hiff, ?_⟩
  intro i hi
  cases hc : converges eigenvalues abs W with
  | false => rfl
  | true =>
    have := hiff.mp hc i
    rw [hi] at this
    exact absurd this (lt_irrefl _)

/-- C14: for every `gamma ≠ 0`, every Jacobi iterate `x_j` of the system built
by `CSolver::solve` is palindromic, `x_j(i) = x_j(N-1-i)`, and so is the
vector that `CMethod::solve` returns for the Jacobi method (exact
arithmetic, any square-root and eigenvalue routine). -/
theorem jacobi_palindromic {κ : Type} (eigenvalues : mat_n α n → Fin n → κ)
    (abs : κ → α) (sqrt : α → α) (gamma : α) (hg : gamma ≠ 0) :
    (∀ (j : Nat) (i : Fin n),
        iterate (CJacobiMethod._init eigenvalues abs (CSolver.A gamma) (CSolver.b gamma)).1
            (CJacobiMethod._init eigenvalues abs (CSolver.A gamma) (CSolver.b gamma)).2.1 j
            (Fin.rev i)
          = iterate (CJacobiMethod._init eigenvalues abs (CSolver.A gamma) (CSolver.b gamma)).1
            (CJacobiMethod._init eigenvalues abs (CSolver.A gamma) (CSolver.b gamma)).2.1 j
            i) ∧
      ∀ i : Fin n,
        (CSolver.solve sqrt gamma (CJacobiMethod eigenvalues abs)).ret.1 (Fin.rev i)
          = (CSolver.solve sqrt gamma (CJacobiMethod eigenvalues abs)).ret.1 i := by
  have hit : ∀ (j : Nat) (i : Fin n),
      iterate (CJacobiMethod._init eigenvalues abs (CSolver.A gamma) (CSolver.b gamma)).1
          (CJacobiMethod._init eigenvalues abs (CSolver.A gamma) (CSolver.b gamma)).2.1 j
          (Fin.rev i)
        = iterate (CJacobiMethod._init eigenvalues abs (CSolver.A gamma) (CSolver.b gamma)).1
          (CJacobiMethod._init eigenvalues abs (CSolver.A gamma) (CSolver.b gamma)).2.1 j
          i := by
    intro j i
    rw [jacobi_init_CSolver eigenvalues abs gamma hg]
    exact jacobi_iterate_rev gamma j i
  refine ⟨hit, ?_⟩
  intro i
  unfold CSolver.solve
  rcases solve_cases sqrt (CJacobiMethod eigenvalues abs) (CSolver.A gamma)
      (CSolver.b gamma) with ⟨_, e⟩ | ⟨_, j, _, _, _, e⟩ | ⟨_, _, e⟩
  · rw [e]
    rfl
  · rw [e]
    exact hit j i
  · rw [e]
    exact hit _ i

/-- C14 at `gamma = 3`, `N = 20`, over the reals. -/
theorem jacobi_palindromic_witness :
    (3 : ℝ) ≠ 0 ∧
      ∀ i : Fin N,
        (CSolver.solve Real.sqrt (3 : ℝ)
            (CJacobiMethod triangularEigenvalues (fun z : ℝ => |z|))).ret.1 (Fin.rev i)
          = (CSolver.solve Real.sqrt (3 : ℝ)
            (CJacobiMethod triangularEigenvalues (fun z : ℝ => |z|))).ret.1 i :=
  ⟨by norm_num,
    (jacobi_palindromic triangularEigenvalues (fun z : ℝ => |z|) Real.sqrt (3 : ℝ)
      (by norm_num)).2⟩

/-- C15: for the systems built from `gamma = 3` and from `gamma = 2`
(`N = 20`, `K = 1200`, `eps = 1e-6`), in exact real arithmetic and with
`eigenvalues()` returning eigenvalues of its argument, Jacobi and Gauss-Seidel
both return at the converged return (line 80) with a positive count, and the
Gauss-Seidel count is at most the Jacobi count (it is smaller). -/
theorem gs_count_le_jacobi_count (eigenvalues : mat_n ℝ N → Fin N → ℂ)
    (hev : ∀ M i, isEigenvalue M (eigenvalues M i)) (gamma : ℝ)
    (hg : gamma = 3 ∨ gamma = 2) :
    (CSolver.solve Real.sqrt gamma
        (CJacobiMethod eigenvalues (fun z => Complex.abs z))).line = 80 ∧
      (CSolver.solve Real.sqrt gamma
        (CGSMethod eigenvalues (fun z => Complex.abs z))).line = 80 ∧
      0 < (CSolver.solve Real.sqrt gamma
        (CJacobiMethod eigenvalues (fun z => Complex.abs z))).ret.2 ∧
      0 < (CSolver.solve Real.sqrt gamma
        (CGSMethod eigenvalues (fun z => Complex.abs z))).ret.2 ∧
      (CSolver.solve Real.sqrt gamma
          (CGSMethod eigenvalues (fun z => Complex.abs z))).ret.2
        ≤ (CSolver.solve Real.sqrt gamma
          (CJacobiMethod eigenvalues (fun z => Complex.abs z))).ret.2 ∧
      (CSolver.solve Real.sqrt gamma
          (CGSMethod eigenvalues (fun z => Complex.abs z))).ret.2
        ≠ (CSolver.solve Real.sqrt gamma
          (CJacobiMethod eigenvalues (fun z => Complex.abs z))).ret.2 := by
  have key : ∀ (g k : Nat), gamma = (g : ℝ) → 2 ≤ g → g ≤ 3 → k < 1000 →
      euclidRelres Real.sqrt (CSolver.A (g : ℝ) : mat_n ℝ N) (CSolver.b (g : ℝ))
        (gsIterate (g : ℝ) k) < 1e-6 →
      (2 * ((g : Int) - 1) ^ 2 + 18 * ((g : Int) - 2) ^ 2) * ((g : Int) ^ 2) ^ k
        ≤ 10 ^ 12 * jacResSq g k →
      (CSolver.solve Real.sqrt gamma
          (CJacobiMethod eigenvalues (fun z => Complex.abs z))).line = 80 ∧
        (CSolver.solve Real.sqrt gamma
          (CGSMethod eigenvalues (fun z => Complex.abs z))).line = 80 ∧
        0 < (CSolver.solve Real.sqrt gamma
          (CJacobiMethod eigenvalues (fun z => Complex.abs z))).ret.2 ∧
        0 < (CSolver.solve Real.sqrt gamma
          (CGSMethod eigenvalues (fun z => Complex.abs z))).ret.2 ∧
        (CSolver.solve Real.sqrt gamma
            (CGSMethod eigenvalues (fun z => Complex.abs z))).ret.2
          ≤ (CSolver.solve Real.sqrt gamma
            (CJacobiMethod eigenvalues (fun z => Complex.abs z))).ret.2 ∧
        (CSolver.solve Real.sqrt gamma
            (CGSMethod eigenvalues (fun z => Complex.abs z))).ret.2
          ≠ (CSolver.solve Real.sqrt gamma
            (CJacobiMethod eigenvalues (fun z => Complex.abs z))).ret.2 := by
    intro g k hgam hg2 hg3 hk hgs hcert
    rw [hgam]
    obtain ⟨h1, h2, h3, h4⟩ :=
      counts_of_certificates eigenvalues hev g k hg2 hg3 hk hgs hcert
    exact ⟨h1, h2, lt_trans h3 h4, h3, le_of_lt h4, ne_of_lt h4⟩
  rcases hg with h | h
  · apply key 3 25 (by rw [h]; norm_num) (by norm_num) (by norm_num) (by norm_num)
    · have e : ((3 : Nat) : ℝ) = 3 := by norm_num
      rw [e]
      exact gs_relres_three 3 (le_refl _)
    · exact jacobi_low_certificate.1
  · apply key 2 750 (by rw [h]; norm_num) (by norm_num) (by norm_num) (by norm_num)
    · have e : ((2 : Nat) : ℝ) = 2 := by norm_num
      rw [e]
      exact gs_relres_of_le 2 (le_refl _)
    · exact jacobi_low_certificate.2

/-- C15 with an `eigenvalues()` that returns eigenvalues of its argument
(every complex matrix of dimension 20 has one), at `gamma = 2`. -/
theorem gs_count_le_jacobi_count_witness :
    ∃ eigenvalues : mat_n ℝ N → Fin N → ℂ,
      (∀ M i, isEigenvalue M (eigenvalues M i)) ∧ ((2 : ℝ) = 3 ∨ (2 : ℝ) = 2) ∧
      0 < (CSolver.solve Real.sqrt (2 : ℝ)
        (CGSMethod eigenvalues (fun z => Complex.abs z))).ret.2 ∧
      (CSolver.solve Real.sqrt (2 : ℝ)
          (CGSMethod eigenvalues (fun z => Complex.abs z))).ret.2
        ≤ (CSolver.solve Real.sqrt (2 : ℝ)
          (CJacobiMethod eigenvalues (fun z => Complex.abs z))).ret.2 := by
  choose f hf using exists_eigenvalue
  have h := gs_count_le_jacobi_count (fun M _ => f M) (fun M _ => hf M) 2 (Or.inr rfl)
  exact ⟨fun M _ => f M, fun M _ => hf M, Or.inr rfl, h.2.2.2.1, h.2.2.2.2.1⟩

/-- C16: for every `gamma ≠ 0` the matrix `Q` that each method inverts on the
built system is invertible: `keepDiagonal(A)` and
`keepDiagonal(A) + keepLower(A)` both have determinant `gamma ^ N`, which is
not zero. -/
theorem splitting_invertible (gamma : α) (hg : gamma ≠ 0) :
    (keepDiagonal (CSolver.A gamma : mat_n α n)).det = gamma ^ n ∧
      (keepDiagonal (CSolver.A gamma : mat_n α n) + keepLower (CSolver.A gamma)).det
        = gamma ^ n ∧
      gamma ^ n ≠ 0 ∧
      isInvertible (keepDiagonal (CSolver.A gamma : mat_n α n)) ∧
      isInvertible (keepDiagonal (CSolver.A gamma : mat_n α n)
        + keepLower (CSolver.A gamma)) := by
  have hprod : ∏ i : Fin n, (CSolver.A gamma : mat_n α n) i i = gamma ^ n := by
    simp [CSolver_A_diag]
  have h1 : (keepDiagonal (CSolver.A gamma : mat_n α n)).det = gamma ^ n := by
    rw [det_keepDiagonal, hprod]
  have h2 : (keepDiagonal (CSolver.A gamma : mat_n α n)
      + keepLower (CSolver.A gamma)).det = gamma ^ n := by
    rw [det_keepDiagonal_add_keepLower, hprod]
  have h3 : gamma ^ n ≠ 0 := pow_ne_zero n hg
  refine ⟨h1, h2, h3, ?_, ?_⟩
  · unfold isInvertible
    rw [h1]
    exact h3
  · unfold isInvertible
    rw [h2]
    exact h3

/-- C16 at `gamma = 3`, one of the values the program runs. -/
theorem splitting_invertible_witness :
    (3 : ℝ) ≠ 0 ∧ isInvertible (keepDiagonal (CSolver.A (3 : ℝ) : mat_n ℝ N)) ∧
      isInvertible (keepDiagonal (CSolver.A (3 : ℝ) : mat_n ℝ N)
        + keepLower (CSolver.A (3 : ℝ))) :=
  have h : (3 : ℝ) ≠ 0 := by norm_num
  ⟨h, (splitting_invertible (3 : ℝ) h).2.2.2.1, (splitting_invertible (3 : ℝ) h).2.2.2.2⟩

/-- C17: with `Q` invertible, the matrix `P` returned by `_init` is the matrix
`W = I - Q^-1 * A` handed to `converges`, for Jacobi (`Q = keepDiagonal(A)`)
and for Gauss-Seidel (`Q = keepDiagonal(A) + keepLower(A)`); the flag returned
is `converges` of the returned `P`. -/
theorem propagation_is_tested_matrix {κ : Type} (eigenvalues : mat_n α n → Fin n → κ)
    (abs : κ → α) (A : mat_n α n) (b : vec_n α n)
    (hJ : isInvertible (keepDiagonal A))
    (hG : isInvertible (keepDiagonal A + keepLower A)) :
    ((CJacobiMethod._init eigenvalues abs A b).1
        = (1 : mat_n α n) - inverse (keepDiagonal A) * A ∧
      (CJacobiMethod._init eigenvalues abs A b).2.2
        = converges eigenvalues abs (CJacobiMethod._init eigenvalues abs A b).1) ∧
    ((CGSMethod._init eigenvalues abs A b).1
        = (1 : mat_n α n) - inverse (keepDiagonal A + keepLower A) * A ∧
      (CGSMethod._init eigenvalues abs A b).2.2
        = converges eigenvalues abs (CGSMethod._init eigenvalues abs A b).1) := by
  have hinvJ : inverse (keepDiagonal A) * keepDiagonal A = 1 := by
    rw [inverse_eq_inv]
    exact Matrix.nonsing_inv_mul _ (isUnit_iff_ne_zero.mpr hJ)
  have hinvG : inverse (keepDiagonal A + keepLower A) * (keepDiagonal A + keepLower A)
      = 1 := by
    rw [inverse_eq_inv]
    exact Matrix.nonsing_inv_mul _ (isUnit_iff_ne_zero.mpr hG)
  have eJ : inverse (keepDiagonal A) * (keepDiagonal A - A)
      = (1 : mat_n α n) - inverse (keepDiagonal A) * A := by
    rw [Matrix.mul_sub, hinvJ]
  have eG : inverse (keepDiagonal A + keepLower A) * (-keepUpper A)
      = (1 : mat_n α n) - inverse (keepDiagonal A + keepLower A) * A := by
    have hA : A = (keepDiagonal A + keepLower A) + keepUpper A := by
      rw [add_comm (keepDiagonal A) (keepLower A)]
      exact (keep_decomposition A).symm
    have h2 : inverse (keepDiagonal A + keepLower A) * A
        = 1 + inverse (keepDiagonal A + keepLower A) * keepUpper A := by
      calc inverse (keepDiagonal A + keepLower A) * A
          = inverse (keepDiagonal A + keepLower A)
            * ((keepDiagonal A + keepLower A) + keepUpper A) := by rw [← hA]
        _ = 1 + inverse (keepDiagonal A + keepLower A) * keepUpper A := by
          rw [Matrix.mul_add, hinvG]
    rw [h2, Matrix.mul_neg]
    abel
  refine ⟨⟨eJ, ?_⟩, ⟨eG, ?_⟩⟩
  · show converges eigenvalues abs ((1 : mat_n α n) - inverse (keepDiagonal A) * A)
      = converges eigenvalues abs (inverse (keepDiagonal A) * (keepDiagonal A - A))
    rw [eJ]
  · show converges eigenvalues abs
        ((1 : mat_n α n) - inverse (keepDiagonal A + keepLower A) * A)
      = converges eigenvalues abs
        (inverse (keepDiagonal A + keepLower A) * (-keepUpper A))
    rw [eG]

/-- C17 at a concrete input: the shear matrix, for which both `Q` are the
identity. -/
theorem propagation_is_tested_matrix_witness :
    isInvertible (keepDiagonal (shearMatrix : mat_n ℝ N)) ∧
      isInvertible (keepDiagonal (shearMatrix : mat_n ℝ N) + keepLower shearMatrix) ∧
      (CJacobiMethod._init triangularEigenvalues (fun z : ℝ => |z|)
          (shearMatrix : mat_n ℝ N) (unitVec 1)).1
        = (1 : mat_n ℝ N) - inverse (keepDiagonal shearMatrix) * shearMatrix ∧
      (CGSMethod._init triangularEigenvalues (fun z : ℝ => |z|)
          (shearMatrix : mat_n ℝ N) (unitVec 1)).1
        = (1 : mat_n ℝ N)
          - inverse (keepDiagonal shearMatrix + keepLower shearMatrix) * shearMatrix :=
  have hJ : isInvertible (keepDiagonal (shearMatrix : mat_n ℝ N)) :=
    isInvertible_keepDiagonal shearMatrix (fun i => by simp [shearMatrix])
  have hG : isInvertible
      (keepDiagonal (shearMatrix : mat_n ℝ N) + keepLower shearMatrix) :=
    isInvertible_keepDiagonal_add_keepLower shearMatrix (fun i => by simp [shearMatrix])
  ⟨hJ, hG,
    (propagation_is_tested_matrix triangularEigenvalues (fun z : ℝ => |z|)
      (shearMatrix : mat_n ℝ N) (unitVec 1 : vec_n ℝ N) hJ hG).1.1,
    (propagation_is_tested_matrix triangularEigenvalues (fun z : ℝ => |z|)
      (shearMatrix : mat_n ℝ N) (unitVec 1 : vec_n ℝ N) hJ hG).2.1⟩

/-- C18: for every `gamma`, the all-ones vector solves the built system of
dimension `N`: `A * (1, ..., 1) = b`. -/
theorem ones_solves_built_system (gamma : α) :
    (CSolver.A gamma : mat_n α N).mulVec ones = CSolver.b gamma := by
  have hN : 2 ≤ N := by norm_num
  exact (CSolver_b_eq gamma hN).symm

/-- C19: `CMethod::solve` does not test the last iterate `x_K`.  Whenever it
returns at line 88 the residual line 75 has been executed `K` times, on
`x_0, ..., x_{K-1}`; and for Jacobi with `K = 1` on `A = 1`, `b = e_0`
(where `P = 0` and `R = b` solves the system) it returns the non-converged
result `(x_1, -1)` although `x_1` has relative residual `0 < eps` (as the loop
would compute it, and in the Euclidean norm). -/
theorem solve_skips_last_iterate :
    (∀ (m : CMethod ℝ N) (A : mat_n ℝ N) (b : vec_n ℝ N),
        (m.solve Real.sqrt A b).line = 88 → (m.solve Real.sqrt A b).residuals = m.K) ∧
      ((jacobiOneRound : CMethod ℝ N)._init 1 (unitVec 0)).2.2 = true ∧
      ((jacobiOneRound : CMethod ℝ N)._init 1 (unitVec 0)).1 = 0 ∧
      (jacobiOneRound : CMethod ℝ N).K = 1 ∧
      ((jacobiOneRound : CMethod ℝ N).solve Real.sqrt 1 (unitVec 0)).line = 88 ∧
      ((jacobiOneRound : CMethod ℝ N).solve Real.sqrt 1 (unitVec 0)).ret
        = (iterate ((jacobiOneRound : CMethod ℝ N)._init 1 (unitVec 0)).1
            ((jacobiOneRound : CMethod ℝ N)._init 1 (unitVec 0)).2.1 1, -1) ∧
      relres Real.sqrt (1 : mat_n ℝ N) (unitVec 0)
          ((jacobiOneRound : CMethod ℝ N).solve Real.sqrt 1 (unitVec 0)).ret.1
        < (jacobiOneRound : CMethod ℝ N).eps ∧
      euclidRelres Real.sqrt (1 : mat_n ℝ N) (unitVec 0)
          ((jacobiOneRound : CMethod ℝ N).solve Real.sqrt 1 (unitVec 0)).ret.1
        < (jacobiOneRound : CMethod ℝ N).eps := by
  have hinit : (jacobiOneRound : CMethod ℝ N)._init 1 (unitVec 0)
      = (0, unitVec 0, true) := jacobi_init_identity
  refine ⟨?_, ?_, ?_, rfl, ?_, ?_, ?_, ?_⟩
  · intro m A b h
    rcases solve_cases Real.sqrt m A b with ⟨_, e⟩ | ⟨_, j, _, _, _, e⟩ | ⟨_, _, e⟩
    · rw [e] at h
      exact absurd h (by simp)
    · rw [e] at h
      exact absurd h (by simp)
    · rw [e]
  · rw [hinit]
  · rw [hinit]
  · rw [run_identity_one_round]
  · rw [run_identity_one_round, hinit]
    simp [iterate, vec_mulVec_zero]
  · rw [run_identity_one_round]
    show relres Real.sqrt (1 : mat_n ℝ N) (unitVec 0) (unitVec 0)
      < ((1e-6 : ℝ) : FloatVal ℝ)
    rw [relres_identity_unitVec, fin_lt_fin]
    norm_num
  · rw [run_identity_one_round]
    show euclidRelres Real.sqrt (1 : mat_n ℝ N) (unitVec 0) (unitVec 0) < 1e-6
    rw [euclidRelres_identity_unitVec]
    norm_num

/-- C20: for `b ≠ 0`, `K ≥ 1` and `eps ≤ 1`, `CMethod::solve` returns the
count `0` if and only if `_init` reported `converges = false`: the starting
iterate has relative residual `1`, so the converged return never has count
`0`. -/
theorem solve_count_zero_iff (m : CMethod ℝ n) (A : mat_n ℝ n) (b : vec_n ℝ n)
    (hb : b ≠ 0) (hK : 1 ≤ m.K) (heps : m.eps ≤ 1) :
    (m.solve Real.sqrt A b).ret.2 = 0 ↔ (m._init A b).2.2 = false := by
  rcases solve_cases Real.sqrt m A b with ⟨hd, e⟩ | ⟨hc, j, _, hhit, _, e⟩ | ⟨hc, _, e⟩
  · rw [e]
    exact ⟨fun _ => hd, fun _ => rfl⟩
  · rw [e, hc]
    have hj : j ≠ 0 := by
      intro h0
      rw [h0] at hhit
      have _ := hb
      exact relres_start_not_lt A b m.eps heps hhit
    constructor
    · intro h
      exact absurd (Int.ofNat_eq_zero.mp h) hj
    · intro h
      exact absurd h (by simp)
  · rw [e, hc]
    constructor
    · intro h
      have : (m.K : Int) = 0 := by
        have h2 : -(m.K : Int) = 0 := h
        omega
      have : m.K = 0 := Int.ofNat_eq_zero.mp this
      omega
    · intro h
      exact absurd h (by simp)

/-- C20 at a concrete run: Jacobi with the defaults on `A = 1`, `b = e_0`. -/
theorem solve_count_zero_iff_witness :
    (unitVec 0 : vec_n ℝ N) ≠ 0 ∧ 1 ≤ (jacobiTri : CMethod ℝ N).K ∧
      (jacobiTri : CMethod ℝ N).eps ≤ 1 ∧
      (((jacobiTri : CMethod ℝ N).solve Real.sqrt 1 (unitVec 0)).ret.2 = 0
        ↔ ((jacobiTri : CMethod ℝ N)._init 1 (unitVec 0)).2.2 = false) :=
  have hb : (unitVec 0 : vec_n ℝ N) ≠ 0 := by
    intro h
    have := congrFun h (0 : Fin N)
    simp [unitVec] at this
  have hK : 1 ≤ (jacobiTri : CMethod ℝ N).K := by
    show 1 ≤ 1200
    norm_num
  have heps : (jacobiTri : CMethod ℝ N).eps ≤ 1 := by
    show (1e-6 : ℝ) ≤ 1
    norm_num
  ⟨hb, hK, heps, solve_count_zero_iff jacobiTri 1 (unitVec 0) hb hK heps⟩

end Claims

end MpiCpp
